import Mathlib

/-!
# File system simulator: embedding of `src/filesystem.cpp`

The C++ program keeps a tree of heap-allocated `Node`s linked by raw pointers
(`parent`, `children`) and a `FileSystem` object holding `root` and `cwd`.

The embedding keeps the pointer structure explicit:

* a pointer is an address (`Nat`), a nullable pointer is an `Option Nat`;
* the heap is a list of cells indexed by address; `new` appends a cell, `delete`
  empties a cell (addresses are never handed out twice);
* `std::string` is a list of characters;
* every function that follows a pointer returns `none` when the pointer is dangling or
  null (undefined behaviour in C++); loops whose termination depends on the shape of the
  heap (`getPath`, `deleteRec`) carry fuel and return `none` when it runs out. Theorem
  `exec_defined` shows that neither happens in a reachable state whose `cwd` is live.

Layout: the program, the notions used to state properties, lemmas, and at the end the
claims of the specification.
-/

namespace FileSystemSim

/-! ## The program -/

/-- Model of `std::string`. -/
abbrev Str := List Char

/-- Record `struct Node` (lines 16-31): `parent` is a nullable pointer, `children` a vector of
pointers. -/
structure Node where
  name : Str
  isFile : Bool
  content : Str
  parent : Option Nat
  children : List Nat
deriving DecidableEq, Repr

/-- Constructor `Node(n, file, p)` (lines 23-24): empty content, no children. -/
def Node.new (n : Str) (file : Bool) (p : Option Nat) : Node :=
  { name := n, isFile := file, content := [], parent := p, children := [] }

/-- The heap: cell `a` holds the node allocated at address `a`, or nothing once deleted. -/
abbrev Heap := List (Option Node)

/-- Dereference a pointer: `none` when the address was never allocated or was deleted. -/
def deref (h : Heap) (a : Nat) : Option Node := (h[a]?).join

/-- State of `class FileSystem` (lines 35-36) together with the heap its pointers live in. -/
structure FileSystem where
  heap : Heap
  root : Nat
  cwd : Nat
deriving DecidableEq, Repr

/-- Constructor `FileSystem()` (lines 110-113): a root directory with the empty name and no
parent; `cwd = root`. -/
def FileSystem.init : FileSystem :=
  { heap := [some (Node.new [] false none)], root := 0, cwd := 0 }

/-- Loop of `Node::findChild` (lines 27-29) over the children vector: first child whose name
matches, reading each child's name through its pointer. -/
def findChildLoop (h : Heap) : List Nat → Str → Option (Option Nat)
  | [], _ => some none
  | c :: cs, childName =>
    match deref h c with
    | none => none
    | some n => if n.name = childName then some (some c) else findChildLoop h cs childName

/-- Method `Node::findChild` (lines 26-30) called on the node at address `a`. -/
def findChild (h : Heap) (a : Nat) (childName : Str) : Option (Option Nat) :=
  match deref h a with
  | none => none
  | some n => findChildLoop h n.children childName

/-- Loop of `splitPath` (lines 41-49): `parts` and `cur` are the two local variables. -/
def splitPathLoop : List Char → List Str → Str → List Str
  | [], parts, cur => if cur ≠ [] then parts ++ [cur] else parts
  | ch :: rest, parts, cur =>
    if ch = '/' then
      if cur ≠ [] then splitPathLoop rest (parts ++ [cur]) []
      else splitPathLoop rest parts cur
    else splitPathLoop rest parts (cur ++ [ch])

/-- Function `splitPath` (lines 38-51). -/
def splitPath (path : Str) : List Str := splitPathLoop path [] []

/-- The `while` loop of `getPath` (lines 56-59): walk parent pointers up to the root, pushing
names. -/
def getPathLoop (h : Heap) (root : Nat) : Nat → Option Nat → List Str → Option (List Str)
  | 0, _, _ => none
  | _ + 1, none, parts => some parts
  | fuel + 1, some a, parts =>
    if a = root then some parts
    else
      match deref h a with
      | none => none
      | some n => getPathLoop h root fuel n.parent (parts ++ [n.name])

/-- The `for` loop of `getPath` (lines 62-65): append each part, and a separator after every part
but the last. -/
def joinParts : List Str → Str → Str
  | [], p => p
  | [x], p => p ++ x
  | x :: y :: rest, p => joinParts (y :: rest) (p ++ x ++ ['/'])

/-- Function `getPath` (lines 53-67). -/
def getPath (s : FileSystem) (node : Nat) : Option Str :=
  if node = s.root then some ['/']
  else
    match getPathLoop s.heap s.root (s.heap.length + 1) (some node) [] with
    | none => none
    | some parts => some (joinParts parts.reverse ['/'])

/-- The `for` loop of `resolve` (lines 73-86) over the remaining segments, from node `cur`. -/
def resolveLoop (h : Heap) : List Str → Nat → Bool → Option (Option Nat × List Str)
  | [], cur, _ => some (some cur, [])
  | part :: rest, cur, mustExist =>
    if part = ['.'] then resolveLoop h rest cur mustExist
    else if part = ['.', '.'] then
      match deref h cur with
      | none => none
      | some n =>
        match n.parent with
        | some p => resolveLoop h rest p mustExist
        | none => resolveLoop h rest cur mustExist
    else
      match findChild h cur part with
      | none => none
      | some none => if mustExist then some (none, []) else some (some cur, part :: rest)
      | some (some child) => resolveLoop h rest child mustExist

/-- Function `resolve` (lines 69-88): the first component is the node pointer (null on failure),
the second the leftover segments. -/
def resolve (s : FileSystem) (path : Str) (mustExist : Bool) : Option (Option Nat × List Str) :=
  resolveLoop s.heap (splitPath path) (if path.head? = some '/' then s.root else s.cwd) mustExist

/-- Library call `path.find_last_of(c)`: index of the last occurrence, `none` for `npos`. -/
def findLastOfLoop (c : Char) : List Char → Nat → Option Nat → Option Nat
  | [], _, last => last
  | x :: xs, i, last => findLastOfLoop c xs (i + 1) (if x = c then some i else last)

/-- Library call `path.find_last_of('/')`. -/
def findLastOf (path : Str) (c : Char) : Option Nat := findLastOfLoop c path 0 none

/-- The split of the argument into `parentPath` and `newName`, written twice in the source
(lines 121-124 in `mkdir`, lines 143-146 in `touch`). -/
def parentAndName (path : Str) : Str × Str :=
  match findLastOf path '/' with
  | none => ([], path)
  | some pos =>
    if pos = 0 then (['/'], path.drop 1)
    else (path.take pos, path.drop (pos + 1))

/-- What a command reports, one constructor per kind of printed line. -/
inductive Outcome
  /-- Printed line "Parent path does not exist." -/
  | parentNotFound
  /-- Printed line "Directory already exists." (mkdir) or "File already exists." (touch) -/
  | alreadyExists
  /-- Printed line "Directory created: " or "File created: " followed by the display path -/
  | created (path : Str)
  /-- Printed line "File not found." (cat, edit) or "Path not found." (cd, rm) -/
  | notFound
  /-- Printed line "Not a file." -/
  | notAFile
  /-- Printed line "Not a directory." -/
  | notADirectory
  /-- Printed line "Cannot delete root." -/
  | cannotDeleteRoot
  /-- Printed line "Removed." -/
  | removed
  /-- Printed line "File updated." -/
  | updated
  /-- Nothing printed (successful cd). -/
  | silent
  /-- Printed by cat for a file without content: the header with the name, "(empty file)", the
  footer. -/
  | emptyFile (name : Str)
  /-- Printed by cat otherwise: the header with the name, the content and a newline, the
  footer. -/
  | shown (name : Str) (content : Str)
deriving DecidableEq, Repr

/-- The last three statements of `mkdir` (lines 136-138) and of `touch` (lines 158-160):
allocate the node, push its pointer onto the parent's children, print its path. -/
def attach (s : FileSystem) (p : Nat) (newName : Str) (file : Bool) :
    Option (FileSystem × Outcome) :=
  let d := s.heap.length
  let h1 := s.heap ++ [some (Node.new newName file (some p))]
  match deref h1 p with
  | none => none
  | some pn =>
    let s1 : FileSystem :=
      { s with heap := h1.set p (some { pn with children := pn.children ++ [d] }) }
    match getPath s1 d with
    | none => none
    | some shown => some (s1, Outcome.created shown)

/-- Method `FileSystem::mkdir` (lines 119-139). -/
def mkdir (s : FileSystem) (path : Str) : Option (FileSystem × Outcome) :=
  match resolve s (parentAndName path).1 false with
  | none => none
  | some (none, _) => some (s, Outcome.parentNotFound)
  | some (some _, _ :: _) => some (s, Outcome.parentNotFound)
  | some (some p, []) =>
    match findChild s.heap p (parentAndName path).2 with
    | none => none
    | some (some _) => some (s, Outcome.alreadyExists)
    | some none => attach s p (parentAndName path).2 false

/-- Method `FileSystem::touch` (lines 141-161): the leftover of `resolve` is not inspected. -/
def touch (s : FileSystem) (path : Str) : Option (FileSystem × Outcome) :=
  match resolve s (parentAndName path).1 false with
  | none => none
  | some (none, _) => some (s, Outcome.parentNotFound)
  | some (some p, _) =>
    match findChild s.heap p (parentAndName path).2 with
    | none => none
    | some (some _) => some (s, Outcome.alreadyExists)
    | some none => attach s p (parentAndName path).2 true

/-- The input loop of `edit` (lines 183-188): lines are appended, each followed by a newline,
until the line `END`; the loop does not end when the input has no such line. -/
def readUntilEnd : List Str → Str → Option Str
  | [], _ => none
  | line :: rest, text =>
    if line = ['E', 'N', 'D'] then some text
    else readUntilEnd rest (text ++ line ++ ['\n'])

/-- Method `FileSystem::edit` (lines 176-192); `input` is the sequence of lines waiting on the
standard input. -/
def edit (s : FileSystem) (path : Str) (input : List Str) : Option (FileSystem × Outcome) :=
  match resolve s path true with
  | none => none
  | some (none, _) => some (s, Outcome.notFound)
  | some (some a, _) =>
    match deref s.heap a with
    | none => none
    | some n =>
      if n.isFile = false then some (s, Outcome.notAFile)
      else
        match readUntilEnd input [] with
        | none => none
        | some text =>
          some ({ s with heap := s.heap.set a (some { n with content := text }) },
            Outcome.updated)

/-- Method `FileSystem::cd` (lines 194-199). -/
def cd (s : FileSystem) (path : Str) : Option (FileSystem × Outcome) :=
  match resolve s path true with
  | none => none
  | some (none, _) => some (s, Outcome.notFound)
  | some (some a, _) =>
    match deref s.heap a with
    | none => none
    | some n =>
      if n.isFile then some (s, Outcome.notADirectory)
      else some ({ s with cwd := a }, Outcome.silent)

/-- Method `deleteRec` (lines 90-93): delete the subtrees of all children, then the node itself;
deleting a cell that is already empty is a double free. -/
def deleteRec : Nat → Heap → Nat → Option Heap
  | 0, _, _ => none
  | fuel + 1, h, a =>
    match deref h a with
    | none => none
    | some n =>
      match n.children.foldlM (fun acc c => deleteRec fuel acc c) h with
      | none => none
      | some h1 =>
        match deref h1 a with
        | none => none
        | some _ => some (h1.set a none)

/-- Method `FileSystem::rm` (lines 217-227): the erase-remove idiom drops every occurrence of the
pointer from the parent's children. -/
def rm (s : FileSystem) (path : Str) : Option (FileSystem × Outcome) :=
  match resolve s path true with
  | none => none
  | some (none, _) => some (s, Outcome.notFound)
  | some (some n, _) =>
    if n = s.root then some (s, Outcome.cannotDeleteRoot)
    else
      match deref s.heap n with
      | none => none
      | some nd =>
        match nd.parent with
        | none => none
        | some p =>
          match deref s.heap p with
          | none => none
          | some pn =>
            let h1 := s.heap.set p (some { pn with children := pn.children.filter (fun c => c ≠ n) })
            match deleteRec (h1.length + 1) h1 n with
            | none => none
            | some h2 => some ({ s with heap := h2 }, Outcome.removed)

/-- Method `FileSystem::cat` (lines 163-174). -/
def cat (s : FileSystem) (path : Str) : Option Outcome :=
  match resolve s path true with
  | none => none
  | some (none, _) => some Outcome.notFound
  | some (some a, _) =>
    match deref s.heap a with
    | none => none
    | some n =>
      if n.isFile = false then some Outcome.notAFile
      else if n.content = [] then some (Outcome.emptyFile n.name)
      else some (Outcome.shown n.name n.content)

/-- Comparison `a < b` of two `std::string`s: lexicographic, character by character, a proper
prefix being smaller. -/
def strLt : Str → Str → Bool
  | [], [] => false
  | [], _ :: _ => true
  | _ :: _, [] => false
  | a :: as, b :: bs => if a < b then true else if b < a then false else strLt as bs

/-- Order `a <= b` used to state that a sequence of strings is sorted: `b < a` does not hold. -/
def StrLe (a b : Str) : Prop := strLt b a = false

instance : DecidableRel StrLe := fun a b => by unfold StrLe; infer_instance

/-- Library call `sort(out.begin(), out.end())` on strings: the sorted arrangement of the
vector (insertion sort computes it). -/
def sortStrings (out : List Str) : List Str := List.insertionSort StrLe out

/-- The loop of `ls` (lines 207-208): the name of each child, with `/` appended for a
directory. -/
def lsNames (h : Heap) : List Nat → Option (List Str)
  | [] => some []
  | c :: cs =>
    match deref h c with
    | none => none
    | some cn =>
      match lsNames h cs with
      | none => none
      | some rest => some ((if cn.isFile then cn.name else cn.name ++ ['/']) :: rest)

/-- What `ls` prints: "(empty)", or the entries in order, each followed by two blanks. -/
inductive LsOutput
  | empty
  | entries (out : List Str)
deriving DecidableEq, Repr

/-- Method `FileSystem::ls` (lines 201-213). -/
def ls (s : FileSystem) : Option LsOutput :=
  match deref s.heap s.cwd with
  | none => none
  | some n =>
    if n.children = [] then some LsOutput.empty
    else
      match lsNames s.heap n.children with
      | none => none
      | some out => some (LsOutput.entries (sortStrings out))

/-- Method `FileSystem::pwd` (line 215): the printed path. -/
def pwd (s : FileSystem) : Option Str := getPath s s.cwd

/-- Connector printed before the name of a last child. -/
def branchLast : Str := ['└', '─', '─', ' ']

/-- Connector printed before the name of a child that has later siblings. -/
def branchMid : Str := ['├', '─', '─', ' ']

/-- Line printed by `printTree` for one node (lines 96-101). -/
def treeLine (root node : Nat) (n : Node) (pre : Str) (isLast : Bool) : Str :=
  if node = root then ['/']
  else pre ++ (if isLast then branchLast else branchMid) ++ n.name ++
    (if n.isFile then [] else ['/'])

/-- Method `printTree` (lines 95-107). The result lists the printed lines in order, each paired
with the address of the node it was printed for. -/
def printTree (h : Heap) (root : Nat) : Nat → Nat → Str → Bool → Option (List (Nat × Str))
  | 0, _, _, _ => none
  | fuel + 1, node, pre, isLast =>
    match deref h node with
    | none => none
    | some n =>
      n.children.enum.foldlM
        (fun acc ic =>
          match printTree h root fuel ic.2
              (pre ++ (if isLast then [' ', ' ', ' ', ' '] else ['│', ' ', ' ', ' ']))
              (decide (ic.1 = n.children.length - 1)) with
          | none => none
          | some lines => some (acc ++ lines))
        [(node, treeLine root node n pre isLast)]

/-- Method `FileSystem::tree` (line 229): the printed lines. -/
def tree (s : FileSystem) : Option (List Str) :=
  match printTree s.heap s.root (s.heap.length + 1) s.cwd [] true with
  | none => none
  | some out => some (out.map Prod.snd)

/-- The `while` loop of `search` (lines 236-240): the back of the vector `stack` is its last
element. -/
def searchLoop (h : Heap) (name : Str) : Nat → List Nat → List Nat → Option (List Nat)
  | 0, _, _ => none
  | fuel + 1, stack, results =>
    match stack.getLast? with
    | none => some results
    | some cur =>
      match deref h cur with
      | none => none
      | some n =>
        searchLoop h name fuel (stack.dropLast ++ n.children)
          (if n.name = name then results ++ [cur] else results)

/-- One printed line of `search` (line 245): the display path, with `/` appended for a
directory. -/
def searchLine (s : FileSystem) (a : Nat) : Option Str :=
  match getPath s a, deref s.heap a with
  | some p, some n => some (p ++ (if n.isFile then [] else ['/']))
  | _, _ => none

/-- What `search` prints: "Not found.", or one line per match. -/
inductive SearchOutput
  | notFound
  | found (lines : List Str)
deriving DecidableEq, Repr

/-- The nodes collected by `search` (lines 232-240), in the order of `results`. -/
def searchNodes (s : FileSystem) (name : Str) : Option (List Nat) :=
  searchLoop s.heap name (s.heap.length + 1) [s.root] []

/-- Method `FileSystem::search` (lines 231-246). -/
def search (s : FileSystem) (name : Str) : Option SearchOutput :=
  match searchNodes s name with
  | none => none
  | some results =>
    if results = [] then some SearchOutput.notFound
    else
      match results.mapM (searchLine s) with
      | none => none
      | some lines => some (SearchOutput.found lines)

/-- The state-changing commands the dispatcher of `main` (lines 285-290) can issue. -/
inductive Cmd
  | mkdir (path : Str)
  | touch (path : Str)
  | edit (path : Str) (input : List Str)
  | cd (path : Str)
  | rm (path : Str)
deriving DecidableEq, Repr

/-- The path argument of a command. -/
def Cmd.path : Cmd → Str
  | Cmd.mkdir path => path
  | Cmd.touch path => path
  | Cmd.edit path _ => path
  | Cmd.cd path => path
  | Cmd.rm path => path

/-- One dispatched command. -/
def exec (s : FileSystem) : Cmd → Option (FileSystem × Outcome)
  | Cmd.mkdir path => mkdir s path
  | Cmd.touch path => touch s path
  | Cmd.edit path input => edit s path input
  | Cmd.cd path => cd s path
  | Cmd.rm path => rm s path

/-- A session: the commands in order, from the state `s`. -/
def run (s : FileSystem) : List Cmd → Option FileSystem
  | [] => some s
  | c :: cs =>
    match exec s c with
    | none => none
    | some (s1, _) => run s1 cs

/-! ## Sessions, reachable states and the tree -/

/-- States reachable from `s0` by commands that all satisfy `ok`. -/
inductive ReachableFrom (ok : Cmd → Prop) (s0 : FileSystem) : FileSystem → Prop
  | start : ReachableFrom ok s0 s0
  | step {s s1 : FileSystem} {c : Cmd} {o : Outcome} :
      ReachableFrom ok s0 s → ok c → exec s c = some (s1, o) → ReachableFrom ok s0 s1

/-- States reachable from the initial state by any sequence of mkdir/touch/edit/cd/rm. -/
def Reachable (s : FileSystem) : Prop := ReachableFrom (fun _ => True) FileSystem.init s

/-- Arguments of `mkdir` and `touch` that name something: not empty and not ending in the
separator. -/
def CreateArgOk : Cmd → Prop
  | Cmd.mkdir path => path ≠ [] ∧ path.getLast? ≠ some '/'
  | Cmd.touch path => path ≠ [] ∧ path.getLast? ≠ some '/'
  | _ => True

instance : DecidablePred CreateArgOk := fun c => by
  cases c <;> unfold CreateArgOk <;> infer_instance

/-- Node `b` is reached from `a` by descending through children whose names are `names`. -/
inductive Descends (h : Heap) (a : Nat) : List Str → Nat → Prop
  | here : Descends h a [] a
  | child {names : List Str} {p c : Nat} {pn cn : Node} :
      Descends h a names p → deref h p = some pn → c ∈ pn.children → deref h c = some cn →
      Descends h a (names ++ [cn.name]) c

/-- Node `a` is present in the tree: the root is live and `a` is reached from it. -/
def InTree (s : FileSystem) (a : Nat) : Prop :=
  (deref s.heap s.root).isSome ∧ ∃ names, Descends s.heap s.root names a

/-- Node `x` belongs to the subtree rooted at `a`. -/
def Under (h : Heap) (a x : Nat) : Prop := ∃ names, Descends h a names x

/-- Name stored at an address, when the cell is live. -/
def nameOf (h : Heap) (c : Nat) : Option Str := (deref h c).map Node.name

/-- A name that `resolve` treats as a child name: not empty, not `.`, not `..`. -/
def Normal (x : Str) : Prop := x ≠ [] ∧ x ≠ ['.'] ∧ x ≠ ['.', '.']

instance (x : Str) : Decidable (Normal x) := by unfold Normal; infer_instance

/-- Depth-first pre-order of the subtree at `a`, as the specification words it: the node itself
first, then the pre-orders of its children one after the other, in the order of the children
sequence. -/
def specPreorder (h : Heap) : Nat → Nat → List Nat
  | 0, _ => []
  | fuel + 1, a =>
    match deref h a with
    | none => []
    | some n => a :: (n.children.map (specPreorder h fuel)).flatten

/-- Children sequences are in creation order: `new` hands out addresses in increasing order, so
a node created earlier has the smaller address, and every children sequence is increasing. -/
def CreationOrder (h : Heap) : Prop :=
  ∀ a n, deref h a = some n → n.children.Sorted (fun x y => x < y)

/-- The path made of `n` segments `..` separated by `/` (relative form; the absolute form puts
a `/` in front). -/
def dotdotPath (n : Nat) : Str := List.intercalate ['/'] (List.replicate n ['.', '.'])

/-- Splitting a string on `/`, as the specification words it: the pieces between separators,
empty pieces included. -/
def splitOnSep : Str → List Str
  | [] => [[]]
  | c :: cs =>
    if c = '/' then [] :: splitOnSep cs
    else
      match splitOnSep cs with
      | [] => [[c]]
      | x :: xs => (c :: x) :: xs

/-- Segmentation as the specification words it: split on `/`, discard the empty pieces. -/
def specSegments (path : Str) : List Str := (splitOnSep path).filter (fun x => x ≠ [])

/-- Text assembled by the input loop of `edit` from the lines typed before `END`. -/
def linesText (lines : List Str) : Str := (lines.map (fun l => l ++ ['\n'])).flatten

/-- Entry of a child in a listing: its name for a file, its name followed by `/` for a
directory. -/
def lsEntry (h : Heap) (c : Nat) : Str :=
  match deref h c with
  | some cn => if cn.isFile then cn.name else cn.name ++ ['/']
  | none => []

/-! ## Invariants and relations between heaps -/

/-- Shape of the heap that every command maintains: the root is live, has no parent and the
empty name; a child cell is live, was allocated after its parent and points back to it; sibling
names are pairwise different; names contain no separator; a parent pointer goes to an older
address and, when its target is live and not the root, that target has a normal name. -/
structure WFH (h : Heap) (root : Nat) : Prop where
  rootLive : ∃ r, deref h root = some r ∧ r.parent = none ∧ r.name = []
  childOk : ∀ a n, deref h a = some n → ∀ c ∈ n.children,
    a < c ∧ ∃ m, deref h c = some m ∧ m.parent = some a
  namesNodup : ∀ a n, deref h a = some n → (n.children.map (nameOf h)).Nodup
  noSlash : ∀ a n, deref h a = some n → '/' ∉ n.name
  parentLt : ∀ a n p, deref h a = some n → n.parent = some p → p < a
  parentNormal : ∀ a n p pn, deref h a = some n → n.parent = some p → deref h p = some pn →
    p = root ∨ Normal pn.name

/-- Address `a` is the root or, when live, carries a normal name. -/
def RootOrNormal (h : Heap) (root : Nat) (a : Nat) : Prop :=
  ∀ n, deref h a = some n → a = root ∨ Normal n.name

/-- Invariant of the session state; `cwd` may dangle, but only into an address already handed
out. -/
structure WF (s : FileSystem) : Prop where
  heapOk : WFH s.heap s.root
  cwdLt : s.cwd < s.heap.length
  cwdOk : RootOrNormal s.heap s.root s.cwd

/-- Links from child to parent that every command maintains: a live node other than the root has
a parent pointer, and the target of a parent pointer is live and lists the node among its
children. -/
structure Linked (h : Heap) (root : Nat) : Prop where
  hasParent : ∀ a n, deref h a = some n → a ≠ root → ∃ p, n.parent = some p
  parentHas : ∀ a n p, deref h a = some n → n.parent = some p →
    ∃ pn, deref h p = some pn ∧ a ∈ pn.children

/-- Heap `h1` is `h` with some cells emptied and nothing else changed. -/
def Shrinks (h h1 : Heap) : Prop :=
  h1.length = h.length ∧ ∀ x, deref h1 x = none ∨ deref h1 x = deref h x

/-- Every cell that is live in `h` and empty in `h1` is `a` itself or a child of such a cell. -/
def FreedUnder (h h1 : Heap) (a : Nat) : Prop :=
  ∀ x, deref h x ≠ none → deref h1 x = none →
    x = a ∨ ∃ y yn, deref h y = some yn ∧ deref h1 y = none ∧ x ∈ yn.children

/-- Heap `h2` extends `h`: every live node is still live with the same name and parent, and its
children sequence has only grown at the end. -/
def Extends (h h2 : Heap) : Prop :=
  ∀ x n, deref h x = some n → ∃ n2, deref h2 x = some n2 ∧ n2.name = n.name ∧
    n2.parent = n.parent ∧ ∃ extra, n2.children = n.children ++ extra

/-! ## Concrete sessions -/

/-- State after `mkdir /a` in a fresh session. -/
def stateA : FileSystem :=
  { heap := [some ⟨[], false, [], none, [1]⟩, some ⟨['a'], false, [], some 0, []⟩],
    root := 0, cwd := 0 }

/-- State after `mkdir /a`, `mkdir /a/b` in a fresh session. -/
def stateAB : FileSystem :=
  { heap := [some ⟨[], false, [], none, [1]⟩, some ⟨['a'], false, [], some 0, [2]⟩,
             some ⟨['b'], false, [], some 1, []⟩],
    root := 0, cwd := 0 }

/-- State after `mkdir a`, `cd a` in a fresh session. -/
def stateInA : FileSystem :=
  { heap := [some ⟨[], false, [], none, [1]⟩, some ⟨['a'], false, [], some 0, []⟩],
    root := 0, cwd := 1 }

/-- State after `mkdir a`, `cd a`, `mkdir /a/b` in a fresh session. -/
def stateInAB : FileSystem :=
  { heap := [some ⟨[], false, [], none, [1]⟩, some ⟨['a'], false, [], some 0, [2]⟩,
             some ⟨['b'], false, [], some 1, []⟩],
    root := 0, cwd := 1 }

/-- State after `mkdir /` in a fresh session: a second directory with the empty name. -/
def stateMkdirSlash : FileSystem :=
  { heap := [some ⟨[], false, [], none, [1]⟩, some ⟨[], false, [], some 0, []⟩],
    root := 0, cwd := 0 }

/-- State after `mkdir /a`, `mkdir /a/` in a fresh session: `a` owns a directory with the empty
name. -/
def stateTrailingSep : FileSystem :=
  { heap := [some ⟨[], false, [], none, [1]⟩, some ⟨['a'], false, [], some 0, [2]⟩,
             some ⟨[], false, [], some 1, []⟩],
    root := 0, cwd := 0 }

/-- State after `mkdir /a`, `mkdir /a/..` in a fresh session: `a` owns a directory named
`..`. -/
def stateDotDot : FileSystem :=
  { heap := [some ⟨[], false, [], none, [1]⟩, some ⟨['a'], false, [], some 0, [2]⟩,
             some ⟨['.', '.'], false, [], some 1, []⟩],
    root := 0, cwd := 0 }

/-- State after `touch /x` in a fresh session. -/
def stateX : FileSystem :=
  { heap := [some ⟨[], false, [], none, [1]⟩, some ⟨['x'], true, [], some 0, []⟩],
    root := 0, cwd := 0 }

/-- State after `touch /f` in a fresh session. -/
def stateF : FileSystem :=
  { heap := [some ⟨[], false, [], none, [1]⟩, some ⟨['f'], true, [], some 0, []⟩],
    root := 0, cwd := 0 }

/-- State after `touch /f`, `mkdir /f/d` in a fresh session: the file `f` owns the directory
`d`. -/
def stateFileChild : FileSystem :=
  { heap := [some ⟨[], false, [], none, [1]⟩, some ⟨['f'], true, [], some 0, [2]⟩,
             some ⟨['d'], false, [], some 1, []⟩],
    root := 0, cwd := 0 }

/-- State after `mkdir a`, `touch b` in a fresh session. -/
def stateTwo : FileSystem :=
  { heap := [some ⟨[], false, [], none, [1, 2]⟩, some ⟨['a'], false, [], some 0, []⟩,
             some ⟨['b'], true, [], some 0, []⟩],
    root := 0, cwd := 0 }

/-- State after `mkdir a`, `cd a`, `rm /a` in a fresh session: the cell of `a` is empty and
`cwd` still holds its address. -/
def stateDangling : FileSystem :=
  { heap := [some ⟨[], false, [], none, []⟩, none], root := 0, cwd := 1 }

/-- State after `mkdir /a`, `mkdir /a/b`, `touch /a/b/c.txt`, `cd /a/b` in a fresh session. -/
def stateScenario : FileSystem :=
  { heap := [some ⟨[], false, [], none, [1]⟩, some ⟨['a'], false, [], some 0, [2]⟩,
             some ⟨['b'], false, [], some 1, [3]⟩,
             some ⟨['c', '.', 't', 'x', 't'], true, [], some 2, []⟩],
    root := 0, cwd := 2 }

/-- The state `stateScenario` after `edit c.txt` with the input lines `hello`, `END`. -/
def stateEdited : FileSystem :=
  { heap := [some ⟨[], false, [], none, [1]⟩, some ⟨['a'], false, [], some 0, [2]⟩,
             some ⟨['b'], false, [], some 1, [3]⟩,
             some ⟨['c', '.', 't', 'x', 't'], true, ['h', 'e', 'l', 'l', 'o', '\n'], some 2, []⟩],
    root := 0, cwd := 2 }

/-- State after `mkdir b`, `touch a` in a fresh session. -/
def stateBA : FileSystem :=
  { heap := [some ⟨[], false, [], none, [1, 2]⟩, some ⟨['b'], false, [], some 0, []⟩,
             some ⟨['a'], true, [], some 0, []⟩],
    root := 0, cwd := 0 }

end FileSystemSim

namespace FileSystemSim

set_option maxRecDepth 100000

/-! ## Heap lemmas -/

theorem deref_lt {h : Heap} {a : Nat} {n : Node} (hd : deref h a = some n) : a < h.length := by
  by_contra hlt
  have : h[a]? = none := List.getElem?_eq_none (Nat.le_of_not_lt hlt)
  simp [deref, this] at hd

theorem deref_length (h : Heap) : deref h h.length = none := by
  simp [deref]

theorem deref_append_old {h : Heap} (l : Heap) {a : Nat} (ha : a < h.length) :
    deref (h ++ l) a = deref h a := by
  simp [deref, List.getElem?_append_left ha]

theorem deref_append_new (h : Heap) (x : Option Node) : deref (h ++ [x]) h.length = x := by
  simp [deref]

theorem deref_set_same {h : Heap} {a : Nat} (x : Option Node) (ha : a < h.length) :
    deref (h.set a x) a = x := by
  simp [deref, List.getElem?_set, ha]

theorem deref_set_other {h : Heap} {a b : Nat} (x : Option Node) (hab : a ≠ b) :
    deref (h.set a x) b = deref h b := by
  simp [deref, List.getElem?_set, hab]

theorem WF_init : WF FileSystem.init := by
  have hd : ∀ a n, deref FileSystem.init.heap a = some n → a = 0 ∧ n = Node.new [] false none := by
    intro a n h
    match a with
    | 0 => simpa [FileSystem.init, deref] using h.symm
    | k + 1 => simp [FileSystem.init, deref] at h
  refine ⟨⟨⟨Node.new [] false none, rfl, rfl, rfl⟩, ?_, ?_, ?_, ?_, ?_⟩, by decide, ?_⟩
  · intro a n h c hc
    obtain ⟨-, rfl⟩ := hd a n h
    simp [Node.new] at hc
  · intro a n h
    obtain ⟨-, rfl⟩ := hd a n h
    simp [Node.new]
  · intro a n h
    obtain ⟨-, rfl⟩ := hd a n h
    simp [Node.new]
  · intro a n p h hp
    obtain ⟨-, rfl⟩ := hd a n h
    simp [Node.new] at hp
  · intro a n p pn h hp
    obtain ⟨-, rfl⟩ := hd a n h
    simp [Node.new] at hp
  · intro n _
    left; rfl

/-- Replacing a live node by one with the same name and parent keeps the heap well formed,
provided the new children are live cells allocated later that point back to the node and bear
pairwise different names. -/
theorem WFH_set_gen {h : Heap} {root a : Nat} {n n1 : Node} (wf : WFH h root)
    (ha : deref h a = some n) (hname : n1.name = n.name) (hpar : n1.parent = n.parent)
    (hch : ∀ c ∈ n1.children, a < c ∧ ∃ m, deref h c = some m ∧ m.parent = some a)
    (hnd : (n1.children.map (nameOf h)).Nodup) : WFH (h.set a (some n1)) root := by
  have halt := deref_lt ha
  have key : ∀ x m1, deref (h.set a (some n1)) x = some m1 →
      (x = a ∧ m1 = n1) ∨ (x ≠ a ∧ deref h x = some m1) := by
    intro x m1 hx
    by_cases hxa : a = x
    · subst hxa
      rw [deref_set_same _ halt] at hx
      cases hx
      exact Or.inl ⟨rfl, rfl⟩
    · rw [deref_set_other _ hxa] at hx
      exact Or.inr ⟨Ne.symm hxa, hx⟩
  have key1 : ∀ x m1, deref (h.set a (some n1)) x = some m1 →
      ∃ m, deref h x = some m ∧ m1.name = m.name ∧ m1.parent = m.parent := by
    intro x m1 hx
    rcases key x m1 hx with ⟨rfl, rfl⟩ | ⟨-, h0⟩
    · exact ⟨n, ha, hname, hpar⟩
    · exact ⟨m1, h0, rfl, rfl⟩
  have key2 : ∀ x m, deref h x = some m →
      ∃ m1, deref (h.set a (some n1)) x = some m1 ∧ m1.name = m.name ∧ m1.parent = m.parent := by
    intro x m hx
    by_cases hxa : a = x
    · subst hxa
      rw [deref_set_same _ halt]
      rw [ha] at hx; cases hx
      exact ⟨n1, rfl, hname, hpar⟩
    · rw [deref_set_other _ hxa]
      exact ⟨m, hx, rfl, rfl⟩
  have hnames : nameOf (h.set a (some n1)) = nameOf h := by
    funext x
    unfold nameOf
    cases hx : deref h x with
    | none =>
      cases hx1 : deref (h.set a (some n1)) x with
      | none => rfl
      | some m1 =>
        obtain ⟨m, hm, -⟩ := key1 x m1 hx1
        rw [hx] at hm; cases hm
    | some m =>
      obtain ⟨m1, hm1, hn, -⟩ := key2 x m hx
      simp [hm1, hn]
  obtain ⟨r, hr, hrp, hrn⟩ := wf.rootLive
  refine ⟨?_, ?_, ?_, ?_, ?_, ?_⟩
  · obtain ⟨r1, hr1, hn1, hp1⟩ := key2 root r hr
    exact ⟨r1, hr1, by rw [hp1, hrp], by rw [hn1, hrn]⟩
  · intro x m1 hx c hc
    have hold : x < c ∧ ∃ cm, deref h c = some cm ∧ cm.parent = some x := by
      rcases key x m1 hx with ⟨rfl, rfl⟩ | ⟨-, h0⟩
      · exact hch c hc
      · exact wf.childOk x m1 h0 c hc
    obtain ⟨hlt, cm, hcm, hcp⟩ := hold
    obtain ⟨cm1, hcm1, -, hp1⟩ := key2 c cm hcm
    exact ⟨hlt, cm1, hcm1, by rw [hp1, hcp]⟩
  · intro x m1 hx
    rw [hnames]
    rcases key x m1 hx with ⟨rfl, rfl⟩ | ⟨-, h0⟩
    · exact hnd
    · exact wf.namesNodup x m1 h0
  · intro x m1 hx
    obtain ⟨m, hm, hn, -⟩ := key1 x m1 hx
    rw [hn]; exact wf.noSlash x m hm
  · intro x m1 p hx hp
    obtain ⟨m, hm, -, hpp⟩ := key1 x m1 hx
    exact wf.parentLt x m p hm (by rw [← hpp]; exact hp)
  · intro x m1 p pn1 hx hp hpn
    obtain ⟨m, hm, -, hpp⟩ := key1 x m1 hx
    obtain ⟨pn, hpn0, hpname, -⟩ := key1 p pn1 hpn
    rw [hpname]
    exact wf.parentNormal x m p pn hm (by rw [← hpp]; exact hp) hpn0

/-- Special case: the new children are a sublist of the old ones (content edits, removal of a
child pointer). -/
theorem WFH_set {h : Heap} {root a : Nat} {n n1 : Node} (wf : WFH h root)
    (ha : deref h a = some n) (hname : n1.name = n.name) (hpar : n1.parent = n.parent)
    (hch : n1.children.Sublist n.children) : WFH (h.set a (some n1)) root :=
  WFH_set_gen wf ha hname hpar (fun c hc => wf.childOk a n ha c (hch.subset hc))
    (List.Nodup.sublist (hch.map _) (wf.namesNodup a n ha))

/-- Allocating a fresh cell whose node has no children keeps the heap well formed. -/
theorem WFH_alloc {h : Heap} {root p : Nat} {pn : Node} (wf : WFH h root) (nm : Str)
    (file : Bool) (hp : deref h p = some pn) (hslash : '/' ∉ nm)
    (hpn : p = root ∨ Normal pn.name) :
    WFH (h ++ [some (Node.new nm file (some p))]) root := by
  have key : ∀ x m, deref (h ++ [some (Node.new nm file (some p))]) x = some m →
      (x = h.length ∧ m = Node.new nm file (some p)) ∨ (x < h.length ∧ deref h x = some m) := by
    intro x m hx
    rcases Nat.lt_trichotomy x h.length with hlt | heq | hgt
    · rw [deref_append_old _ hlt] at hx
      exact Or.inr ⟨hlt, hx⟩
    · subst heq
      rw [deref_append_new] at hx
      cases hx
      exact Or.inl ⟨rfl, rfl⟩
    · have := deref_lt hx
      simp at this
      omega
  have key2 : ∀ x m, deref h x = some m →
      deref (h ++ [some (Node.new nm file (some p))]) x = some m := by
    intro x m hx
    rw [deref_append_old _ (deref_lt hx)]; exact hx
  obtain ⟨r, hr, hrp, hrn⟩ := wf.rootLive
  refine ⟨⟨r, key2 _ _ hr, hrp, hrn⟩, ?_, ?_, ?_, ?_, ?_⟩
  · intro x m hx c hc
    rcases key x m hx with ⟨rfl, rfl⟩ | ⟨-, h0⟩
    · simp [Node.new] at hc
    · obtain ⟨hlt, cm, hcm, hcp⟩ := wf.childOk x m h0 c hc
      exact ⟨hlt, cm, key2 _ _ hcm, hcp⟩
  · intro x m hx
    rcases key x m hx with ⟨rfl, rfl⟩ | ⟨-, h0⟩
    · simp [Node.new]
    · have hnd := wf.namesNodup x m h0
      have heq : m.children.map (nameOf (h ++ [some (Node.new nm file (some p))])) =
          m.children.map (nameOf h) := by
        apply List.map_congr_left
        intro c hc
        obtain ⟨-, cm, hcm, -⟩ := wf.childOk x m h0 c hc
        simp [nameOf, hcm, key2 _ _ hcm]
      rw [heq]; exact hnd
  · intro x m hx
    rcases key x m hx with ⟨rfl, rfl⟩ | ⟨-, h0⟩
    · simpa [Node.new] using hslash
    · exact wf.noSlash x m h0
  · intro x m q hx hq
    rcases key x m hx with ⟨rfl, rfl⟩ | ⟨-, h0⟩
    · simp [Node.new] at hq
      subst hq
      exact deref_lt hp
    · exact wf.parentLt x m q h0 hq
  · intro x m q qn hx hq hqn
    rcases key x m hx with ⟨rfl, rfl⟩ | ⟨hxlt, h0⟩
    · simp [Node.new] at hq
      subst hq
      rw [key2 _ _ hp] at hqn
      cases hqn
      exact hpn
    · have hqlt := wf.parentLt x m q h0 hq
      rcases key q qn hqn with ⟨rfl, -⟩ | ⟨-, hq0⟩
      · omega
      · exact wf.parentNormal x m q qn h0 hq hq0

/-! ## `findChild` -/

theorem findChildLoop_none {h : Heap} {cs : List Nat} {nm : Str}
    (hf : findChildLoop h cs nm = some none) :
    ∀ c ∈ cs, ∃ n, deref h c = some n ∧ n.name ≠ nm := by
  induction cs with
  | nil => intro c hc; cases hc
  | cons x xs ih =>
    intro c hc
    unfold findChildLoop at hf
    cases hx : deref h x with
    | none => simp [hx] at hf
    | some n =>
      simp only [hx] at hf
      by_cases hn : n.name = nm
      · simp [hn] at hf
      · simp only [hn, if_false] at hf
        rcases List.mem_cons.mp hc with rfl | hc
        · exact ⟨n, hx, hn⟩
        · exact ih hf c hc

theorem findChildLoop_some {h : Heap} {cs : List Nat} {nm : Str} {c : Nat}
    (hf : findChildLoop h cs nm = some (some c)) :
    c ∈ cs ∧ ∃ n, deref h c = some n ∧ n.name = nm := by
  induction cs with
  | nil => simp [findChildLoop] at hf
  | cons x xs ih =>
    unfold findChildLoop at hf
    cases hx : deref h x with
    | none => simp [hx] at hf
    | some n =>
      simp only [hx] at hf
      by_cases hn : n.name = nm
      · simp only [hn, if_true, Option.some.injEq] at hf
        subst hf
        exact ⟨List.mem_cons_self _ _, n, hx, hn⟩
      · simp only [hn, if_false] at hf
        obtain ⟨h1, h2⟩ := ih hf
        exact ⟨List.mem_cons_of_mem _ h1, h2⟩

/-- With live children and pairwise different names, the lookup returns the child that bears the
name. -/
theorem findChildLoop_unique {h : Heap} {cs : List Nat} {nm : Str} {c : Nat} {cn : Node}
    (hlive : ∀ x ∈ cs, ∃ n, deref h x = some n)
    (hnd : (cs.map (nameOf h)).Nodup) (hc : c ∈ cs) (hcn : deref h c = some cn)
    (hname : cn.name = nm) : findChildLoop h cs nm = some (some c) := by
  induction cs with
  | nil => cases hc
  | cons x xs ih =>
    unfold findChildLoop
    obtain ⟨n, hx⟩ := hlive x (List.mem_cons_self _ _)
    simp only [hx]
    rw [List.map_cons, List.nodup_cons] at hnd
    by_cases hxc : x = c
    · subst hxc
      rw [hcn] at hx; cases hx
      simp [hname]
    · have hc1 : c ∈ xs := by
        rcases List.mem_cons.mp hc with h1 | h1
        · exact absurd h1.symm hxc
        · exact h1
      have hne : n.name ≠ nm := by
        intro he
        apply hnd.1
        rw [List.mem_map]
        exact ⟨c, hc1, by simp [nameOf, hcn, hx, hname, he]⟩
      simp only [hne, if_false]
      exact ih (fun y hy => hlive y (List.mem_cons_of_mem _ hy)) hnd.2 hc1

theorem findChild_none {h : Heap} {a : Nat} {nm : Str} (hf : findChild h a nm = some none) :
    ∃ n, deref h a = some n ∧ ∀ c ∈ n.children, ∃ m, deref h c = some m ∧ m.name ≠ nm := by
  unfold findChild at hf
  cases ha : deref h a with
  | none => simp [ha] at hf
  | some n =>
    simp only [ha] at hf
    exact ⟨n, rfl, findChildLoop_none hf⟩

theorem findChild_some {h : Heap} {a : Nat} {nm : Str} {c : Nat}
    (hf : findChild h a nm = some (some c)) :
    ∃ n, deref h a = some n ∧ c ∈ n.children ∧ ∃ m, deref h c = some m ∧ m.name = nm := by
  unfold findChild at hf
  cases ha : deref h a with
  | none => simp [ha] at hf
  | some n =>
    simp only [ha] at hf
    obtain ⟨h1, h2⟩ := findChildLoop_some hf
    exact ⟨n, rfl, h1, h2⟩

/-! ## `deleteRec` only empties cells -/

theorem Shrinks.refl (h : Heap) : Shrinks h h := ⟨rfl, fun _ => Or.inr rfl⟩

theorem Shrinks.trans {h1 h2 h3 : Heap} (a : Shrinks h1 h2) (b : Shrinks h2 h3) :
    Shrinks h1 h3 := by
  refine ⟨b.1.trans a.1, fun x => ?_⟩
  rcases b.2 x with hb | hb
  · exact Or.inl hb
  · rcases a.2 x with ha | ha
    · exact Or.inl (hb.trans ha)
    · exact Or.inr (hb.trans ha)

theorem Shrinks.free (h : Heap) (a : Nat) : Shrinks h (h.set a none) := by
  refine ⟨by simp, fun x => ?_⟩
  by_cases hxa : a = x
  · subst hxa
    left
    simp [deref, List.getElem?_set]
  · right; exact deref_set_other _ hxa

theorem Shrinks.live {h h1 : Heap} (sh : Shrinks h h1) {x : Nat} {n : Node}
    (hx : deref h1 x = some n) : deref h x = some n := by
  rcases sh.2 x with h0 | h0
  · rw [h0] at hx; cases hx
  · rw [← h0]; exact hx

theorem deleteRec_spec : ∀ (fuel : Nat) (h : Heap) (a : Nat) (h1 : Heap),
    deleteRec fuel h a = some h1 → Shrinks h h1 ∧ deref h1 a = none ∧ FreedUnder h h1 a := by
  intro fuel
  induction fuel with
  | zero => intro h a h1 hd; simp [deleteRec] at hd
  | succ fuel ih =>
    intro h a h1 hd
    unfold deleteRec at hd
    cases ha : deref h a with
    | none => simp [ha] at hd
    | some n =>
      simp only [ha] at hd
      -- the loop over the children
      have loop : ∀ (cs : List Nat) (g g1 : Heap),
          cs.foldlM (fun acc c => deleteRec fuel acc c) g = some g1 →
          Shrinks g g1 ∧ (∀ c ∈ cs, deref g1 c = none) ∧
          ∀ x, deref g x ≠ none → deref g1 x = none →
            x ∈ cs ∨ ∃ y yn, deref g y = some yn ∧ deref g1 y = none ∧ x ∈ yn.children := by
        intro cs
        induction cs with
        | nil =>
          intro g g1 hg
          simp only [List.foldlM_nil] at hg
          cases hg
          exact ⟨Shrinks.refl _, fun c hc => (by cases hc), fun x h0 h1 => absurd h1 h0⟩
        | cons c cs ihc =>
          intro g g1 hg
          rw [List.foldlM_cons] at hg
          cases hc : deleteRec fuel g c with
          | none => simp [hc] at hg
          | some g2 =>
            simp only [hc, Option.bind_eq_bind, Option.some_bind] at hg
            obtain ⟨s1, f1, u1⟩ := ih g c g2 hc
            obtain ⟨s2, f2, u2⟩ := ihc g2 g1 hg
            refine ⟨s1.trans s2, ?_, ?_⟩
            · intro y hy
              rcases List.mem_cons.mp hy with rfl | hy
              · rcases s2.2 y with h0 | h0
                · exact h0
                · rw [h0]; exact f1
              · exact f2 y hy
            · intro x hx0 hx1
              by_cases hx2 : deref g2 x = none
              · rcases u1 x hx0 hx2 with rfl | ⟨y, yn, hy, hy2, hxy⟩
                · exact Or.inl (List.mem_cons_self _ _)
                · refine Or.inr ⟨y, yn, hy, ?_, hxy⟩
                  rcases s2.2 y with h0 | h0
                  · exact h0
                  · rw [h0]; exact hy2
              · rcases u2 x hx2 hx1 with hm | ⟨y, yn, hy, hy1, hxy⟩
                · exact Or.inl (List.mem_cons_of_mem _ hm)
                · exact Or.inr ⟨y, yn, s1.live hy, hy1, hxy⟩
      cases hl : n.children.foldlM (fun acc c => deleteRec fuel acc c) h with
      | none => simp [hl] at hd
      | some g1 =>
        simp only [hl] at hd
        cases hg : deref g1 a with
        | none => simp [hg] at hd
        | some m =>
          simp only [hg, Option.some.injEq] at hd
          subst hd
          obtain ⟨s1, f1, u1⟩ := loop n.children h g1 hl
          have halt : a < g1.length := deref_lt hg
          have hfree : deref (g1.set a none) a = none := deref_set_same _ halt
          refine ⟨s1.trans (Shrinks.free _ _), hfree, ?_⟩
          intro x hx0 hx1
          by_cases hxa : x = a
          · exact Or.inl hxa
          · right
            have hx2 : deref g1 x = none := by
              rw [deref_set_other _ (Ne.symm hxa)] at hx1; exact hx1
            rcases u1 x hx0 hx2 with hm | ⟨y, yn, hy, hy1, hxy⟩
            · exact ⟨a, n, ha, hfree, hm⟩
            · refine ⟨y, yn, hy, ?_, hxy⟩
              rcases (Shrinks.free g1 a).2 y with h0 | h0
              · exact h0
              · rw [h0]; exact hy1

/-! ## Creating a node -/

/-- Heap produced by `attach`. -/
theorem attach_eq {s s1 : FileSystem} {p : Nat} {nm : Str} {file : Bool} {o : Outcome} {pn : Node}
    (hp : deref s.heap p = some pn) (h : attach s p nm file = some (s1, o)) :
    s1.heap = (s.heap ++ [some (Node.new nm file (some p))]).set p
        (some { pn with children := pn.children ++ [s.heap.length] }) ∧
    s1.root = s.root ∧ s1.cwd = s.cwd ∧ ∃ shown, o = Outcome.created shown := by
  unfold attach at h
  simp only [deref_append_old _ (deref_lt hp), hp] at h
  split at h
  · cases h
  · simp only [Option.some.injEq, Prod.mk.injEq] at h
    obtain ⟨h1, h2⟩ := h
    subst h1
    exact ⟨rfl, rfl, rfl, _, h2.symm⟩

theorem WFH_attach {h : Heap} {root p : Nat} {pn : Node} (wf : WFH h root) (nm : Str)
    (file : Bool) (hp : deref h p = some pn)
    (hfresh : ∀ c ∈ pn.children, ∃ m, deref h c = some m ∧ m.name ≠ nm)
    (hslash : '/' ∉ nm) (hpn : p = root ∨ Normal pn.name) :
    WFH ((h ++ [some (Node.new nm file (some p))]).set p
      (some { pn with children := pn.children ++ [h.length] })) root := by
  have wf1 := WFH_alloc wf nm file hp hslash hpn
  have hplt := deref_lt hp
  have hp1 : deref (h ++ [some (Node.new nm file (some p))]) p = some pn := by
    rw [deref_append_old _ hplt]; exact hp
  refine WFH_set_gen wf1 hp1 rfl rfl ?_ ?_
  · intro c hc
    simp only [List.mem_append, List.mem_singleton] at hc
    rcases hc with hc | rfl
    · exact wf1.childOk p pn hp1 c hc
    · exact ⟨hplt, _, deref_append_new _ _, rfl⟩
  · simp only [List.map_append, List.map_cons, List.map_nil]
    have hnew : nameOf (h ++ [some (Node.new nm file (some p))]) h.length = some nm := by
      simp [nameOf, deref_append_new, Node.new]
    rw [hnew]
    refine List.Nodup.append (wf1.namesNodup p pn hp1) (List.nodup_singleton _) ?_
    intro y hmem hy
    rw [List.mem_singleton] at hy
    subst hy
    rw [List.mem_map] at hmem
    obtain ⟨c, hc, hcn⟩ := hmem
    obtain ⟨m, hm, hne⟩ := hfresh c hc
    have : deref (h ++ [some (Node.new nm file (some p))]) c = some m := by
      rw [deref_append_old _ (deref_lt hm)]; exact hm
    simp [nameOf, this] at hcn
    exact hne hcn

/-! ## Deleting a subtree -/

theorem WFH_shrink {h h2 : Heap} {root n : Nat} (wf : WFH h root) (sh : Shrinks h h2)
    (fu : FreedUnder h h2 n) (hroot : n ≠ root)
    (hnot : ∀ y yn, deref h y = some yn → n ∉ yn.children) : WFH h2 root := by
  have closed : ∀ a m, deref h2 a = some m → ∀ c ∈ m.children, ∃ cm, deref h2 c = some cm := by
    intro a m ha c hc
    have ha0 := sh.live ha
    obtain ⟨-, cm, hcm, hcp⟩ := wf.childOk a m ha0 c hc
    cases hc2 : deref h2 c with
    | some cm2 => exact ⟨cm2, rfl⟩
    | none =>
      exfalso
      rcases fu c (by rw [hcm]; simp) hc2 with rfl | ⟨y, yn, hy, hy2, hcy⟩
      · exact hnot a m ha0 hc
      · obtain ⟨-, cm1, hcm1, hcp1⟩ := wf.childOk y yn hy c hcy
        rw [hcm] at hcm1; cases hcm1
        rw [hcp] at hcp1; cases hcp1
        rw [ha] at hy2; cases hy2
  obtain ⟨r, hr, hrp, hrn⟩ := wf.rootLive
  have hr2 : deref h2 root = some r := by
    cases hx : deref h2 root with
    | some r2 => rw [← sh.live hx]; exact hr.symm ▸ rfl
    | none =>
      exfalso
      rcases fu root (by rw [hr]; simp) hx with heq | ⟨y, yn, hy, -, hcy⟩
      · exact hroot heq.symm
      · obtain ⟨-, cm1, hcm1, hcp1⟩ := wf.childOk y yn hy root hcy
        rw [hr] at hcm1; cases hcm1
        rw [hrp] at hcp1; cases hcp1
  refine ⟨⟨r, hr2, hrp, hrn⟩, ?_, ?_, ?_, ?_, ?_⟩
  · intro a m ha c hc
    obtain ⟨hlt, cm, hcm, hcp⟩ := wf.childOk a m (sh.live ha) c hc
    obtain ⟨cm2, hcm2⟩ := closed a m ha c hc
    have := sh.live hcm2
    rw [hcm] at this; cases this
    exact ⟨hlt, cm, hcm2, hcp⟩
  · intro a m ha
    have hnd := wf.namesNodup a m (sh.live ha)
    have heq : m.children.map (nameOf h2) = m.children.map (nameOf h) := by
      apply List.map_congr_left
      intro c hc
      obtain ⟨cm2, hcm2⟩ := closed a m ha c hc
      simp [nameOf, hcm2, sh.live hcm2]
    rw [heq]; exact hnd
  · intro a m ha
    exact wf.noSlash a m (sh.live ha)
  · intro a m p ha hp
    exact wf.parentLt a m p (sh.live ha) hp
  · intro a m p pn ha hp hpn
    exact wf.parentNormal a m p pn (sh.live ha) hp (sh.live hpn)

/-! ## Path segmentation -/

theorem splitPathLoop_ne_nil : ∀ (path : List Char) (parts : List Str) (cur : Str),
    (∀ x ∈ parts, x ≠ []) → ∀ x ∈ splitPathLoop path parts cur, x ≠ [] := by
  intro path
  induction path with
  | nil =>
    intro parts cur hp x hx
    unfold splitPathLoop at hx
    by_cases hc : cur = []
    · simp only [hc, ne_eq, not_true_eq_false, if_false] at hx
      exact hp x hx
    · simp only [ne_eq, hc, not_false_eq_true, if_true, List.mem_append,
        List.mem_singleton] at hx
      rcases hx with hx | rfl
      · exact hp x hx
      · exact hc
  | cons ch rest ih =>
    intro parts cur hp x hx
    unfold splitPathLoop at hx
    by_cases hch : ch = '/'
    · simp only [hch, if_true] at hx
      by_cases hc : cur = []
      · simp only [hc, ne_eq, not_true_eq_false, if_false] at hx
        exact ih parts [] hp x hx
      · simp only [ne_eq, hc, not_false_eq_true, if_true] at hx
        refine ih (parts ++ [cur]) [] ?_ x hx
        intro y hy
        simp only [List.mem_append, List.mem_singleton] at hy
        rcases hy with hy | rfl
        · exact hp y hy
        · exact hc
    · simp only [hch, if_false] at hx
      exact ih parts (cur ++ [ch]) hp x hx

theorem splitPath_ne_nil (path : Str) : ∀ x ∈ splitPath path, x ≠ [] :=
  splitPathLoop_ne_nil path [] [] (fun _ h => by cases h)

/-! ## `find_last_of` and the parent/name split -/

theorem findLastOfLoop_append (c : Char) : ∀ (xs ys : List Char) (i : Nat) (last : Option Nat),
    findLastOfLoop c (xs ++ ys) i last =
      findLastOfLoop c ys (i + xs.length) (findLastOfLoop c xs i last) := by
  intro xs
  induction xs with
  | nil => intro ys i last; simp [findLastOfLoop]
  | cons x xs ih =>
    intro ys i last
    simp only [List.cons_append, findLastOfLoop, List.length_cons, List.append_eq]
    rw [ih]
    congr 1
    omega

theorem findLastOfLoop_not_mem (c : Char) : ∀ (xs : List Char) (i : Nat) (last : Option Nat),
    c ∉ xs → findLastOfLoop c xs i last = last := by
  intro xs
  induction xs with
  | nil => intro i last _; rfl
  | cons x xs ih =>
    intro i last hc
    simp only [List.mem_cons, not_or] at hc
    unfold findLastOfLoop
    rw [ih _ _ hc.2]
    simp [Ne.symm hc.1]

theorem findLastOf_not_mem {c : Char} {xs : Str} (hc : c ∉ xs) : findLastOf xs c = none :=
  findLastOfLoop_not_mem c xs 0 none hc

theorem findLastOf_split {c : Char} (pre post : Str) (hc : c ∉ post) :
    findLastOf (pre ++ c :: post) c = some pre.length := by
  unfold findLastOf
  rw [findLastOfLoop_append]
  unfold findLastOfLoop
  rw [findLastOfLoop_not_mem c post _ _ hc]
  simp

theorem last_occurrence (c : Char) : ∀ xs : List Char, c ∈ xs →
    ∃ pre post, xs = pre ++ c :: post ∧ c ∉ post := by
  intro xs
  induction xs with
  | nil => intro h; cases h
  | cons x xs ih =>
    intro h
    by_cases hin : c ∈ xs
    · obtain ⟨pre, post, he, hn⟩ := ih hin
      exact ⟨x :: pre, post, by rw [he]; rfl, hn⟩
    · rcases List.mem_cons.mp h with rfl | h1
      · exact ⟨[], xs, rfl, hin⟩
      · exact absurd h1 hin

theorem parentAndName_no_sep {path : Str} (h : '/' ∉ path) : parentAndName path = ([], path) := by
  unfold parentAndName
  rw [findLastOf_not_mem h]

theorem parentAndName_split (pre post : Str) (h : '/' ∉ post) :
    parentAndName (pre ++ '/' :: post) = (if pre = [] then ['/'] else pre, post) := by
  unfold parentAndName
  rw [findLastOf_split pre post h]
  cases pre with
  | nil => simp
  | cons x xs => simp

/-- The new name is the text after the last separator, so it contains none. -/
theorem parentAndName_name_noSlash (path : Str) : '/' ∉ (parentAndName path).2 := by
  by_cases h : '/' ∈ path
  · obtain ⟨pre, post, he, hn⟩ := last_occurrence '/' path h
    rw [he, parentAndName_split pre post hn]
    exact hn
  · rw [parentAndName_no_sep h]; exact h

/-! ## `resolve` stays on nodes with normal names -/

theorem resolveLoop_rootOrNormal {h : Heap} {root : Nat} (wf : WFH h root) (m : Bool) :
    ∀ (parts : List Str) (a : Nat) (b : Nat) (l : List Str), (∀ x ∈ parts, x ≠ []) →
      RootOrNormal h root a → resolveLoop h parts a m = some (some b, l) →
      RootOrNormal h root b := by
  intro parts
  induction parts with
  | nil =>
    intro a b l _ ha hr
    simp only [resolveLoop, Option.some.injEq, Prod.mk.injEq] at hr
    rw [← hr.1]; exact ha
  | cons part rest ih =>
    intro a b l hne ha hr
    have hrest : ∀ x ∈ rest, x ≠ [] := fun x hx => hne x (List.mem_cons_of_mem _ hx)
    unfold resolveLoop at hr
    by_cases h1 : part = ['.']
    · simp only [h1, if_true] at hr
      exact ih a b l hrest ha hr
    · simp only [h1, if_false] at hr
      by_cases h2 : part = ['.', '.']
      · simp only [h2, if_true] at hr
        cases hd : deref h a with
        | none => simp [hd] at hr
        | some n =>
          simp only [hd] at hr
          cases hp : n.parent with
          | none =>
            simp only [hp] at hr
            exact ih a b l hrest ha hr
          | some p =>
            simp only [hp] at hr
            refine ih p b l hrest ?_ hr
            intro pn hpn
            exact wf.parentNormal a n p pn hd hp hpn
      · simp only [h2, if_false] at hr
        cases hf : findChild h a part with
        | none => simp [hf] at hr
        | some r =>
          cases r with
          | none =>
            simp only [hf] at hr
            cases m with
            | true => simp at hr
            | false =>
              simp only [Bool.false_eq_true, if_false, Option.some.injEq, Prod.mk.injEq] at hr
              rw [← hr.1]; exact ha
          | some c =>
            simp only [hf] at hr
            refine ih c b l hrest ?_ hr
            obtain ⟨n, -, -, cm, hcm, hname⟩ := findChild_some hf
            intro cn hcn
            rw [hcm] at hcn; cases hcn
            right
            rw [hname]
            exact ⟨hne part (List.mem_cons_self _ _), h1, h2⟩

theorem resolve_rootOrNormal {s : FileSystem} (wf : WF s) {path : Str} {m : Bool} {b : Nat}
    {l : List Str} (hr : resolve s path m = some (some b, l)) :
    RootOrNormal s.heap s.root b := by
  unfold resolve at hr
  refine resolveLoop_rootOrNormal wf.heapOk m _ _ b l (splitPath_ne_nil path) ?_ hr
  split
  · intro _ _; exact Or.inl rfl
  · exact wf.cwdOk

/-! ## Every command keeps the invariant -/

theorem WF_create {s s1 : FileSystem} {pp : Str} {p : Nat} {l : List Str} {nm : Str}
    {file : Bool} {o : Outcome} (wf : WF s) (hr : resolve s pp false = some (some p, l))
    (hf : findChild s.heap p nm = some none) (hslash : '/' ∉ nm)
    (ha : attach s p nm file = some (s1, o)) : WF s1 := by
  obtain ⟨pn, hp, hfresh⟩ := findChild_none hf
  obtain ⟨hh, hroot, hcwd, -⟩ := attach_eq hp ha
  have hplt := deref_lt hp
  have hpn := resolve_rootOrNormal wf hr pn hp
  refine ⟨?_, ?_, ?_⟩
  · rw [hh, hroot]
    exact WFH_attach wf.heapOk nm file hp hfresh hslash hpn
  · rw [hh, hcwd]
    have := wf.cwdLt
    simp only [List.length_set, List.length_append, List.length_singleton]
    omega
  · rw [hh, hroot, hcwd]
    intro n hn
    by_cases hc : p = s.cwd
    · subst hc
      rw [deref_set_same _ (by simp; omega)] at hn
      cases hn
      exact wf.cwdOk pn hp
    · rw [deref_set_other _ hc, deref_append_old _ wf.cwdLt] at hn
      exact wf.cwdOk n hn

theorem WF_mkdir {s s1 : FileSystem} {path : Str} {o : Outcome} (wf : WF s)
    (h : mkdir s path = some (s1, o)) : WF s1 := by
  unfold mkdir at h
  split at h
  · cases h
  · cases h; exact wf
  · cases h; exact wf
  · rename_i p hr
    split at h
    · cases h
    · cases h; exact wf
    · rename_i hf
      exact WF_create wf hr hf (parentAndName_name_noSlash path) h

theorem WF_touch {s s1 : FileSystem} {path : Str} {o : Outcome} (wf : WF s)
    (h : touch s path = some (s1, o)) : WF s1 := by
  unfold touch at h
  split at h
  · cases h
  · cases h; exact wf
  · rename_i p l hr
    split at h
    · cases h
    · cases h; exact wf
    · rename_i hf
      exact WF_create wf hr hf (parentAndName_name_noSlash path) h

theorem RootOrNormal_set {h : Heap} {root a b : Nat} {n n1 : Node} (ha : deref h a = some n)
    (hname : n1.name = n.name) (hb : RootOrNormal h root b) :
    RootOrNormal (h.set a (some n1)) root b := by
  intro m hm
  by_cases hab : a = b
  · subst hab
    rw [deref_set_same _ (deref_lt ha)] at hm
    cases hm
    rw [hname]
    exact hb n ha
  · rw [deref_set_other _ hab] at hm
    exact hb m hm

theorem WF_edit {s s1 : FileSystem} {path : Str} {input : List Str} {o : Outcome} (wf : WF s)
    (h : edit s path input = some (s1, o)) : WF s1 := by
  unfold edit at h
  split at h
  · cases h
  · cases h; exact wf
  · rename_i a l hr
    split at h
    · cases h
    · rename_i n hn
      split at h
      · cases h; exact wf
      · split at h
        · cases h
        · rename_i text ht
          cases h
          refine ⟨WFH_set wf.heapOk hn rfl rfl (List.Sublist.refl _), ?_, ?_⟩
          · simpa using wf.cwdLt
          · exact RootOrNormal_set hn rfl wf.cwdOk

theorem WF_cd {s s1 : FileSystem} {path : Str} {o : Outcome} (wf : WF s)
    (h : cd s path = some (s1, o)) : WF s1 := by
  unfold cd at h
  split at h
  · cases h
  · cases h; exact wf
  · rename_i a l hr
    split at h
    · cases h
    · rename_i n hn
      split at h
      · cases h; exact wf
      · cases h
        exact ⟨wf.heapOk, deref_lt hn, resolve_rootOrNormal wf hr⟩

/-- What a successful `rm` does to the state. -/
theorem rm_removed {s s1 : FileSystem} {path : Str} {o : Outcome}
    (h : rm s path = some (s1, o)) :
    (s1 = s ∧ (o = Outcome.notFound ∨ o = Outcome.cannotDeleteRoot)) ∨
    ∃ n l nd p pn h2, resolve s path true = some (some n, l) ∧ n ≠ s.root ∧
      deref s.heap n = some nd ∧ nd.parent = some p ∧ deref s.heap p = some pn ∧
      deleteRec (s.heap.length + 1)
        (s.heap.set p (some { pn with children := pn.children.filter (fun c => c ≠ n) })) n
        = some h2 ∧
      s1 = { s with heap := h2 } ∧ o = Outcome.removed := by
  unfold rm at h
  split at h
  · cases h
  · cases h; exact Or.inl ⟨rfl, Or.inl rfl⟩
  · rename_i n l hr
    split at h
    · cases h; exact Or.inl ⟨rfl, Or.inr rfl⟩
    · rename_i hroot
      split at h
      · cases h
      · rename_i nd hnd
        split at h
        · cases h
        · rename_i p hp
          split at h
          · cases h
          · rename_i pn hpn
            simp only [List.length_set] at h
            split at h
            · cases h
            · rename_i h2 hdel
              cases h
              exact Or.inr ⟨n, l, nd, p, pn, h2, hr, hroot, hnd, hp, hpn, hdel, rfl, rfl⟩

theorem WF_rm {s s1 : FileSystem} {path : Str} {o : Outcome} (wf : WF s)
    (h : rm s path = some (s1, o)) : WF s1 := by
  rcases rm_removed h with ⟨rfl, -⟩ | ⟨n, l, nd, p, pn, h2, hr, hroot, hnd, hp, hpn, hdel, rfl, -⟩
  · exact wf
  · have hpn_lt : p < n := wf.heapOk.parentLt n nd p hnd hp
    have wf1 : WFH (s.heap.set p
        (some { pn with children := pn.children.filter (fun c => c ≠ n) })) s.root :=
      WFH_set wf.heapOk hpn rfl rfl (List.filter_sublist _)
    obtain ⟨sh, -, fu⟩ := deleteRec_spec _ _ _ _ hdel
    have hnot : ∀ y yn, deref (s.heap.set p
        (some { pn with children := pn.children.filter (fun c => c ≠ n) })) y = some yn →
        n ∉ yn.children := by
      intro y yn hy hmem
      by_cases hyp : p = y
      · subst hyp
        rw [deref_set_same _ (deref_lt hpn)] at hy
        cases hy
        simp at hmem
      · have hy0 := hy
        rw [deref_set_other _ hyp] at hy0
        obtain ⟨-, m, hm, hmp⟩ := wf.heapOk.childOk y yn hy0 n hmem
        rw [hnd] at hm; cases hm
        rw [hp] at hmp; cases hmp
        exact hyp rfl
    have hlen : h2.length = s.heap.length := by simpa using sh.1
    refine ⟨WFH_shrink wf1 sh fu hroot hnot, ?_, ?_⟩
    · show s.cwd < h2.length
      rw [hlen]; exact wf.cwdLt
    · intro m hm
      have hm1 := sh.live hm
      have hcw : RootOrNormal (s.heap.set p
          (some { pn with children := pn.children.filter (fun c => c ≠ n) })) s.root s.cwd :=
        RootOrNormal_set hpn rfl wf.cwdOk
      exact hcw m hm1

theorem WF_exec {s s1 : FileSystem} {c : Cmd} {o : Outcome} (wf : WF s)
    (h : exec s c = some (s1, o)) : WF s1 := by
  cases c with
  | mkdir path => exact WF_mkdir wf h
  | touch path => exact WF_touch wf h
  | edit path input => exact WF_edit wf h
  | cd path => exact WF_cd wf h
  | rm path => exact WF_rm wf h

theorem WF_reachableFrom {ok : Cmd → Prop} {s0 s : FileSystem} (wf : WF s0)
    (h : ReachableFrom ok s0 s) : WF s := by
  induction h with
  | start => exact wf
  | step _ _ he ih => exact WF_exec ih he

theorem WF_reachable {s : FileSystem} (h : Reachable s) : WF s :=
  WF_reachableFrom WF_init h

theorem ReachableFrom.weaken {ok : Cmd → Prop} {s0 s : FileSystem}
    (h : ReachableFrom ok s0 s) : ReachableFrom (fun _ => True) s0 s := by
  induction h with
  | start => exact ReachableFrom.start
  | step _ _ he ih => exact ReachableFrom.step ih trivial he

/-- A session that runs to the end reaches its final state. -/
theorem reachable_of_run : ∀ (cmds : List Cmd) (s0 s1 s : FileSystem),
    ReachableFrom (fun _ => True) s0 s1 → run s1 cmds = some s →
    ReachableFrom (fun _ => True) s0 s := by
  intro cmds
  induction cmds with
  | nil =>
    intro s0 s1 s hr h
    simp only [run, Option.some.injEq] at h
    rw [← h]; exact hr
  | cons c cs ih =>
    intro s0 s1 s hr h
    unfold run at h
    split at h
    · cases h
    · rename_i s2 o he
      exact ih s0 s2 s (ReachableFrom.step hr trivial he) h

theorem reachable_run {cmds : List Cmd} {s : FileSystem}
    (h : run FileSystem.init cmds = some s) : Reachable s :=
  reachable_of_run cmds _ _ s ReachableFrom.start h

/-! ## Segmentation of joined paths -/

theorem splitPathLoop_nil (parts : List Str) (cur : Str) :
    splitPathLoop [] parts cur = if cur ≠ [] then parts ++ [cur] else parts := rfl

theorem splitPathLoop_cons (ch : Char) (rest : List Char) (parts : List Str) (cur : Str) :
    splitPathLoop (ch :: rest) parts cur =
      if ch = '/' then
        if cur ≠ [] then splitPathLoop rest (parts ++ [cur]) []
        else splitPathLoop rest parts cur
      else splitPathLoop rest parts (cur ++ [ch]) := rfl

theorem resolveLoop_cons (h : Heap) (part : Str) (rest : List Str) (cur : Nat) (m : Bool) :
    resolveLoop h (part :: rest) cur m =
      if part = ['.'] then resolveLoop h rest cur m
      else if part = ['.', '.'] then
        match deref h cur with
        | none => none
        | some n =>
          match n.parent with
          | some p => resolveLoop h rest p m
          | none => resolveLoop h rest cur m
      else
        match findChild h cur part with
        | none => none
        | some none => if m then some (none, []) else some (some cur, part :: rest)
        | some (some child) => resolveLoop h rest child m := rfl

theorem splitPathLoop_acc : ∀ (path : List Char) (p1 p2 : List Str) (cur : Str),
    splitPathLoop path (p1 ++ p2) cur = p1 ++ splitPathLoop path p2 cur := by
  intro path
  induction path with
  | nil =>
    intro p1 p2 cur
    unfold splitPathLoop
    split <;> simp
  | cons ch rest ih =>
    intro p1 p2 cur
    unfold splitPathLoop
    split
    · split
      · rw [List.append_assoc, ih]
      · rw [ih]
    · rw [ih]

theorem splitPathLoop_noSlash : ∀ (a b : List Char) (parts : List Str) (cur : Str),
    '/' ∉ a → splitPathLoop (a ++ b) parts cur = splitPathLoop b parts (cur ++ a) := by
  intro a
  induction a with
  | nil => intro b parts cur _; simp
  | cons ch rest ih =>
    intro b parts cur h
    simp only [List.mem_cons, not_or] at h
    rw [List.cons_append, splitPathLoop_cons, if_neg (Ne.symm h.1), ih b parts _ h.2]
    simp

theorem splitPathLoop_sep : ∀ (a b : List Char) (parts : List Str) (cur : Str),
    splitPathLoop (a ++ '/' :: b) parts cur = splitPathLoop b (splitPathLoop a parts cur) [] := by
  intro a
  induction a with
  | nil =>
    intro b parts cur
    rw [List.nil_append, splitPathLoop_cons, splitPathLoop_nil]
    by_cases hc : cur = []
    · subst hc; simp
    · simp [hc]
  | cons ch rest ih =>
    intro b parts cur
    rw [List.cons_append, splitPathLoop_cons, splitPathLoop_cons]
    split
    · split
      · rw [ih]
      · rw [ih]
    · rw [ih]

theorem splitPath_append_sep (a b : Str) :
    splitPath (a ++ '/' :: b) = splitPath a ++ splitPath b := by
  unfold splitPath
  rw [splitPathLoop_sep]
  have := splitPathLoop_acc b (splitPathLoop a [] []) [] []
  rw [List.append_nil] at this
  exact this

theorem splitPath_nil : splitPath [] = [] := rfl

theorem splitPath_sep_cons (b : Str) : splitPath ('/' :: b) = splitPath b := by
  have := splitPath_append_sep [] b
  simpa [splitPath_nil] using this

theorem splitPath_noSlash {x : Str} (h : '/' ∉ x) :
    splitPath x = if x = [] then [] else [x] := by
  unfold splitPath
  have := splitPathLoop_noSlash x [] [] [] h
  rw [List.append_nil, List.nil_append] at this
  rw [this]
  unfold splitPathLoop
  by_cases hx : x = [] <;> simp [hx]

theorem joinParts_acc : ∀ (xs : List Str) (p : Str), joinParts xs p = p ++ joinParts xs [] := by
  intro xs
  induction xs with
  | nil => intro p; simp [joinParts]
  | cons x t ih =>
    intro p
    cases t with
    | nil => simp [joinParts]
    | cons y r =>
      unfold joinParts
      rw [ih (p ++ x ++ ['/']), ih ([] ++ x ++ ['/'])]
      simp

/-- Segmenting a joined path gives back the non-empty names. -/
theorem splitPath_joinParts : ∀ (names : List Str), (∀ x ∈ names, '/' ∉ x) →
    splitPath (joinParts names ['/']) = names.filter (fun x => x ≠ []) := by
  intro names hn
  rw [joinParts_acc]
  show splitPath ('/' :: joinParts names []) = _
  rw [splitPath_sep_cons]
  induction names with
  | nil => rfl
  | cons x t ih =>
    have hx := hn x (List.mem_cons_self _ _)
    have ht : ∀ y ∈ t, '/' ∉ y := fun y hy => hn y (List.mem_cons_of_mem _ hy)
    cases t with
    | nil =>
      simp only [joinParts, List.nil_append]
      rw [splitPath_noSlash hx]
      by_cases hx0 : x = [] <;> simp [hx0]
    | cons y r =>
      unfold joinParts
      rw [joinParts_acc]
      have : [] ++ x ++ ['/'] ++ joinParts (y :: r) [] = x ++ '/' :: joinParts (y :: r) [] := by
        simp
      rw [this, splitPath_append_sep, ih ht, splitPath_noSlash hx]
      by_cases hx0 : x = [] <;> simp [hx0, List.filter_cons]

theorem joinParts_head (names : List Str) : (joinParts names ['/']).head? = some '/' := by
  rw [joinParts_acc]; rfl

/-! ## Chains of children -/

theorem descends_le {h : Heap} {root : Nat} (wf : WFH h root) {a b : Nat} {names : List Str}
    (d : Descends h a names b) : a + names.length ≤ b := by
  induction d with
  | here => simp
  | child _ hp hc _ ih =>
    have := (wf.childOk _ _ hp _ hc).1
    simp only [List.length_append, List.length_singleton]
    omega

theorem descends_live {h : Heap} {a b : Nat} {names : List Str} (d : Descends h a names b)
    (ha : (deref h a).isSome) : (deref h b).isSome := by
  cases d with
  | here => exact ha
  | child _ _ _ hcn => simp [hcn]

theorem resolveLoop_append {h : Heap} (m : Bool) : ∀ (xs ys : List Str) (a b : Nat),
    resolveLoop h xs a m = some (some b, []) →
    resolveLoop h (xs ++ ys) a m = resolveLoop h ys b m := by
  intro xs
  induction xs with
  | nil =>
    intro ys a b hr
    simp only [resolveLoop, Option.some.injEq, Prod.mk.injEq, and_true] at hr
    subst hr; rfl
  | cons part rest ih =>
    intro ys a b hr
    rw [List.cons_append, resolveLoop_cons]
    rw [resolveLoop_cons] at hr
    by_cases h1 : part = ['.']
    · simp only [h1, if_true] at hr ⊢
      exact ih ys a b hr
    · simp only [h1, if_false] at hr ⊢
      by_cases h2 : part = ['.', '.']
      · simp only [h2, if_true] at hr ⊢
        cases hd : deref h a with
        | none => simp [hd] at hr
        | some n =>
          simp only [hd] at hr ⊢
          cases hp : n.parent with
          | none =>
            simp only [hp] at hr ⊢
            exact ih ys a b hr
          | some p =>
            simp only [hp] at hr ⊢
            exact ih ys p b hr
      · simp only [h2, if_false] at hr ⊢
        cases hf : findChild h a part with
        | none => simp [hf] at hr
        | some r =>
          cases r with
          | none =>
            simp only [hf] at hr
            cases m <;> simp at hr
          | some c =>
            simp only [hf] at hr ⊢
            exact ih ys c b hr

theorem findChild_of_child {h : Heap} {root : Nat} (wf : WFH h root) {p c : Nat} {pn cn : Node}
    (hp : deref h p = some pn) (hc : c ∈ pn.children) (hcn : deref h c = some cn) :
    findChild h p cn.name = some (some c) := by
  unfold findChild
  simp only [hp]
  refine findChildLoop_unique ?_ (wf.namesNodup p pn hp) hc hcn rfl
  intro x hx
  obtain ⟨-, m, hm, -⟩ := wf.childOk p pn hp x hx
  exact ⟨m, hm⟩

/-- Walking down a chain of normal names resolves to the end of the chain. -/
theorem resolveLoop_descends {h : Heap} {root : Nat} (wf : WFH h root) (m : Bool) {a b : Nat}
    {names : List Str} (d : Descends h a names b) (hn : ∀ x ∈ names, Normal x) :
    resolveLoop h names a m = some (some b, []) := by
  induction d with
  | here => rfl
  | child d0 hp hc hcn ih =>
    rename_i names0 p c pn cn
    have h0 : ∀ x ∈ names0, Normal x := fun x hx => hn x (List.mem_append_left _ hx)
    have hlast : Normal cn.name := hn _ (List.mem_append_right _ (List.mem_singleton_self _))
    rw [resolveLoop_append m names0 [cn.name] a p (ih h0)]
    unfold resolveLoop
    rw [if_neg hlast.2.1, if_neg hlast.2.2]
    simp only [findChild_of_child wf hp hc hcn]
    rfl

/-- Walking up the parent pointers from the end of a chain collects its names bottom-up. -/
theorem getPathLoop_descends {h : Heap} {root : Nat} (wf : WFH h root) {b : Nat}
    {names : List Str} (d : Descends h root names b) :
    ∀ (fuel : Nat) (acc : List Str), names.length < fuel →
      getPathLoop h root fuel (some b) acc = some (acc ++ names.reverse) := by
  induction d with
  | here =>
    intro fuel acc hf
    cases fuel with
    | zero => simp at hf
    | succ f => simp [getPathLoop]
  | child d0 hp hc hcn ih =>
    rename_i names0 p c pn cn
    intro fuel acc hf
    obtain ⟨hlt, m, hm, hpar⟩ := wf.childOk _ _ hp _ hc
    rw [hcn] at hm; cases hm
    have hle := descends_le wf d0
    have hne : c ≠ root := by omega
    cases fuel with
    | zero => simp at hf
    | succ f =>
      unfold getPathLoop
      rw [if_neg hne]
      simp only [hcn, hpar]
      rw [ih f (acc ++ [cn.name]) (by simp at hf; omega)]
      simp

/-- Display path of the end of a chain. -/
theorem getPath_descends {s : FileSystem} (wf : WF s) {b : Nat} {names : List Str}
    (d : Descends s.heap s.root names b) : getPath s b = some (joinParts names ['/']) := by
  unfold getPath
  by_cases hb : b = s.root
  · subst hb
    have := descends_le wf.heapOk d
    have hl : names = [] := by
      apply List.eq_nil_of_length_eq_zero; omega
    subst hl
    simp [joinParts]
  · rw [if_neg hb]
    have hle := descends_le wf.heapOk d
    obtain ⟨r, hr, -⟩ := wf.heapOk.rootLive
    have hlive := descends_live d (by simp [hr])
    obtain ⟨bn, hbn⟩ := Option.isSome_iff_exists.mp hlive
    have hblt := deref_lt hbn
    rw [getPathLoop_descends wf.heapOk d _ [] (by omega)]
    simp

theorem roundtrip_core {s : FileSystem} (wf : WF s) {b : Nat} {names : List Str}
    (d : Descends s.heap s.root names b) (hn : ∀ x ∈ names, Normal x) (m : Bool) :
    resolve s (joinParts names ['/']) m = some (some b, []) := by
  unfold resolve
  rw [joinParts_head, if_pos rfl,
    splitPath_joinParts names (fun x hx => ?_)]
  · have hf : names.filter (fun x => x ≠ []) = names := by
      rw [List.filter_eq_self]
      intro x hx
      simpa using (hn x hx).1
    rw [hf]
    exact resolveLoop_descends wf.heapOk m d hn
  · -- names on a chain are stored names, hence free of separators
    have aux : ∀ {a c : Nat} {ns : List Str}, Descends s.heap a ns c → ∀ y ∈ ns, '/' ∉ y := by
      intro a c ns dd
      induction dd with
      | here => intro y hy; cases hy
      | child _ _ _ hcn ih =>
        intro y hy
        rcases List.mem_append.mp hy with h1 | h1
        · exact ih y h1
        · rw [List.mem_singleton] at h1
          subst h1
          exact wf.heapOk.noSlash _ _ hcn
    exact aux d x hx

/-- One more link of a chain, with the two nodes given explicitly. -/
theorem descends_step {h : Heap} {a : Nat} {names : List Str} (p c : Nat) (pn cn : Node)
    (d : Descends h a names p) (hp : deref h p = some pn) (hc : c ∈ pn.children)
    (hcn : deref h c = some cn) : Descends h a (names ++ [cn.name]) c :=
  Descends.child d hp hc hcn

theorem findChildLoop_exists {h : Heap} {cs : List Nat} {nm : Str}
    (hlive : ∀ x ∈ cs, (deref h x).isSome)
    (hex : ∃ c cn, c ∈ cs ∧ deref h c = some cn ∧ cn.name = nm) :
    ∃ c, findChildLoop h cs nm = some (some c) := by
  induction cs with
  | nil => obtain ⟨c, _, hc, _⟩ := hex; cases hc
  | cons x xs ih =>
    unfold findChildLoop
    obtain ⟨n, hx⟩ := Option.isSome_iff_exists.mp (hlive x (List.mem_cons_self _ _))
    simp only [hx]
    by_cases hn : n.name = nm
    · exact ⟨x, by simp [hn]⟩
    · simp only [hn, if_false]
      apply ih (fun y hy => hlive y (List.mem_cons_of_mem _ hy))
      obtain ⟨c, cn, hc, hcn, hname⟩ := hex
      rcases List.mem_cons.mp hc with rfl | hc
      · rw [hx] at hcn; cases hcn; exact absurd hname hn
      · exact ⟨c, cn, hc, hcn, hname⟩

/-! ## Where names come from -/

theorem parentAndName_name_ne_nil {path : Str} (h1 : path ≠ [])
    (h2 : path.getLast? ≠ some '/') : (parentAndName path).2 ≠ [] := by
  by_cases h : '/' ∈ path
  · obtain ⟨pre, post, he, hn⟩ := last_occurrence '/' path h
    rw [he, parentAndName_split pre post hn]
    intro hpost
    simp only at hpost
    subst hpost
    apply h2
    rw [he]
    simp
  · rw [parentAndName_no_sep h]; exact h1

theorem attach_names {s s1 : FileSystem} {p : Nat} {nm : Str} {file : Bool} {o : Outcome}
    {pn : Node} (hp : deref s.heap p = some pn) (h : attach s p nm file = some (s1, o)) :
    s1.root = s.root ∧ ∀ a m, deref s1.heap a = some m →
      (∃ n, deref s.heap a = some n ∧ m.name = n.name) ∨
      (deref s.heap a = none ∧ m.name = nm) := by
  obtain ⟨hh, hroot, -, -⟩ := attach_eq hp h
  refine ⟨hroot, ?_⟩
  intro a m hm
  rw [hh] at hm
  have hplt := deref_lt hp
  by_cases hap : p = a
  · subst hap
    rw [deref_set_same _ (by simp; omega)] at hm
    cases hm
    exact Or.inl ⟨pn, hp, rfl⟩
  · rw [deref_set_other _ hap] at hm
    rcases Nat.lt_trichotomy a s.heap.length with hlt | heq | hgt
    · rw [deref_append_old _ hlt] at hm
      exact Or.inl ⟨m, hm, rfl⟩
    · subst heq
      rw [deref_append_new] at hm
      cases hm
      exact Or.inr ⟨deref_length _, rfl⟩
    · have := deref_lt hm
      simp at this
      omega

/-- A command never renames a node: a live cell of the new state was live before with the same
name, or it is the cell just allocated by `mkdir` or `touch` and bears the new name. -/
theorem exec_names {s s1 : FileSystem} {c : Cmd} {o : Outcome} (h : exec s c = some (s1, o)) :
    s1.root = s.root ∧ ∀ a m, deref s1.heap a = some m →
      (∃ n, deref s.heap a = some n ∧ m.name = n.name) ∨
      (deref s.heap a = none ∧ ∃ path, (c = Cmd.mkdir path ∨ c = Cmd.touch path) ∧
        m.name = (parentAndName path).2) := by
  have same : s1 = s → s1.root = s.root ∧ ∀ a m, deref s1.heap a = some m →
      (∃ n, deref s.heap a = some n ∧ m.name = n.name) ∨
      (deref s.heap a = none ∧ ∃ path, (c = Cmd.mkdir path ∨ c = Cmd.touch path) ∧
        m.name = (parentAndName path).2) := by
    intro he; subst he
    exact ⟨rfl, fun a m hm => Or.inl ⟨m, hm, rfl⟩⟩
  cases c with
  | mkdir path =>
    simp only [exec] at h
    unfold mkdir at h
    split at h
    · cases h
    · cases h; exact same rfl
    · cases h; exact same rfl
    · split at h
      · cases h
      · cases h; exact same rfl
      · rename_i hf
        obtain ⟨pn, hp, -⟩ := findChild_none hf
        obtain ⟨hroot, hn⟩ := attach_names hp h
        refine ⟨hroot, fun a m hm => ?_⟩
        rcases hn a m hm with h0 | ⟨h0, h1⟩
        · exact Or.inl h0
        · exact Or.inr ⟨h0, path, Or.inl rfl, h1⟩
  | touch path =>
    simp only [exec] at h
    unfold touch at h
    split at h
    · cases h
    · cases h; exact same rfl
    · split at h
      · cases h
      · cases h; exact same rfl
      · rename_i hf
        obtain ⟨pn, hp, -⟩ := findChild_none hf
        obtain ⟨hroot, hn⟩ := attach_names hp h
        refine ⟨hroot, fun a m hm => ?_⟩
        rcases hn a m hm with h0 | ⟨h0, h1⟩
        · exact Or.inl h0
        · exact Or.inr ⟨h0, path, Or.inr rfl, h1⟩
  | edit path input =>
    simp only [exec] at h
    unfold edit at h
    split at h
    · cases h
    · cases h; exact same rfl
    · rename_i a0 l hr
      split at h
      · cases h
      · rename_i n hn
        split at h
        · cases h; exact same rfl
        · split at h
          · cases h
          · cases h
            refine ⟨rfl, fun a m hm => ?_⟩
            simp only at hm
            by_cases ha : a0 = a
            · subst ha
              rw [deref_set_same _ (deref_lt hn)] at hm
              cases hm
              exact Or.inl ⟨n, hn, rfl⟩
            · rw [deref_set_other _ ha] at hm
              exact Or.inl ⟨m, hm, rfl⟩
  | cd path =>
    simp only [exec] at h
    unfold cd at h
    split at h
    · cases h
    · cases h; exact same rfl
    · split at h
      · cases h
      · split at h
        · cases h; exact same rfl
        · cases h
          exact ⟨rfl, fun a m hm => Or.inl ⟨m, hm, rfl⟩⟩
  | rm path =>
    simp only [exec] at h
    rcases rm_removed h with ⟨he, -⟩ | ⟨n, l, nd, p, pn, h2, -, -, -, -, hpn, hdel, rfl, -⟩
    · exact same he
    · obtain ⟨sh, -, -⟩ := deleteRec_spec _ _ _ _ hdel
      refine ⟨rfl, fun a m hm => ?_⟩
      have hm1 := sh.live hm
      by_cases ha : p = a
      · subst ha
        rw [deref_set_same _ (deref_lt hpn)] at hm1
        cases hm1
        exact Or.inl ⟨pn, hpn, rfl⟩
      · rw [deref_set_other _ ha] at hm1
        exact Or.inl ⟨m, hm1, rfl⟩

/-- A session whose commands all satisfy `ok` and that runs to the end reaches its final state. -/
theorem reachableFrom_run {ok : Cmd → Prop} : ∀ (cmds : List Cmd) (s0 s1 s : FileSystem),
    (∀ c ∈ cmds, ok c) → ReachableFrom ok s0 s1 → run s1 cmds = some s →
    ReachableFrom ok s0 s := by
  intro cmds
  induction cmds with
  | nil =>
    intro s0 s1 s _ hr h
    simp only [run, Option.some.injEq] at h
    rw [← h]; exact hr
  | cons c cs ih =>
    intro s0 s1 s hok hr h
    unfold run at h
    split at h
    · cases h
    · rename_i s2 o he
      exact ih s0 s2 s (fun x hx => hok x (List.mem_cons_of_mem _ hx))
        (ReachableFrom.step hr (hok c (List.mem_cons_self _ _)) he) h

/-! ## Resolution after a creation -/

theorem findChildLoop_extends_some {h h2 : Heap} (ex : Extends h h2) {nm : Str} {c : Nat} :
    ∀ (cs extra : List Nat), findChildLoop h cs nm = some (some c) →
      findChildLoop h2 (cs ++ extra) nm = some (some c) := by
  intro cs
  induction cs with
  | nil => intro extra hf; simp [findChildLoop] at hf
  | cons x xs ih =>
    intro extra hf
    rw [List.cons_append]
    unfold findChildLoop at hf ⊢
    cases hx : deref h x with
    | none => simp [hx] at hf
    | some n =>
      obtain ⟨n2, hn2, hname, -⟩ := ex x n hx
      simp only [hx] at hf
      simp only [hn2, hname]
      by_cases hn : n.name = nm
      · simp only [hn, if_true] at hf ⊢
        exact hf
      · simp only [hn, if_false] at hf ⊢
        exact ih extra hf

theorem findChildLoop_extends_none {h h2 : Heap} (ex : Extends h h2) {nm : Str} :
    ∀ (cs extra : List Nat), findChildLoop h cs nm = some none →
      findChildLoop h2 (cs ++ extra) nm = findChildLoop h2 extra nm := by
  intro cs
  induction cs with
  | nil => intro extra _; rfl
  | cons x xs ih =>
    intro extra hf
    rw [List.cons_append]
    unfold findChildLoop at hf
    cases hx : deref h x with
    | none => simp [hx] at hf
    | some n =>
      obtain ⟨n2, hn2, hname, -⟩ := ex x n hx
      simp only [hx] at hf
      by_cases hn : n.name = nm
      · simp [hn] at hf
      · simp only [hn, if_false] at hf
        have := ih extra hf
        rw [← this]
        conv => lhs; unfold findChildLoop
        simp only [hn2, hname, hn, if_false]

theorem findChild_extends {h h2 : Heap} (ex : Extends h h2) {a c : Nat} {nm : Str}
    (hf : findChild h a nm = some (some c)) : findChild h2 a nm = some (some c) := by
  unfold findChild at hf ⊢
  cases ha : deref h a with
  | none => simp [ha] at hf
  | some n =>
    obtain ⟨n2, hn2, -, -, extra, hch⟩ := ex a n ha
    simp only [ha] at hf
    simp only [hn2, hch]
    exact findChildLoop_extends_some ex _ extra hf

/-- A walk that resolved completely is repeated step by step in an extended heap. -/
theorem resolveLoop_extends {h h2 : Heap} (ex : Extends h h2) (m m2 : Bool) :
    ∀ (parts : List Str) (a b : Nat), resolveLoop h parts a m = some (some b, []) →
      resolveLoop h2 parts a m2 = some (some b, []) := by
  intro parts
  induction parts with
  | nil =>
    intro a b hr
    simp only [resolveLoop, Option.some.injEq, Prod.mk.injEq, and_true] at hr
    subst hr; rfl
  | cons part rest ih =>
    intro a b hr
    rw [resolveLoop_cons] at hr ⊢
    by_cases h1 : part = ['.']
    · simp only [h1, if_true] at hr ⊢
      exact ih a b hr
    · simp only [h1, if_false] at hr ⊢
      by_cases h2p : part = ['.', '.']
      · simp only [h2p, if_true] at hr ⊢
        cases hd : deref h a with
        | none => simp [hd] at hr
        | some n =>
          obtain ⟨n2, hn2, -, hpar, -⟩ := ex a n hd
          simp only [hd] at hr
          simp only [hn2, hpar]
          cases hp : n.parent with
          | none =>
            simp only [hp] at hr ⊢
            exact ih a b hr
          | some p =>
            simp only [hp] at hr ⊢
            exact ih p b hr
      · simp only [h2p, if_false] at hr ⊢
        cases hf : findChild h a part with
        | none => simp [hf] at hr
        | some r =>
          cases r with
          | none =>
            simp only [hf] at hr
            cases m <;> simp at hr
          | some c =>
            simp only [hf] at hr
            simp only [findChild_extends ex hf]
            exact ih c b hr

theorem attach_extends {h : Heap} {p : Nat} {pn : Node} (nm : Str) (file : Bool)
    (hp : deref h p = some pn) :
    Extends h ((h ++ [some (Node.new nm file (some p))]).set p
      (some { pn with children := pn.children ++ [h.length] })) := by
  intro x n hx
  have hplt := deref_lt hp
  by_cases hxp : p = x
  · subst hxp
    rw [deref_set_same _ (by simp; omega)]
    rw [hp] at hx; cases hx
    exact ⟨_, rfl, rfl, rfl, [h.length], rfl⟩
  · rw [deref_set_other _ hxp, deref_append_old _ (deref_lt hx)]
    exact ⟨n, hx, rfl, rfl, [], by simp⟩

/-- How the argument of a create command splits: the segments of the whole path are those of the
parent portion followed by the new name, and both are absolute or both relative. -/
theorem parentAndName_segments {path : Str} (hne : (parentAndName path).2 ≠ []) :
    splitPath path = splitPath (parentAndName path).1 ++ [(parentAndName path).2] ∧
    ∀ r c : Nat, (if path.head? = some '/' then r else c) =
      (if (parentAndName path).1.head? = some '/' then r else c) := by
  by_cases h : '/' ∈ path
  · obtain ⟨pre, post, he, hn⟩ := last_occurrence '/' path h
    subst he
    rw [parentAndName_split pre post hn] at hne ⊢
    simp only at hne
    rw [splitPath_append_sep, splitPath_noSlash hn, if_neg hne]
    cases pre with
    | nil => exact ⟨by simp [splitPath_sep_cons, splitPath_nil], fun r c => by simp⟩
    | cons x xs => exact ⟨by simp, fun r c => by simp⟩
  · rw [parentAndName_no_sep h] at hne ⊢
    simp only at hne
    rw [splitPath_noSlash h, if_neg hne]
    refine ⟨by simp [splitPath_nil], fun r c => ?_⟩
    cases path with
    | nil => rfl
    | cons x xs =>
      have hx : x ≠ '/' := by
        intro hx; apply h; rw [hx]; exact List.mem_cons_self _ _
      simp [hx]

/-- Create then resolve, on the code: when the parent portion resolved completely to `p`, no
child of `p` bore the new name, and that name is none of "", ".", "..", the whole path
resolves, right after the creation, to the cell just allocated. -/
theorem resolve_after_attach {s s1 : FileSystem} {path : Str} {p : Nat} {file : Bool}
    {o : Outcome} (hres : resolve s (parentAndName path).1 false = some (some p, []))
    (hf : findChild s.heap p (parentAndName path).2 = some none)
    (hnorm : Normal (parentAndName path).2)
    (ha : attach s p (parentAndName path).2 file = some (s1, o)) :
    resolve s1 path true = some (some s.heap.length, []) ∧
    deref s.heap s.heap.length = none ∧
    deref s1.heap s.heap.length = some (Node.new (parentAndName path).2 file (some p)) := by
  obtain ⟨pn, hp, -⟩ := findChild_none hf
  obtain ⟨hh, hroot, hcwd, -⟩ := attach_eq hp ha
  have hplt := deref_lt hp
  have ex := attach_extends (parentAndName path).2 file hp
  obtain ⟨hseg, hhead⟩ := parentAndName_segments hnorm.1
  have hnew : deref s1.heap s.heap.length =
      some (Node.new (parentAndName path).2 file (some p)) := by
    rw [hh, deref_set_other _ (by omega), deref_append_new]
  refine ⟨?_, deref_length _, hnew⟩
  unfold resolve at hres ⊢
  rw [hseg, hhead, hroot, hcwd, hh]
  rw [resolveLoop_append true _ _ _ p (resolveLoop_extends ex false true _ _ _ hres)]
  rw [resolveLoop_cons, if_neg hnorm.2.1, if_neg hnorm.2.2]
  have hfc : findChild ((s.heap ++ [some (Node.new (parentAndName path).2 file (some p))]).set p
      (some { pn with children := pn.children ++ [s.heap.length] })) p (parentAndName path).2 =
      some (some s.heap.length) := by
    unfold findChild at hf ⊢
    rw [deref_set_same _ (by simp; omega)]
    simp only [hp] at hf
    simp only []
    rw [findChildLoop_extends_none ex _ _ hf]
    unfold findChildLoop
    rw [← hh, hnew]
    simp [Node.new]
  simp only [hfc]
  rfl

/-! ## The display path of a tree node always resolves completely -/

theorem descends_names_normal {h : Heap} {root : Nat} (wf : WFH h root) {p : Nat}
    {names : List Str} (d : Descends h root names p) :
    RootOrNormal h root p → ∀ y ∈ names, Normal y := by
  induction d with
  | here => intro _ y hy; cases hy
  | child d0 hp hc hcn ih =>
    rename_i names0 q c qn cn
    intro hrn y hy
    obtain ⟨hlt, m, hm, hpar⟩ := wf.childOk _ _ hp _ hc
    rw [hcn] at hm; cases hm
    have hle := descends_le wf d0
    rcases List.mem_append.mp hy with h1 | h1
    · refine ih ?_ y h1
      intro qn2 hq2
      exact wf.parentNormal c cn q qn2 hcn hpar hq2
    · rw [List.mem_singleton] at h1
      subst h1
      rcases hrn cn hcn with h0 | h0
      · omega
      · exact h0

theorem getPath_resolves {s : FileSystem} (wf : WF s) {D : Nat} {names : List Str}
    (d : Descends s.heap s.root names D) :
    ∃ b, resolve s (joinParts names ['/']) false = some (some b, []) := by
  cases d with
  | here => exact ⟨_, roundtrip_core wf Descends.here (fun x hx => by cases hx) false⟩
  | child d0 hp hc hcn =>
    rename_i names0 p pn cn
    obtain ⟨hlt, m, hm, hpar⟩ := wf.heapOk.childOk _ _ hp _ hc
    rw [hcn] at hm; cases hm
    have h0 : ∀ y ∈ names0, Normal y :=
      descends_names_normal wf.heapOk d0 (fun qn hq => wf.heapOk.parentNormal D cn p qn hcn hpar hq)
    have hsl : ∀ y ∈ names0 ++ [cn.name], '/' ∉ y := by
      intro y hy
      rcases List.mem_append.mp hy with h1 | h1
      · intro hmem
        -- names on the chain are stored names
        have aux : ∀ {a c : Nat} {ns : List Str}, Descends s.heap a ns c →
            ∀ z ∈ ns, '/' ∉ z := by
          intro a c ns dd
          induction dd with
          | here => intro z hz; cases hz
          | child _ _ _ hcn1 ih1 =>
            intro z hz
            rcases List.mem_append.mp hz with h2 | h2
            · exact ih1 z h2
            · rw [List.mem_singleton] at h2
              subst h2
              exact wf.heapOk.noSlash _ _ hcn1
        exact aux d0 y h1 hmem
      · rw [List.mem_singleton] at h1
        subst h1
        exact wf.heapOk.noSlash _ _ hcn
    have hwalk := resolveLoop_descends wf.heapOk false d0 h0
    have hf0 : names0.filter (fun x => x ≠ []) = names0 := by
      rw [List.filter_eq_self]
      intro x hx
      simpa using (h0 x hx).1
    unfold resolve
    rw [joinParts_head, if_pos rfl, splitPath_joinParts _ hsl, List.filter_append, hf0,
      resolveLoop_append false _ _ _ p hwalk]
    by_cases e0 : cn.name = []
    · exact ⟨p, by simp [e0, resolveLoop]⟩
    · have hfl : List.filter (fun x => decide (x ≠ [])) [cn.name] = [cn.name] := by
        simp [e0]
      rw [hfl, resolveLoop_cons]
      by_cases e1 : cn.name = ['.']
      · exact ⟨p, by rw [if_pos e1]; rfl⟩
      · rw [if_neg e1]
        by_cases e2 : cn.name = ['.', '.']
        · rw [if_pos e2]
          simp only [hp]
          cases hq : pn.parent with
          | none => exact ⟨p, rfl⟩
          | some q => exact ⟨q, rfl⟩
        · rw [if_neg e2]
          simp only [findChild_of_child wf.heapOk hp hc hcn]
          exact ⟨D, rfl⟩

/-! ## Subtrees -/

theorem Under.self (h : Heap) (a : Nat) : Under h a a := ⟨[], Descends.here⟩

theorem Under.child {h : Heap} {a p c : Nat} {pn cn : Node} (u : Under h a p)
    (hp : deref h p = some pn) (hc : c ∈ pn.children) (hcn : deref h c = some cn) :
    Under h a c := by
  obtain ⟨names, d⟩ := u
  exact ⟨_, Descends.child d hp hc hcn⟩

theorem Under.compose {h : Heap} {a b c : Nat} (u1 : Under h a b) (u2 : Under h b c) :
    Under h a c := by
  obtain ⟨names, d⟩ := u2
  induction d with
  | here => exact u1
  | child _ hp hc hcn ih => exact Under.child ih hp hc hcn

theorem Under.le {h : Heap} {root : Nat} (wf : WFH h root) {a x : Nat} (u : Under h a x) :
    a ≤ x := by
  obtain ⟨names, d⟩ := u
  have := descends_le wf d
  omega

/-- A member of a subtree is its root or lies under one of the root's children. -/
theorem Under.cases {h : Heap} {a x : Nat} (u : Under h a x) :
    x = a ∨ ∃ an c cn, deref h a = some an ∧ c ∈ an.children ∧ deref h c = some cn ∧
      Under h c x := by
  obtain ⟨names, d⟩ := u
  induction d with
  | here => exact Or.inl rfl
  | child d0 hp hc hcn ih =>
    rename_i names0 p c pn cn
    right
    rcases ih with rfl | ⟨an, c1, cn1, han, hc1, hcn1, u1⟩
    · exact ⟨pn, c, cn, hp, hc, hcn, Under.self _ _⟩
    · exact ⟨an, c1, cn1, han, hc1, hcn1, Under.child u1 hp hc hcn⟩

/-- Subtrees of two different children of one node share no node. -/
theorem Under.disjoint {h : Heap} {root : Nat} (wf : WFH h root) {a c1 c2 x : Nat} {an : Node}
    (ha : deref h a = some an) (h1 : c1 ∈ an.children) (h2 : c2 ∈ an.children) (hne : c1 ≠ c2)
    (u1 : Under h c1 x) (u2 : Under h c2 x) : False := by
  have hlt1 := (wf.childOk a an ha c1 h1).1
  have hlt2 := (wf.childOk a an ha c2 h2).1
  obtain ⟨names, d⟩ := u1
  induction d with
  | here =>
    obtain ⟨names2, d2⟩ := u2
    cases d2 with
    | here => exact hne rfl
    | child d0 hp hc hcn =>
      rename_i names0 q qn cn
      obtain ⟨-, m, hm, hpar⟩ := wf.childOk _ _ hp _ hc
      obtain ⟨-, m1, hm1, hpar1⟩ := wf.childOk a an ha c1 h1
      rw [hm] at hm1; cases hm1
      rw [hpar] at hpar1; cases hpar1
      have := descends_le wf d0
      omega
  | child d0 hp hc hcn ih =>
    rename_i names0 p c pn cn
    obtain ⟨names2, d2⟩ := u2
    cases d2 with
    | here =>
      obtain ⟨-, m, hm, hpar⟩ := wf.childOk _ _ hp _ hc
      obtain ⟨-, m1, hm1, hpar1⟩ := wf.childOk a an ha c2 h2
      rw [hm] at hm1; cases hm1
      rw [hpar] at hpar1; cases hpar1
      have := descends_le wf d0
      omega
    | child e0 hq hcq hcnq =>
      rename_i names3 q qn cn3
      obtain ⟨-, m, hm, hpar⟩ := wf.childOk _ _ hp _ hc
      obtain ⟨-, m1, hm1, hpar1⟩ := wf.childOk _ _ hq _ hcq
      rw [hm] at hm1; cases hm1
      rw [hpar] at hpar1; cases hpar1
      exact ih ⟨_, e0⟩

/-! ## `deleteRec` terminates and empties exactly the subtree -/

theorem deleteRec_total {h0 : Heap} {root : Nat} (wf : WFH h0 root) :
    ∀ (fuel : Nat) (g : Heap) (a : Nat) (an : Node), Shrinks h0 g → deref h0 a = some an →
      (∀ x, Under h0 a x → deref g x = deref h0 x) → h0.length < a + fuel →
      ∃ g1, deleteRec fuel g a = some g1 ∧ Shrinks g g1 ∧
        ∀ x, deref g1 x = none ↔ (deref g x = none ∨ Under h0 a x) := by
  intro fuel
  induction fuel with
  | zero =>
    intro g a an _ ha _ hf
    have := deref_lt ha
    omega
  | succ fuel ih =>
    intro g a an sh ha hlive hf
    have hga : deref g a = some an := by rw [hlive a (Under.self _ _)]; exact ha
    have loop : ∀ (R : List Nat) (g0 : Heap), R.Nodup → (∀ c ∈ R, c ∈ an.children) →
        Shrinks h0 g0 → (∀ c ∈ R, ∀ x, Under h0 c x → deref g0 x = deref h0 x) →
        ∃ g1, R.foldlM (fun acc c => deleteRec fuel acc c) g0 = some g1 ∧ Shrinks g0 g1 ∧
          ∀ x, deref g1 x = none ↔ (deref g0 x = none ∨ ∃ c ∈ R, Under h0 c x) := by
      intro R
      induction R with
      | nil =>
        intro g0 _ _ _ _
        exact ⟨g0, rfl, Shrinks.refl _, fun x => by simp⟩
      | cons c R ihR =>
        intro g0 hnd hsub sh0 hl
        rw [List.nodup_cons] at hnd
        have hc := hsub c (List.mem_cons_self _ _)
        obtain ⟨hlt, cn, hcn, -⟩ := wf.childOk a an ha c hc
        obtain ⟨g2, hdel, sh2, hiff⟩ := ih g0 c cn sh0 hcn (hl c (List.mem_cons_self _ _))
          (by omega)
        have hl2 : ∀ c1 ∈ R, ∀ x, Under h0 c1 x → deref g2 x = deref h0 x := by
          intro c1 hc1 x hx
          have h1 := hl c1 (List.mem_cons_of_mem _ hc1) x hx
          rcases sh2.2 x with h2 | h2
          · exfalso
            rcases (hiff x).mp h2 with h3 | h3
            · -- the cell was live before this call
              obtain ⟨names, d⟩ := hx
              have hc1m := hsub c1 (List.mem_cons_of_mem _ hc1)
              obtain ⟨-, cn1, hcn1, -⟩ := wf.childOk a an ha c1 hc1m
              have hx0 : (deref h0 x).isSome :=
                descends_live d (by simp [hcn1])
              rw [← h1, h3] at hx0
              simp at hx0
            · have hne : c ≠ c1 := by
                intro he; subst he; exact hnd.1 hc1
              exact Under.disjoint wf ha hc (hsub c1 (List.mem_cons_of_mem _ hc1)) hne h3 hx
          · rw [h2]; exact h1
        obtain ⟨g1, hfold, sh1, hiff1⟩ := ihR g2 hnd.2
          (fun y hy => hsub y (List.mem_cons_of_mem _ hy)) (sh0.trans sh2) hl2
        refine ⟨g1, ?_, sh2.trans sh1, ?_⟩
        · rw [List.foldlM_cons, hdel]
          exact hfold
        · intro x
          rw [hiff1 x, hiff x]
          constructor
          · rintro ((h1 | h1) | ⟨c1, hc1, h1⟩)
            · exact Or.inl h1
            · exact Or.inr ⟨c, List.mem_cons_self _ _, h1⟩
            · exact Or.inr ⟨c1, List.mem_cons_of_mem _ hc1, h1⟩
          · rintro (h1 | ⟨c1, hc1, h1⟩)
            · exact Or.inl (Or.inl h1)
            · rcases List.mem_cons.mp hc1 with rfl | hc1
              · exact Or.inl (Or.inr h1)
              · exact Or.inr ⟨c1, hc1, h1⟩
    have hnd : an.children.Nodup := List.Nodup.of_map _ (wf.namesNodup a an ha)
    have hl : ∀ c ∈ an.children, ∀ x, Under h0 c x → deref g x = deref h0 x := by
      intro c hc x hx
      obtain ⟨-, cn, hcn, -⟩ := wf.childOk a an ha c hc
      exact hlive x (Under.compose (Under.child (Under.self _ _) ha hc hcn) hx)
    obtain ⟨g1, hfold, sh1, hiff1⟩ := loop an.children g hnd (fun c hc => hc) sh hl
    have hg1a : deref g1 a = some an := by
      rcases sh1.2 a with h1 | h1
      · exfalso
        rcases (hiff1 a).mp h1 with h2 | ⟨c, hc, h2⟩
        · rw [hga] at h2; cases h2
        · have := (wf.childOk a an ha c hc).1
          have := Under.le wf h2
          omega
      · rw [h1]; exact hga
    refine ⟨g1.set a none, ?_, sh1.trans (Shrinks.free _ _), ?_⟩
    · unfold deleteRec
      simp only [hga, hfold, hg1a]
    · intro x
      by_cases hxa : a = x
      · subst hxa
        rw [deref_set_same _ (deref_lt hg1a)]
        simp only [true_iff]
        exact Or.inr (Under.self _ _)
      · rw [deref_set_other _ hxa, hiff1 x]
        constructor
        · rintro (h1 | ⟨c, hc, h1⟩)
          · exact Or.inl h1
          · obtain ⟨-, cn, hcn, -⟩ := wf.childOk a an ha c hc
            exact Or.inr (Under.compose (Under.child (Under.self _ _) ha hc hcn) h1)
        · rintro (h1 | h1)
          · exact Or.inl h1
          · rcases Under.cases h1 with h2 | ⟨an1, c, cn, han1, hc, hcn, hu⟩
            · exact absurd h2.symm hxa
            · rw [ha] at han1; cases han1
              exact Or.inr ⟨c, hc, hu⟩

/-! ## Parent links are maintained -/

theorem Linked_init : Linked FileSystem.init.heap FileSystem.init.root := by
  have hd : ∀ a n, deref FileSystem.init.heap a = some n → a = 0 := by
    intro a n h
    match a with
    | 0 => rfl
    | k + 1 => simp [FileSystem.init, deref] at h
  constructor
  · intro a n ha hne
    exact absurd (hd a n ha) hne
  · intro a n p ha hp
    have := hd a n ha
    subst this
    simp [FileSystem.init, deref, Node.new] at ha
    subst ha
    simp at hp

theorem Linked_of_extends {h h2 : Heap} {root : Nat} (lk : Linked h root) (ex : Extends h h2)
    (hnew : ∀ x m, deref h2 x = some m →
      (∃ n, deref h x = some n ∧ m.parent = n.parent) ∨
      (∃ p pn2, m.parent = some p ∧ deref h2 p = some pn2 ∧ x ∈ pn2.children)) :
    Linked h2 root := by
  constructor
  · intro x m hx hne
    rcases hnew x m hx with ⟨n, hn, hpar⟩ | ⟨p, _, hpar, -⟩
    · rw [hpar]; exact lk.hasParent x n hn hne
    · exact ⟨p, hpar⟩
  · intro x m p hx hp
    rcases hnew x m hx with ⟨n, hn, hpar⟩ | ⟨p1, pn2, hpar, hp2, hmem⟩
    · obtain ⟨pn, hpn, hmem⟩ := lk.parentHas x n p hn (by rw [← hpar]; exact hp)
      obtain ⟨pn2, hpn2, -, -, extra, hch⟩ := ex p pn hpn
      exact ⟨pn2, hpn2, by rw [hch]; exact List.mem_append_left _ hmem⟩
    · rw [hp] at hpar; cases hpar
      exact ⟨pn2, hp2, hmem⟩

theorem Linked_attach {h : Heap} {root p : Nat} {pn : Node} (lk : Linked h root) (nm : Str)
    (file : Bool) (hp : deref h p = some pn) :
    Linked ((h ++ [some (Node.new nm file (some p))]).set p
      (some { pn with children := pn.children ++ [h.length] })) root := by
  have hplt := deref_lt hp
  refine Linked_of_extends lk (attach_extends nm file hp) ?_
  intro x m hx
  by_cases hxp : p = x
  · subst hxp
    rw [deref_set_same _ (by simp; omega)] at hx
    cases hx
    exact Or.inl ⟨pn, hp, rfl⟩
  · rw [deref_set_other _ hxp] at hx
    rcases Nat.lt_trichotomy x h.length with hlt | heq | hgt
    · rw [deref_append_old _ hlt] at hx
      exact Or.inl ⟨m, hx, rfl⟩
    · subst heq
      rw [deref_append_new] at hx
      cases hx
      refine Or.inr ⟨p, _, rfl, deref_set_same _ (by simp; omega), ?_⟩
      simp
    · have := deref_lt hx
      simp at this
      omega

theorem Linked_set_content {h : Heap} {root a : Nat} {n : Node} (lk : Linked h root)
    (ha : deref h a = some n) (text : Str) :
    Linked (h.set a (some { n with content := text })) root := by
  have hex : Extends h (h.set a (some { n with content := text })) := by
    intro x m hx
    by_cases hxa : a = x
    · subst hxa
      rw [deref_set_same _ (deref_lt ha)]
      rw [ha] at hx; cases hx
      exact ⟨_, rfl, rfl, rfl, [], by simp⟩
    · rw [deref_set_other _ hxa]
      exact ⟨m, hx, rfl, rfl, [], by simp⟩
  refine Linked_of_extends lk hex ?_
  intro x m hx
  by_cases hxa : a = x
  · subst hxa
    rw [deref_set_same _ (deref_lt ha)] at hx
    cases hx
    exact Or.inl ⟨n, ha, rfl⟩
  · rw [deref_set_other _ hxa] at hx
    exact Or.inl ⟨m, hx, rfl⟩

/-- The heap after `rm`: the child pointer is erased, then exactly the subtree is emptied. -/
theorem Linked_rm {h h2 : Heap} {root n p : Nat} {nd pn : Node} (wf : WFH h root)
    (lk : Linked h root) (hn : deref h n = some nd) (hpar : nd.parent = some p)
    (hp : deref h p = some pn)
    (sh : Shrinks (h.set p (some { pn with children := pn.children.filter (fun c => c ≠ n) })) h2)
    (hiff : ∀ x, deref h2 x = none ↔
      (deref (h.set p (some { pn with children := pn.children.filter (fun c => c ≠ n) })) x = none
        ∨ Under (h.set p (some { pn with children := pn.children.filter (fun c => c ≠ n) })) n x)) :
    Linked h2 root := by
  have hplt := deref_lt hp
  have hpn_lt : p < n := wf.parentLt n nd p hn hpar
  -- reading the intermediate heap
  have rd : ∀ x m, deref (h.set p
      (some { pn with children := pn.children.filter (fun c => c ≠ n) })) x = some m →
      ∃ m0, deref h x = some m0 ∧ m.parent = m0.parent ∧
        (∀ c, c ∈ m.children ↔ (c ∈ m0.children ∧ (x = p → c ≠ n))) := by
    intro x m hx
    by_cases hxp : p = x
    · subst hxp
      rw [deref_set_same _ hplt] at hx
      cases hx
      refine ⟨pn, hp, rfl, fun c => ?_⟩
      simp
    · rw [deref_set_other _ hxp] at hx
      exact ⟨m, hx, rfl, fun c => by simp [Ne.symm hxp]⟩
  have wr : ∀ x m0, deref h x = some m0 → ∃ m, deref (h.set p
      (some { pn with children := pn.children.filter (fun c => c ≠ n) })) x = some m ∧
      (∀ c, c ∈ m0.children → c ≠ n → c ∈ m.children) := by
    intro x m0 hx
    by_cases hxp : p = x
    · subst hxp
      rw [deref_set_same _ hplt]
      rw [hp] at hx; cases hx
      exact ⟨_, rfl, fun c hc hne => by simp [hc, hne]⟩
    · rw [deref_set_other _ hxp]
      exact ⟨m0, hx, fun c hc _ => hc⟩
  have hnfree : deref h2 n = none := (hiff n).mpr (Or.inr (Under.self _ _))
  constructor
  · intro x m hx hne
    obtain ⟨m0, hm0, hpp, -⟩ := rd x m (sh.live hx)
    rw [hpp]
    exact lk.hasParent x m0 hm0 hne
  · intro x m q hx hq
    have hx1 := sh.live hx
    obtain ⟨m0, hm0, hpp, -⟩ := rd x m hx1
    obtain ⟨qn0, hqn0, hmem0⟩ := lk.parentHas x m0 q hm0 (by rw [← hpp]; exact hq)
    have hxn : x ≠ n := by
      intro he; subst he; rw [hnfree] at hx; cases hx
    obtain ⟨qn1, hqn1, hsub⟩ := wr q qn0 hqn0
    have hmem1 : x ∈ qn1.children := hsub x hmem0 hxn
    cases hq2 : deref h2 q with
    | some qn2 =>
      have := sh.live hq2
      rw [hqn1] at this; cases this
      exact ⟨qn1, rfl, hmem1⟩
    | none =>
      exfalso
      rcases (hiff q).mp hq2 with h0 | h0
      · rw [hqn1] at h0; cases h0
      · have hux := Under.child h0 hqn1 hmem1 hx1
        have := (hiff x).mpr (Or.inr hux)
        rw [this] at hx; cases hx

/-! ## Loops do not get stuck on a well-formed heap -/

theorem findChildLoop_defined {h : Heap} {cs : List Nat} (nm : Str)
    (hlive : ∀ c ∈ cs, (deref h c).isSome) : ∃ r, findChildLoop h cs nm = some r := by
  induction cs with
  | nil => exact ⟨none, rfl⟩
  | cons x xs ih =>
    unfold findChildLoop
    obtain ⟨n, hx⟩ := Option.isSome_iff_exists.mp (hlive x (List.mem_cons_self _ _))
    simp only [hx]
    by_cases hn : n.name = nm
    · exact ⟨some x, by simp [hn]⟩
    · simp only [hn, if_false]
      exact ih (fun y hy => hlive y (List.mem_cons_of_mem _ hy))

theorem findChild_defined {h : Heap} {root a : Nat} (wf : WFH h root) (nm : Str)
    (ha : (deref h a).isSome) : ∃ r, findChild h a nm = some r := by
  obtain ⟨n, hn⟩ := Option.isSome_iff_exists.mp ha
  unfold findChild
  simp only [hn]
  apply findChildLoop_defined
  intro c hc
  obtain ⟨-, m, hm, -⟩ := wf.childOk a n hn c hc
  simp [hm]

/-- From a live start node `resolve` always returns, and a node it returns is live. -/
theorem resolveLoop_defined {h : Heap} {root : Nat} (wf : WFH h root) (lk : Linked h root)
    (m : Bool) : ∀ (parts : List Str) (a : Nat), (deref h a).isSome →
      ∃ r l, resolveLoop h parts a m = some (r, l) ∧ ∀ b, r = some b → (deref h b).isSome := by
  intro parts
  induction parts with
  | nil =>
    intro a ha
    exact ⟨some a, [], rfl, fun b hb => by cases hb; exact ha⟩
  | cons part rest ih =>
    intro a ha
    rw [resolveLoop_cons]
    by_cases h1 : part = ['.']
    · rw [if_pos h1]; exact ih a ha
    · rw [if_neg h1]
      by_cases h2 : part = ['.', '.']
      · rw [if_pos h2]
        obtain ⟨n, hn⟩ := Option.isSome_iff_exists.mp ha
        simp only [hn]
        cases hp : n.parent with
        | none => exact ih a ha
        | some p =>
          obtain ⟨pn, hpn, -⟩ := lk.parentHas a n p hn hp
          exact ih p (by simp [hpn])
      · rw [if_neg h2]
        obtain ⟨r, hr⟩ := findChild_defined wf part ha
        simp only [hr]
        cases r with
        | none =>
          cases m with
          | true => exact ⟨none, [], rfl, fun b hb => by cases hb⟩
          | false => exact ⟨some a, part :: rest, rfl, fun b hb => by cases hb; exact ha⟩
        | some c =>
          obtain ⟨-, -, -, cm, hcm, -⟩ := findChild_some hr
          exact ih c (by simp [hcm])

theorem getPathLoop_defined {h : Heap} {root : Nat} (wf : WFH h root) :
    ∀ (fuel : Nat) (a : Nat) (acc : List Str), a + 2 ≤ fuel →
      (∀ x n q, x ≤ a → deref h x = some n → n.parent = some q → (deref h q).isSome) →
      (deref h a).isSome → ∃ parts, getPathLoop h root fuel (some a) acc = some parts := by
  intro fuel
  induction fuel with
  | zero => intro a acc hf; omega
  | succ fuel ih =>
    intro a acc hf hpl ha
    unfold getPathLoop
    by_cases hr : a = root
    · exact ⟨acc, by rw [if_pos hr]⟩
    · rw [if_neg hr]
      obtain ⟨n, hn⟩ := Option.isSome_iff_exists.mp ha
      simp only [hn]
      cases hp : n.parent with
      | none =>
        cases fuel with
        | zero => omega
        | succ f => exact ⟨_, rfl⟩
      | some p =>
        have hlt := wf.parentLt a n p hn hp
        exact ih p _ (by omega) (fun x n1 q hx => hpl x n1 q (by omega))
          (hpl a n p (Nat.le_refl _) hn hp)

theorem getPath_defined (s : FileSystem) (wf : WFH s.heap s.root) (lk : Linked s.heap s.root)
    (a : Nat) (ha : (deref s.heap a).isSome) : ∃ shown, getPath s a = some shown := by
  unfold getPath
  by_cases hr : a = s.root
  · exact ⟨_, by rw [if_pos hr]⟩
  · rw [if_neg hr]
    obtain ⟨n, hn⟩ := Option.isSome_iff_exists.mp ha
    have hlt := deref_lt hn
    obtain ⟨parts, hparts⟩ := getPathLoop_defined wf (s.heap.length + 1) a [] (by omega)
      (fun x n1 q _ hx hq => by
        obtain ⟨qn, hqn, -⟩ := lk.parentHas x n1 q hx hq
        simp [hqn]) ha
    exact ⟨_, by rw [hparts]⟩

theorem readUntilEnd_defined : ∀ (input : List Str) (text : Str), ['E', 'N', 'D'] ∈ input →
    ∃ t, readUntilEnd input text = some t := by
  intro input
  induction input with
  | nil => intro _ h; cases h
  | cons line rest ih =>
    intro text h
    unfold readUntilEnd
    by_cases hl : line = ['E', 'N', 'D']
    · exact ⟨text, by rw [if_pos hl]⟩
    · rw [if_neg hl]
      rcases List.mem_cons.mp h with h1 | h1
      · exact absurd h1.symm hl
      · exact ih _ h1

theorem rm_heap_spec {s : FileSystem} (wf : WFH s.heap s.root) {n p : Nat} {nd pn : Node}
    (hn : deref s.heap n = some nd) (hpar : nd.parent = some p) (hp : deref s.heap p = some pn) :
    ∃ h2, deleteRec (s.heap.length + 1)
        (s.heap.set p (some { pn with children := pn.children.filter (fun c => c ≠ n) })) n
        = some h2 ∧
      Shrinks (s.heap.set p (some { pn with children := pn.children.filter (fun c => c ≠ n) }))
        h2 ∧
      ∀ x, deref h2 x = none ↔
        (deref (s.heap.set p
            (some { pn with children := pn.children.filter (fun c => c ≠ n) })) x = none ∨
          Under (s.heap.set p
            (some { pn with children := pn.children.filter (fun c => c ≠ n) })) n x) := by
  have hlt : p < n := wf.parentLt n nd p hn hpar
  have wf1 : WFH (s.heap.set p
      (some { pn with children := pn.children.filter (fun c => c ≠ n) })) s.root :=
    WFH_set wf hp rfl rfl (List.filter_sublist _)
  have hn1 : deref (s.heap.set p
      (some { pn with children := pn.children.filter (fun c => c ≠ n) })) n = some nd := by
    rw [deref_set_other _ (by omega)]; exact hn
  have hlen := deref_lt hn
  exact deleteRec_total wf1 (s.heap.length + 1) _ n nd (Shrinks.refl _) hn1 (fun _ _ => rfl)
    (by simp; omega)

theorem Linked_exec {s s1 : FileSystem} {c : Cmd} {o : Outcome} (wf : WF s)
    (lk : Linked s.heap s.root) (h : exec s c = some (s1, o)) : Linked s1.heap s1.root := by
  cases c with
  | mkdir path =>
    simp only [exec] at h
    unfold mkdir at h
    split at h
    · cases h
    · cases h; exact lk
    · cases h; exact lk
    · split at h
      · cases h
      · cases h; exact lk
      · rename_i hf
        obtain ⟨pn, hp, -⟩ := findChild_none hf
        obtain ⟨hh, hroot, -, -⟩ := attach_eq hp h
        rw [hh, hroot]
        exact Linked_attach lk _ _ hp
  | touch path =>
    simp only [exec] at h
    unfold touch at h
    split at h
    · cases h
    · cases h; exact lk
    · split at h
      · cases h
      · cases h; exact lk
      · rename_i hf
        obtain ⟨pn, hp, -⟩ := findChild_none hf
        obtain ⟨hh, hroot, -, -⟩ := attach_eq hp h
        rw [hh, hroot]
        exact Linked_attach lk _ _ hp
  | edit path input =>
    simp only [exec] at h
    unfold edit at h
    split at h
    · cases h
    · cases h; exact lk
    · split at h
      · cases h
      · rename_i n hn
        split at h
        · cases h; exact lk
        · split at h
          · cases h
          · cases h
            exact Linked_set_content lk hn _
  | cd path =>
    simp only [exec] at h
    unfold cd at h
    split at h
    · cases h
    · cases h; exact lk
    · split at h
      · cases h
      · split at h
        · cases h; exact lk
        · cases h; exact lk
  | rm path =>
    simp only [exec] at h
    rcases rm_removed h with ⟨rfl, -⟩ | ⟨n, l, nd, p, pn, h2, -, -, hnd, hp, hpn, hdel, rfl, -⟩
    · exact lk
    · obtain ⟨g, hg, sh, hiff⟩ := rm_heap_spec wf.heapOk hnd hp hpn
      rw [hdel] at hg
      cases hg
      exact Linked_rm wf.heapOk lk hnd hp hpn sh hiff

theorem Linked_reachable {s : FileSystem} (h : Reachable s) : Linked s.heap s.root := by
  have key : ∀ {s0 s1 : FileSystem}, ReachableFrom (fun _ => True) s0 s1 → WF s0 →
      Linked s0.heap s0.root → Linked s1.heap s1.root := by
    intro s0 s1 hr wf0 lk0
    induction hr with
    | start => exact lk0
    | step hprev _ he ih => exact Linked_exec (WF_reachableFrom wf0 hprev) ih he
  exact key h WF_init Linked_init

/-- The parent portion of a create argument is absolute exactly when the argument is. -/
theorem parentAndName_head (path : Str) :
    (parentAndName path).1.head? = some '/' ↔ path.head? = some '/' := by
  by_cases h : '/' ∈ path
  · obtain ⟨pre, post, he, hn⟩ := last_occurrence '/' path h
    subst he
    rw [parentAndName_split pre post hn]
    cases pre with
    | nil => simp
    | cons x xs => simp
  · rw [parentAndName_no_sep h]
    cases path with
    | nil => simp
    | cons x xs =>
      have hx : x ≠ '/' := by
        intro hx; apply h; rw [hx]; exact List.mem_cons_self _ _
      simp [hx]

/-- From a live start node (the root for an absolute path, cwd otherwise) `resolve` returns. -/
theorem resolve_defined {s : FileSystem} (wf : WF s) (lk : Linked s.heap s.root) (path : Str)
    (hstart : path.head? = some '/' ∨ (deref s.heap s.cwd).isSome) (m : Bool) :
    ∃ r l, resolve s path m = some (r, l) ∧ ∀ b, r = some b → (deref s.heap b).isSome := by
  unfold resolve
  apply resolveLoop_defined wf.heapOk lk
  split
  · obtain ⟨r, hr, -⟩ := wf.heapOk.rootLive
    simp [hr]
  · rename_i hrel
    rcases hstart with h0 | h0
    · exact absurd h0 hrel
    · exact h0

theorem attach_defined {s : FileSystem} (wf : WF s) (lk : Linked s.heap s.root) {pp : Str}
    {p : Nat} {l : List Str} {nm : Str} (file : Bool)
    (hr : resolve s pp false = some (some p, l))
    (hf : findChild s.heap p nm = some none) (hslash : '/' ∉ nm) :
    ∃ s1 shown, attach s p nm file = some (s1, Outcome.created shown) := by
  obtain ⟨pn, hp, hfresh⟩ := findChild_none hf
  have hplt := deref_lt hp
  have hpn := resolve_rootOrNormal wf hr pn hp
  have wf2 := WFH_attach wf.heapOk nm file hp hfresh hslash hpn
  have lk2 := Linked_attach lk nm file hp
  have hd : deref ((s.heap ++ [some (Node.new nm file (some p))]).set p
      (some { pn with children := pn.children ++ [s.heap.length] })) s.heap.length =
      some (Node.new nm file (some p)) := by
    rw [deref_set_other _ (by omega), deref_append_new]
  obtain ⟨shown, hshown⟩ := getPath_defined
    ⟨(s.heap ++ [some (Node.new nm file (some p))]).set p
      (some { pn with children := pn.children ++ [s.heap.length] }), s.root, s.cwd⟩ wf2 lk2
    s.heap.length (by rw [hd]; rfl)
  unfold attach
  simp only [deref_append_old _ hplt, hp, hshown]
  exact ⟨_, _, rfl⟩

/-- In a reachable state, every command whose path is absolute or whose cwd is live runs to
completion (for `edit`, provided the input contains the line `END`): no loop of the model runs
out of fuel and no pointer that is followed dangles. -/
theorem exec_defined (s : FileSystem) (hs : Reachable s) (c : Cmd)
    (hstart : c.path.head? = some '/' ∨ (deref s.heap s.cwd).isSome)
    (hin : ∀ path input, c = Cmd.edit path input → ['E', 'N', 'D'] ∈ input) :
    ∃ s1 o, exec s c = some (s1, o) := by
  have wf := WF_reachable hs
  have lk := Linked_reachable hs
  cases c with
  | mkdir path =>
    simp only [exec]
    unfold mkdir
    obtain ⟨r, l, hr, hlive⟩ := resolve_defined wf lk (parentAndName path).1
      (hstart.imp (parentAndName_head path).mpr id) false
    cases r with
    | none => simp only [hr]; exact ⟨_, _, rfl⟩
    | some p =>
      cases l with
      | cons x xs => simp only [hr]; exact ⟨_, _, rfl⟩
      | nil =>
        obtain ⟨f, hf⟩ := findChild_defined wf.heapOk (parentAndName path).2 (hlive p rfl)
        cases f with
        | some c1 => simp only [hr, hf]; exact ⟨_, _, rfl⟩
        | none =>
          obtain ⟨s1, shown, ha⟩ := attach_defined wf lk false hr hf
            (parentAndName_name_noSlash path)
          simp only [hr, hf, ha]; exact ⟨_, _, rfl⟩
  | touch path =>
    simp only [exec]
    unfold touch
    obtain ⟨r, l, hr, hlive⟩ := resolve_defined wf lk (parentAndName path).1
      (hstart.imp (parentAndName_head path).mpr id) false
    cases r with
    | none => simp only [hr]; exact ⟨_, _, rfl⟩
    | some p =>
      obtain ⟨f, hf⟩ := findChild_defined wf.heapOk (parentAndName path).2 (hlive p rfl)
      cases f with
      | some c1 => simp only [hr, hf]; exact ⟨_, _, rfl⟩
      | none =>
        obtain ⟨s1, shown, ha⟩ := attach_defined wf lk true hr hf
          (parentAndName_name_noSlash path)
        simp only [hr, hf, ha]; exact ⟨_, _, rfl⟩
  | edit path input =>
    simp only [exec]
    unfold edit
    obtain ⟨r, l, hr, hlive⟩ := resolve_defined wf lk path hstart true
    cases r with
    | none => simp only [hr]; exact ⟨_, _, rfl⟩
    | some a =>
      obtain ⟨n, hn⟩ := Option.isSome_iff_exists.mp (hlive a rfl)
      obtain ⟨t, ht⟩ := readUntilEnd_defined input [] (hin path input rfl)
      by_cases hfile : n.isFile = false
      · simp only [hr, hn, hfile, if_true]; exact ⟨_, _, rfl⟩
      · simp only [hr, hn, hfile, if_false, ht]; exact ⟨_, _, rfl⟩
  | cd path =>
    simp only [exec]
    unfold cd
    obtain ⟨r, l, hr, hlive⟩ := resolve_defined wf lk path hstart true
    cases r with
    | none => simp only [hr]; exact ⟨_, _, rfl⟩
    | some a =>
      obtain ⟨n, hn⟩ := Option.isSome_iff_exists.mp (hlive a rfl)
      by_cases hfile : n.isFile = true
      · simp only [hr, hn, hfile, if_true]; exact ⟨_, _, rfl⟩
      · simp only [hr, hn, hfile, if_false]; exact ⟨_, _, rfl⟩
  | rm path =>
    simp only [exec]
    unfold rm
    obtain ⟨r, l, hr, hlive⟩ := resolve_defined wf lk path hstart true
    cases r with
    | none => simp only [hr]; exact ⟨_, _, rfl⟩
    | some n =>
      by_cases hroot : n = s.root
      · simp only [hr, hroot, if_true]; exact ⟨_, _, rfl⟩
      · obtain ⟨nd, hnd⟩ := Option.isSome_iff_exists.mp (hlive n rfl)
        obtain ⟨p, hp⟩ := lk.hasParent n nd hnd hroot
        obtain ⟨pn, hpn, -⟩ := lk.parentHas n nd p hnd hp
        obtain ⟨h2, hdel, -, -⟩ := rm_heap_spec wf.heapOk hnd hp hpn
        simp only [hr, hroot, if_false, hnd, hp, hpn, List.length_set, hdel]
        exact ⟨_, _, rfl⟩

/-! ## What `rm` does to the heap -/

/-- Erasing a child pointer in a node that lies outside a subtree does not change the subtree. -/
theorem descends_set_iff {h : Heap} {root : Nat} (wf : WFH h root) {p n : Nat} {pn : Node}
    (pn1 : Node) (hp : deref h p = some pn) (hlt : p < n) (hsub : pn1.children.Sublist pn.children)
    (hname : pn1.name = pn.name) (hpar : pn1.parent = pn.parent) (x : Nat) :
    Under (h.set p (some pn1)) n x ↔ Under h n x := by
  have wf1 : WFH (h.set p (some pn1)) root := WFH_set wf hp hname hpar hsub
  constructor
  · rintro ⟨names, d⟩
    induction d with
    | here => exact Under.self _ _
    | child d0 hq hc hcn ih =>
      rename_i names0 q c qn cn
      have hle := descends_le wf1 d0
      have hqc := (wf1.childOk _ _ hq _ hc).1
      rw [deref_set_other _ (by omega)] at hq hcn
      exact Under.child ih hq hc hcn
  · rintro ⟨names, d⟩
    induction d with
    | here => exact Under.self _ _
    | child d0 hq hc hcn ih =>
      rename_i names0 q c qn cn
      have hle := descends_le wf d0
      have hqc := (wf.childOk _ _ hq _ hc).1
      have hq1 : deref (h.set p (some pn1)) q = some qn := by
        rw [deref_set_other _ (by omega)]; exact hq
      have hc1 : deref (h.set p (some pn1)) c = some cn := by
        rw [deref_set_other _ (by omega)]; exact hcn
      exact Under.child ih hq1 hc hc1

/-- Effect of `rm` in a reachable state, for an absolute path or a live cwd: with `n` the
non-root node the path resolves to, exactly the cells of the subtree of `n` are emptied; every
other node keeps its name, kind, content and parent, and its children sequence is the old one
without the pointer `n` (order kept); root and cwd pointers are not touched. -/
theorem rm_effect (s : FileSystem) (hs : Reachable s) (path : Str)
    (hstart : path.head? = some '/' ∨ (deref s.heap s.cwd).isSome) (n : Nat) (l : List Str)
    (hres : resolve s path true = some (some n, l)) (hroot : n ≠ s.root) :
    ∃ s1, rm s path = some (s1, Outcome.removed) ∧ s1.root = s.root ∧ s1.cwd = s.cwd ∧
      s1.heap.length = s.heap.length ∧
      (∀ x, deref s1.heap x = none ↔ (deref s.heap x = none ∨ Under s.heap n x)) ∧
      ∀ x m1, deref s1.heap x = some m1 → ∃ m, deref s.heap x = some m ∧ m1.name = m.name ∧
        m1.isFile = m.isFile ∧ m1.content = m.content ∧ m1.parent = m.parent ∧
        m1.children = m.children.filter (fun c => c ≠ n) := by
  have wf := WF_reachable hs
  have lk := Linked_reachable hs
  obtain ⟨r, l1, hr, hlive⟩ := resolve_defined wf lk path hstart true
  rw [hres] at hr
  simp only [Option.some.injEq, Prod.mk.injEq] at hr
  obtain ⟨hr1, -⟩ := hr
  obtain ⟨nd, hnd⟩ := Option.isSome_iff_exists.mp (hlive n hr1.symm)
  obtain ⟨p, hp⟩ := lk.hasParent n nd hnd hroot
  obtain ⟨pn, hpn, hmem⟩ := lk.parentHas n nd p hnd hp
  obtain ⟨h2, hdel, sh, hiff⟩ := rm_heap_spec wf.heapOk hnd hp hpn
  have hlt : p < n := wf.heapOk.parentLt n nd p hnd hp
  have hplt := deref_lt hpn
  have hU : ∀ x, Under (s.heap.set p
      (some { pn with children := pn.children.filter (fun c => c ≠ n) })) n x ↔
      Under s.heap n x :=
    fun x => descends_set_iff wf.heapOk
      { pn with children := pn.children.filter (fun c => c ≠ n) } hpn hlt
      (List.filter_sublist _) rfl rfl x
  refine ⟨{ s with heap := h2 }, ?_, rfl, rfl, by simpa using sh.1, ?_, ?_⟩
  · unfold rm
    simp only [hres, hroot, if_false, hnd, hp, hpn, List.length_set, hdel]
  · intro x
    show deref h2 x = none ↔ _
    rw [hiff x, hU x]
    by_cases hxp : p = x
    · subst hxp
      rw [deref_set_same _ hplt, hpn]
      simp
    · rw [deref_set_other _ hxp]
  · intro x m1 hx
    have hx1 := sh.live hx
    by_cases hxp : p = x
    · subst hxp
      rw [deref_set_same _ hplt] at hx1
      cases hx1
      exact ⟨pn, hpn, rfl, rfl, rfl, rfl, rfl⟩
    · rw [deref_set_other _ hxp] at hx1
      refine ⟨m1, hx1, rfl, rfl, rfl, rfl, ?_⟩
      symm
      rw [List.filter_eq_self]
      intro c hc
      simp only [ne_eq, decide_not, Bool.not_eq_true', decide_eq_false_iff_not]
      intro hcn
      subst hcn
      obtain ⟨-, m, hm, hmp⟩ := wf.heapOk.childOk x m1 hx1 c hc
      rw [hnd] at hm; cases hm
      rw [hp] at hmp; cases hmp
      exact hxp rfl

/-! ## More on path segmentation -/

theorem splitPathLoop_noSep : ∀ (path : List Char) (parts : List Str) (cur : Str),
    (∀ x ∈ parts, '/' ∉ x) → '/' ∉ cur → ∀ x ∈ splitPathLoop path parts cur, '/' ∉ x := by
  intro path
  induction path with
  | nil =>
    intro parts cur hp hc x hx
    rw [splitPathLoop_nil] at hx
    split at hx
    · rcases List.mem_append.mp hx with h1 | h1
      · exact hp x h1
      · rw [List.mem_singleton] at h1; subst h1; exact hc
    · exact hp x hx
  | cons ch rest ih =>
    intro parts cur hp hc x hx
    rw [splitPathLoop_cons] at hx
    split at hx
    · split at hx
      · refine ih (parts ++ [cur]) [] ?_ (by simp) x hx
        intro y hy
        rcases List.mem_append.mp hy with h1 | h1
        · exact hp y h1
        · rw [List.mem_singleton] at h1; subst h1; exact hc
      · exact ih parts cur hp hc x hx
    · rename_i hne
      refine ih parts (cur ++ [ch]) hp ?_ x hx
      intro hmem
      rcases List.mem_append.mp hmem with h1 | h1
      · exact hc h1
      · rw [List.mem_singleton] at h1
        exact hne h1.symm

theorem splitPath_noSep (path : Str) : ∀ x ∈ splitPath path, '/' ∉ x :=
  splitPathLoop_noSep path [] [] (fun _ h => by cases h) (by simp)

theorem splitPathLoop_join : ∀ (path : List Char) (parts : List Str) (cur : Str),
    (splitPathLoop path parts cur).flatten = parts.flatten ++ cur ++ path.filter (fun c => c ≠ '/') := by
  intro path
  induction path with
  | nil =>
    intro parts cur
    rw [splitPathLoop_nil]
    by_cases hc : cur = []
    · simp [hc]
    · simp [hc]
  | cons ch rest ih =>
    intro parts cur
    rw [splitPathLoop_cons]
    by_cases hch : ch = '/'
    · rw [if_pos hch]
      by_cases hc : cur = []
      · simp [hc, ih, hch]
      · simp [hc, ih, hch]
    · rw [if_neg hch, ih]
      simp [hch]

theorem splitPath_join (path : Str) :
    (splitPath path).flatten = path.filter (fun c => c ≠ '/') := by
  unfold splitPath
  rw [splitPathLoop_join]
  simp

theorem splitOnSep_cons (c : Char) (cs : Str) :
    splitOnSep (c :: cs) =
      if c = '/' then [] :: splitOnSep cs
      else
        match splitOnSep cs with
        | [] => [[c]]
        | x :: xs => (c :: x) :: xs := rfl

theorem splitOnSep_ne_nil : ∀ (path : Str), splitOnSep path ≠ [] := by
  intro path
  induction path with
  | nil => simp [splitOnSep]
  | cons c cs ih =>
    rw [splitOnSep_cons]
    split
    · simp
    · split <;> simp

theorem splitOnSep_noSlash : ∀ (x : Str), '/' ∉ x → splitOnSep x = [x] := by
  intro x
  induction x with
  | nil => intro _; rfl
  | cons c cs ih =>
    intro h
    simp only [List.mem_cons, not_or] at h
    rw [splitOnSep_cons, if_neg (Ne.symm h.1), ih h.2]

theorem splitOnSep_append_sep : ∀ (x rest : Str), '/' ∉ x →
    splitOnSep (x ++ '/' :: rest) = x :: splitOnSep rest := by
  intro x
  induction x with
  | nil =>
    intro rest _
    rw [List.nil_append, splitOnSep_cons, if_pos rfl]
  | cons c cs ih =>
    intro rest h
    simp only [List.mem_cons, not_or] at h
    rw [List.cons_append, splitOnSep_cons, if_neg (Ne.symm h.1), ih rest h.2]

/-- A string is free of separators or splits at its first separator. -/
theorem first_occurrence (c : Char) : ∀ xs : List Char,
    c ∉ xs ∨ ∃ pre post, xs = pre ++ c :: post ∧ c ∉ pre := by
  intro xs
  induction xs with
  | nil => left; simp
  | cons x xs ih =>
    by_cases hx : x = c
    · right; exact ⟨[], xs, by rw [hx]; rfl, by simp⟩
    · rcases ih with h | ⟨pre, post, he, hn⟩
      · left
        simp only [List.mem_cons, not_or]
        exact ⟨Ne.symm hx, h⟩
      · right
        refine ⟨x :: pre, post, by rw [he]; rfl, ?_⟩
        simp only [List.mem_cons, not_or]
        exact ⟨Ne.symm hx, hn⟩

/-- The code's segmentation is the specification's: split on `/`, drop the empty pieces. -/
theorem splitPath_eq_spec : ∀ (n : Nat) (path : Str), path.length ≤ n →
    splitPath path = specSegments path := by
  intro n
  induction n with
  | zero =>
    intro path h
    have : path = [] := List.eq_nil_of_length_eq_zero (by omega)
    subst this
    rfl
  | succ n ih =>
    intro path h
    rcases first_occurrence '/' path with hno | ⟨pre, post, he, hn⟩
    · rw [splitPath_noSlash hno]
      unfold specSegments
      rw [splitOnSep_noSlash path hno]
      by_cases hp : path = [] <;> simp [hp]
    · subst he
      have hlen : post.length ≤ n := by
        simp only [List.length_append, List.length_cons] at h
        omega
      rw [splitPath_append_sep, splitPath_noSlash hn, ih post hlen]
      unfold specSegments
      rw [splitOnSep_append_sep pre post hn]
      by_cases hp : pre = [] <;> simp [hp, List.filter_cons]

theorem splitOnSep_intercalate : ∀ (path : Str),
    List.intercalate ['/'] (splitOnSep path) = path ∧ ∀ x ∈ splitOnSep path, '/' ∉ x := by
  intro path
  induction path with
  | nil => exact ⟨rfl, by simp [splitOnSep]⟩
  | cons c cs ih =>
    obtain ⟨ih1, ih2⟩ := ih
    rw [splitOnSep_cons]
    cases hs : splitOnSep cs with
    | nil => exact absurd hs (splitOnSep_ne_nil cs)
    | cons y ys =>
      rw [hs] at ih1 ih2
      by_cases hc : c = '/'
      · rw [if_pos hc]
        refine ⟨?_, ?_⟩
        · have : List.intercalate ['/'] ([] :: y :: ys) =
              '/' :: List.intercalate ['/'] (y :: ys) := by
            simp [List.intercalate, List.intersperse]
          rw [this, ih1, hc]
        · intro x hx
          rcases List.mem_cons.mp hx with h1 | h1
          · subst h1; simp
          · exact ih2 x h1
      · rw [if_neg hc]
        refine ⟨?_, ?_⟩
        · have : List.intercalate ['/'] ((c :: y) :: ys) =
              c :: List.intercalate ['/'] (y :: ys) := by
            cases ys <;> simp [List.intercalate, List.intersperse]
          rw [this, ih1]
        · intro x hx
          rcases List.mem_cons.mp hx with h1 | h1
          · subst h1
            simp only [List.mem_cons, not_or]
            exact ⟨Ne.symm hc, ih2 y (List.mem_cons_self _ _)⟩
          · exact ih2 x (List.mem_cons_of_mem _ h1)

/-! ## Joined paths -/

theorem joinParts_eq_intercalate : ∀ (names : List Str),
    joinParts names [] = List.intercalate ['/'] names := by
  intro names
  induction names with
  | nil => rfl
  | cons x t ih =>
    cases t with
    | nil => simp [joinParts, List.intercalate]
    | cons y r =>
      unfold joinParts
      rw [joinParts_acc, ih]
      simp [List.intercalate, List.intersperse]

theorem joinParts_sep_eq (names : List Str) :
    joinParts names ['/'] = '/' :: List.intercalate ['/'] names := by
  rw [joinParts_acc, joinParts_eq_intercalate]
  rfl

theorem splitPath_intercalate (names : List Str) (hn : ∀ x ∈ names, '/' ∉ x) :
    splitPath (List.intercalate ['/'] names) = names.filter (fun x => x ≠ []) := by
  rw [← splitPath_sep_cons, ← joinParts_sep_eq]
  exact splitPath_joinParts names hn

theorem splitPath_dotdot (n : Nat) : splitPath (dotdotPath n) = List.replicate n ['.', '.'] := by
  unfold dotdotPath
  rw [splitPath_intercalate]
  · rw [List.filter_eq_self]
    intro x hx
    rw [List.eq_of_mem_replicate hx]
    decide
  · intro x hx
    rw [List.eq_of_mem_replicate hx]
    decide

/-- At a node without parent every `..` step stays in place. -/
theorem resolveLoop_dotdots {h : Heap} {a : Nat} {r : Node} (hr : deref h a = some r)
    (hpar : r.parent = none) (m : Bool) :
    ∀ n : Nat, resolveLoop h (List.replicate n ['.', '.']) a m = some (some a, []) := by
  intro n
  induction n with
  | zero => rfl
  | succ n ih =>
    rw [List.replicate_succ, resolveLoop_cons, if_neg (by decide), if_pos rfl]
    simp only [hr, hpar]
    exact ih

/-! ## Lenient resolution -/

/-- What the loop of `resolve` returns in lenient mode, and what strict mode returns on the same
input. -/
theorem resolveLoop_lenient {h : Heap} : ∀ (parts : List Str) (a : Nat) (r : Option Nat)
    (l : List Str), resolveLoop h parts a false = some (r, l) →
    ∃ n pre, r = some n ∧ parts = pre ++ l ∧
      resolveLoop h pre a false = some (some n, []) ∧
      resolveLoop h pre a true = some (some n, []) ∧
      (l = [] → resolveLoop h parts a true = some (some n, [])) ∧
      (∀ x rest, l = x :: rest → x ≠ ['.'] ∧ x ≠ ['.', '.'] ∧ findChild h n x = some none ∧
        resolveLoop h parts a true = some (none, [])) := by
  intro parts
  induction parts with
  | nil =>
    intro a r l hr
    simp only [resolveLoop, Option.some.injEq, Prod.mk.injEq] at hr
    obtain ⟨rfl, rfl⟩ := hr
    exact ⟨a, [], rfl, rfl, rfl, rfl, fun _ => rfl, fun x rest hx => by cases hx⟩
  | cons part rest ih =>
    intro a r l hr
    rw [resolveLoop_cons] at hr
    -- a step that moves to `b` and goes on with the remaining segments
    have step : ∀ b, resolveLoop h rest b false = some (r, l) →
        (∀ m, resolveLoop h (part :: rest) a m = resolveLoop h rest b m) →
        (∀ m, resolveLoop h [part] a m = some (some b, [])) →
        ∃ n pre, r = some n ∧ part :: rest = pre ++ l ∧
          resolveLoop h pre a false = some (some n, []) ∧
          resolveLoop h pre a true = some (some n, []) ∧
          (l = [] → resolveLoop h (part :: rest) a true = some (some n, [])) ∧
          (∀ x rest1, l = x :: rest1 → x ≠ ['.'] ∧ x ≠ ['.', '.'] ∧
            findChild h n x = some none ∧
            resolveLoop h (part :: rest) a true = some (none, [])) := by
      intro b hb hunf hone
      obtain ⟨n, pre, h1, h2, h3, h4, h5, h6⟩ := ih b r l hb
      refine ⟨n, part :: pre, h1, by rw [h2]; rfl, ?_, ?_, ?_, ?_⟩
      · have := resolveLoop_append false [part] pre a b (hone false)
        rw [List.singleton_append] at this
        rw [this]; exact h3
      · have := resolveLoop_append true [part] pre a b (hone true)
        rw [List.singleton_append] at this
        rw [this]; exact h4
      · intro hl; rw [hunf true]; exact h5 hl
      · intro x rest1 hl
        obtain ⟨g1, g2, g3, g4⟩ := h6 x rest1 hl
        exact ⟨g1, g2, g3, by rw [hunf true]; exact g4⟩
    by_cases h1 : part = ['.']
    · rw [if_pos h1] at hr
      refine step a hr (fun m => ?_) (fun m => ?_)
      · rw [resolveLoop_cons, if_pos h1]
      · rw [resolveLoop_cons, if_pos h1]; rfl
    · rw [if_neg h1] at hr
      by_cases h2 : part = ['.', '.']
      · rw [if_pos h2] at hr
        cases hd : deref h a with
        | none => simp [hd] at hr
        | some nd =>
          simp only [hd] at hr
          cases hp : nd.parent with
          | none =>
            simp only [hp] at hr
            refine step a hr (fun m => ?_) (fun m => ?_)
            · rw [resolveLoop_cons, if_neg h1, if_pos h2]; simp only [hd, hp]
            · rw [resolveLoop_cons, if_neg h1, if_pos h2]; simp only [hd, hp]; rfl
          | some p =>
            simp only [hp] at hr
            refine step p hr (fun m => ?_) (fun m => ?_)
            · rw [resolveLoop_cons, if_neg h1, if_pos h2]; simp only [hd, hp]
            · rw [resolveLoop_cons, if_neg h1, if_pos h2]; simp only [hd, hp]; rfl
      · rw [if_neg h2] at hr
        cases hf : findChild h a part with
        | none => simp [hf] at hr
        | some fc =>
          cases fc with
          | none =>
            simp only [hf, Bool.false_eq_true, if_false, Option.some.injEq,
              Prod.mk.injEq] at hr
            obtain ⟨rfl, rfl⟩ := hr
            refine ⟨a, [], rfl, rfl, rfl, rfl, fun hl => (by cases hl), ?_⟩
            intro x rest1 hl
            simp only [List.cons.injEq] at hl
            obtain ⟨rfl, rfl⟩ := hl
            refine ⟨h1, h2, hf, ?_⟩
            rw [resolveLoop_cons, if_neg h1, if_neg h2]
            simp only [hf, if_true]
          | some c =>
            simp only [hf] at hr
            refine step c hr (fun m => ?_) (fun m => ?_)
            · rw [resolveLoop_cons, if_neg h1, if_neg h2]; simp only [hf]
            · rw [resolveLoop_cons, if_neg h1, if_neg h2]; simp only [hf]; rfl

/-! ## Editing a file -/

theorem extends_set_content {h : Heap} {a : Nat} {n : Node} (ha : deref h a = some n)
    (text : Str) : Extends h (h.set a (some { n with content := text })) := by
  intro x m hx
  by_cases hxa : a = x
  · subst hxa
    rw [deref_set_same _ (deref_lt ha)]
    rw [ha] at hx; cases hx
    exact ⟨_, rfl, rfl, rfl, [], by simp⟩
  · rw [deref_set_other _ hxa]
    exact ⟨m, hx, rfl, rfl, [], by simp⟩

theorem readUntilEnd_lines : ∀ (lines rest : List Str) (text : Str),
    ['E', 'N', 'D'] ∉ lines →
    readUntilEnd (lines ++ ['E', 'N', 'D'] :: rest) text = some (text ++ linesText lines) := by
  intro lines
  induction lines with
  | nil =>
    intro rest text _
    simp [readUntilEnd, linesText]
  | cons l ls ih =>
    intro rest text h
    simp only [List.mem_cons, not_or] at h
    rw [List.cons_append]
    unfold readUntilEnd
    rw [if_neg (Ne.symm h.1), ih rest _ h.2]
    simp [linesText]

/-! ## Names on a chain -/

theorem descends_names_stored {h : Heap} {root : Nat} (wf : WFH h root) {a b : Nat}
    {names : List Str} (d : Descends h a names b) :
    ∀ x ∈ names, ∃ c cn, deref h c = some cn ∧ a < c ∧ cn.name = x := by
  induction d with
  | here => intro x hx; cases hx
  | child d0 hp hc hcn ih =>
    rename_i names0 p c pn cn
    intro x hx
    rcases List.mem_append.mp hx with h1 | h1
    · exact ih x h1
    · rw [List.mem_singleton] at h1
      have := descends_le wf d0
      have := (wf.childOk _ _ hp _ hc).1
      exact ⟨c, cn, hcn, by omega, h1.symm⟩

/-- Strict resolution never returns leftover segments. -/
theorem resolveLoop_strict_nil {h : Heap} : ∀ (parts : List Str) (a : Nat) (r : Option Nat)
    (l : List Str), resolveLoop h parts a true = some (r, l) → l = [] := by
  intro parts
  induction parts with
  | nil =>
    intro a r l hr
    simp only [resolveLoop, Option.some.injEq, Prod.mk.injEq] at hr
    exact hr.2.symm
  | cons part rest ih =>
    intro a r l hr
    rw [resolveLoop_cons] at hr
    split at hr
    · exact ih _ _ _ hr
    · split at hr
      · split at hr
        · cases hr
        · split at hr
          · exact ih _ _ _ hr
          · exact ih _ _ _ hr
      · split at hr
        · cases hr
        · simp only [if_true, Option.some.injEq, Prod.mk.injEq] at hr
          exact hr.2.symm
        · exact ih _ _ _ hr

/-! ## The order on strings and the listing -/

theorem strLt_nil_right (a : Str) : strLt a [] = false := by
  cases a <;> rfl

theorem strLt_cons (a b : Char) (as bs : Str) :
    strLt (a :: as) (b :: bs) = if a < b then true else if b < a then false else strLt as bs :=
  rfl

theorem strLt_cons_true (a b : Char) (as bs : Str) :
    strLt (a :: as) (b :: bs) = true ↔ a < b ∨ (a = b ∧ strLt as bs = true) := by
  rw [strLt_cons]
  rcases lt_trichotomy a b with h | h | h
  · simp [h]
  · subst h; simp
  · simp [h, lt_asymm h, ne_of_gt h]

theorem strLt_cons_false (a b : Char) (as bs : Str) :
    strLt (a :: as) (b :: bs) = false ↔ b < a ∨ (a = b ∧ strLt as bs = false) := by
  rw [strLt_cons]
  rcases lt_trichotomy a b with h | h | h
  · simp [h, lt_asymm h, ne_of_lt h]
  · subst h; simp
  · simp [h, lt_asymm h]

/-- The comparison is the lexicographic order on the characters. -/
theorem strLt_iff_lex : ∀ (a b : Str), strLt a b = true ↔ List.Lex (fun x y => x < y) a b := by
  intro a
  induction a with
  | nil =>
    intro b
    cases b with
    | nil => simp [strLt]
    | cons y ys => simp [strLt, List.Lex.nil]
  | cons x xs ih =>
    intro b
    cases b with
    | nil => simp [strLt]
    | cons y ys =>
      rw [strLt_cons_true]
      constructor
      · rintro (h | ⟨rfl, h⟩)
        · exact List.Lex.rel h
        · exact List.Lex.cons ((ih ys).mp h)
      · intro h
        cases h with
        | cons h1 => exact Or.inr ⟨rfl, (ih ys).mpr h1⟩
        | rel h1 => exact Or.inl h1

theorem strLe_total : ∀ (a b : Str), StrLe a b ∨ StrLe b a := by
  intro a
  induction a with
  | nil => intro b; left; exact strLt_nil_right b
  | cons x xs ih =>
    intro b
    cases b with
    | nil => right; exact strLt_nil_right _
    | cons y ys =>
      unfold StrLe
      rw [strLt_cons_false, strLt_cons_false]
      rcases lt_trichotomy x y with h | h | h
      · exact Or.inl (Or.inl h)
      · subst h
        rcases ih ys with h1 | h1
        · exact Or.inl (Or.inr ⟨rfl, h1⟩)
        · exact Or.inr (Or.inr ⟨rfl, h1⟩)
      · exact Or.inr (Or.inl h)

theorem strLe_trans : ∀ (a b c : Str), StrLe a b → StrLe b c → StrLe a c := by
  intro a
  induction a with
  | nil => intro b c _ _; exact strLt_nil_right c
  | cons x xs ih =>
    intro b c hab hbc
    cases b with
    | nil => simp [StrLe, strLt] at hab
    | cons y ys =>
      cases c with
      | nil => simp [StrLe, strLt] at hbc
      | cons z zs =>
        unfold StrLe at hab hbc ⊢
        rw [strLt_cons_false] at hab hbc ⊢
        rcases hab with h1 | ⟨rfl, h1⟩
        · rcases hbc with h2 | ⟨rfl, h2⟩
          · exact Or.inl (lt_trans h1 h2)
          · exact Or.inl h1
        · rcases hbc with h2 | ⟨rfl, h2⟩
          · exact Or.inl h2
          · exact Or.inr ⟨rfl, ih ys zs h1 h2⟩

theorem sortStrings_spec (out : List Str) :
    (sortStrings out).Perm out ∧ (sortStrings out).Sorted StrLe := by
  haveI : IsTotal Str StrLe := ⟨strLe_total⟩
  haveI : IsTrans Str StrLe := ⟨strLe_trans⟩
  exact ⟨List.perm_insertionSort StrLe out, List.sorted_insertionSort StrLe out⟩

theorem lsNames_eq {h : Heap} : ∀ (cs : List Nat), (∀ c ∈ cs, (deref h c).isSome) →
    lsNames h cs = some (cs.map (lsEntry h)) := by
  intro cs
  induction cs with
  | nil => intro _; rfl
  | cons c cs ih =>
    intro hl
    obtain ⟨cn, hcn⟩ := Option.isSome_iff_exists.mp (hl c (List.mem_cons_self _ _))
    unfold lsNames
    simp only [hcn, ih (fun y hy => hl y (List.mem_cons_of_mem _ hy)), List.map_cons, lsEntry]

/-! ## The tree is the set of live cells -/

theorem under_live {h : Heap} {a x : Nat} (u : Under h a x) (ha : (deref h a).isSome) :
    (deref h x).isSome := by
  obtain ⟨names, d⟩ := u
  exact descends_live d ha

theorem live_under_root {h : Heap} {root : Nat} (wf : WFH h root) (lk : Linked h root) :
    ∀ (k x : Nat), x ≤ k → (deref h x).isSome → Under h root x := by
  intro k
  induction k with
  | zero =>
    intro x hx hl
    by_cases hr : x = root
    · subst hr; exact Under.self _ _
    · obtain ⟨n, hn⟩ := Option.isSome_iff_exists.mp hl
      obtain ⟨p, hp⟩ := lk.hasParent x n hn hr
      have := wf.parentLt x n p hn hp
      omega
  | succ k ih =>
    intro x hx hl
    by_cases hr : x = root
    · subst hr; exact Under.self _ _
    · obtain ⟨n, hn⟩ := Option.isSome_iff_exists.mp hl
      obtain ⟨p, hp⟩ := lk.hasParent x n hn hr
      obtain ⟨pn, hpn, hmem⟩ := lk.parentHas x n p hn hp
      have hlt := wf.parentLt x n p hn hp
      exact Under.child (ih p (by omega) (by simp [hpn])) hpn hmem hn

/-- In a reachable state the nodes of the tree are exactly the live cells. -/
theorem inTree_iff_live {s : FileSystem} (hs : Reachable s) (x : Nat) :
    InTree s x ↔ (deref s.heap x).isSome := by
  have wf := (WF_reachable hs).heapOk
  have lk := Linked_reachable hs
  obtain ⟨r, hr, -⟩ := wf.rootLive
  constructor
  · rintro ⟨hroot, names, d⟩
    exact descends_live d hroot
  · intro hl
    exact ⟨by simp [hr], live_under_root wf lk x x (Nat.le_refl _) hl⟩

/-! ## The traversal of `search` -/

theorem searchLoop_nil (h : Heap) (q : Str) (fuel : Nat) (res : List Nat) :
    searchLoop h q (fuel + 1) [] res = some res := rfl

theorem searchLoop_concat (h : Heap) (q : Str) (fuel : Nat) (rest : List Nat) (a : Nat)
    (res : List Nat) :
    searchLoop h q (fuel + 1) (rest ++ [a]) res =
      match deref h a with
      | none => none
      | some n =>
        searchLoop h q fuel (rest ++ n.children)
          (if n.name = q then res ++ [a] else res) := by
  rw [searchLoop]
  cases hd : deref h a <;> simp only [List.getLast?_concat, List.dropLast_concat, hd]

/-- The loop of `search` visits every node under the nodes of the stack exactly once: with the
subtrees of the stack entries pairwise disjoint and enough fuel, it returns, and what it appends
to `results` has no duplicates and consists of the nodes under the stack that bear the name. -/
theorem searchLoop_spec {h : Heap} {root : Nat} (wf : WFH h root) (q : Str) :
    ∀ (fuel : Nat) (st res : List Nat) (F : Finset Nat),
      (∀ a ∈ st, (deref h a).isSome) →
      st.Pairwise (fun a b => ∀ x, Under h a x → Under h b x → False) →
      (∀ x, (∃ a ∈ st, Under h a x) → x ∈ F) → F.card < fuel →
      ∃ m, searchLoop h q fuel st res = some (res ++ m) ∧ m.Nodup ∧
        ∀ x, x ∈ m ↔ (∃ a ∈ st, Under h a x) ∧ nameOf h x = some q := by
  intro fuel
  induction fuel with
  | zero => intro st res F _ _ _ hF; omega
  | succ fuel ih =>
    intro st res F hlive hpw hcov hF
    rcases List.eq_nil_or_concat st with rfl | ⟨rest, a, rfl⟩
    · refine ⟨[], by rw [searchLoop_nil, List.append_nil], List.nodup_nil, ?_⟩
      intro x
      simp
    · rw [List.concat_eq_append] at hlive hpw hcov ⊢
      obtain ⟨n, hn⟩ := Option.isSome_iff_exists.mp (hlive a (by simp))
      rw [List.pairwise_append] at hpw
      obtain ⟨hpr, -, hcross⟩ := hpw
      have hra : ∀ r ∈ rest, ∀ x, Under h r x → Under h a x → False :=
        fun r hr => hcross r hr a (List.mem_singleton_self a)
      have hchild : ∀ c ∈ n.children, Under h a c := by
        intro c hc
        obtain ⟨-, cn, hcn, -⟩ := wf.childOk a n hn c hc
        exact Under.child (Under.self _ _) hn hc hcn
      -- the new stack
      have hlive1 : ∀ b ∈ rest ++ n.children, (deref h b).isSome := by
        intro b hb
        rcases List.mem_append.mp hb with h1 | h1
        · exact hlive b (List.mem_append_left _ h1)
        · obtain ⟨-, cn, hcn, -⟩ := wf.childOk a n hn b h1
          simp [hcn]
      have hpw1 : (rest ++ n.children).Pairwise
          (fun a b => ∀ x, Under h a x → Under h b x → False) := by
        rw [List.pairwise_append]
        refine ⟨hpr, ?_, ?_⟩
        · have hnd : n.children.Nodup := List.Nodup.of_map _ (wf.namesNodup a n hn)
          refine List.Pairwise.imp_of_mem ?_ hnd
          intro c1 c2 h1 h2 hne x u1 u2
          exact Under.disjoint wf hn h1 h2 hne u1 u2
        · intro r hr c hc x u1 u2
          exact hra r hr x u1 (Under.compose (hchild c hc) u2)
      have hstep : ∀ x, (∃ b ∈ rest ++ n.children, Under h b x) ↔
          ((∃ b ∈ rest ++ [a], Under h b x) ∧ x ≠ a) := by
        intro x
        constructor
        · rintro ⟨b, hb, u⟩
          rcases List.mem_append.mp hb with h1 | h1
          · refine ⟨⟨b, List.mem_append_left _ h1, u⟩, ?_⟩
            intro hxa
            subst hxa
            exact hra b h1 x u (Under.self _ _)
          · refine ⟨⟨a, by simp, Under.compose (hchild b h1) u⟩, ?_⟩
            have := (wf.childOk a n hn b h1).1
            have := Under.le wf u
            omega
        · rintro ⟨⟨b, hb, u⟩, hxa⟩
          rcases List.mem_append.mp hb with h1 | h1
          · exact ⟨b, List.mem_append_left _ h1, u⟩
          · rw [List.mem_singleton] at h1
            subst h1
            rcases Under.cases u with h2 | ⟨an, c, cn, han, hc, hcn, hu⟩
            · exact absurd h2 hxa
            · rw [hn] at han; cases han
              exact ⟨c, List.mem_append_right _ hc, hu⟩
      have haF : a ∈ F := hcov a ⟨a, by simp, Under.self _ _⟩
      have hcov1 : ∀ x, (∃ b ∈ rest ++ n.children, Under h b x) → x ∈ F.erase a := by
        intro x hx
        obtain ⟨h1, h2⟩ := (hstep x).mp hx
        exact Finset.mem_erase.mpr ⟨h2, hcov x h1⟩
      have hF1 : (F.erase a).card < fuel := by
        rw [Finset.card_erase_of_mem haF]
        have : 0 < F.card := Finset.card_pos.mpr ⟨a, haF⟩
        omega
      obtain ⟨m, hm, hnd, hmem⟩ := ih (rest ++ n.children)
        (if n.name = q then res ++ [a] else res) (F.erase a) hlive1 hpw1 hcov1 hF1
      rw [searchLoop_concat]
      simp only [hn]
      have hna : a ∉ m := by
        intro ha
        exact ((hstep a).mp ((hmem a).mp ha).1).2 rfl
      by_cases hq : n.name = q
      · refine ⟨a :: m, ?_, List.nodup_cons.mpr ⟨hna, hnd⟩, ?_⟩
        · rw [hm, if_pos hq]; simp
        · intro x
          rw [List.mem_cons, hmem x, hstep x]
          constructor
          · rintro (rfl | ⟨⟨h1, -⟩, h2⟩)
            · exact ⟨⟨x, by simp, Under.self _ _⟩, by simp [nameOf, hn, hq]⟩
            · exact ⟨h1, h2⟩
          · rintro ⟨h1, h2⟩
            by_cases hxa : x = a
            · exact Or.inl hxa
            · exact Or.inr ⟨⟨h1, hxa⟩, h2⟩
      · refine ⟨m, ?_, hnd, ?_⟩
        · rw [hm, if_neg hq]
        · intro x
          rw [hmem x, hstep x]
          constructor
          · rintro ⟨⟨h1, -⟩, h2⟩
            exact ⟨h1, h2⟩
          · rintro ⟨h1, h2⟩
            refine ⟨⟨h1, ?_⟩, h2⟩
            intro hxa
            subst hxa
            simp [nameOf, hn] at h2
            exact hq h2

theorem searchNodes_spec {s : FileSystem} (hs : Reachable s) (q : Str) :
    ∃ results, searchNodes s q = some results ∧ results.Nodup ∧
      ∀ x, x ∈ results ↔ InTree s x ∧ nameOf s.heap x = some q := by
  have wf := (WF_reachable hs).heapOk
  obtain ⟨r, hr, -⟩ := wf.rootLive
  have hrl : (deref s.heap s.root).isSome := by simp [hr]
  obtain ⟨m, hm, hnd, hmem⟩ := searchLoop_spec wf q (s.heap.length + 1) [s.root] []
    (Finset.range s.heap.length)
    (by intro a ha; rw [List.mem_singleton] at ha; subst ha; exact hrl)
    (List.pairwise_singleton _ _)
    (by
      rintro x ⟨a, ha, u⟩
      rw [List.mem_singleton] at ha
      subst ha
      obtain ⟨n, hn⟩ := Option.isSome_iff_exists.mp (under_live u hrl)
      exact Finset.mem_range.mpr (deref_lt hn))
    (by simp)
  refine ⟨m, by unfold searchNodes; rw [hm]; rfl, hnd, ?_⟩
  intro x
  rw [hmem x]
  constructor
  · rintro ⟨⟨a, ha, u⟩, h2⟩
    rw [List.mem_singleton] at ha
    subst ha
    exact ⟨⟨hrl, u⟩, h2⟩
  · rintro ⟨⟨-, u⟩, h2⟩
    exact ⟨⟨s.root, List.mem_singleton_self _, u⟩, h2⟩

/-- The printed lines of `search`: one per collected node, in order. -/
theorem search_lines {s : FileSystem} (hs : Reachable s) : ∀ (results : List Nat),
    (∀ x ∈ results, (deref s.heap x).isSome) →
    ∃ lines, results.mapM (searchLine s) = some lines ∧
      List.Forall₂ (fun x line => ∃ p n, getPath s x = some p ∧ deref s.heap x = some n ∧
        line = p ++ (if n.isFile then [] else ['/'])) results lines := by
  have wf := (WF_reachable hs).heapOk
  have lk := Linked_reachable hs
  intro results
  induction results with
  | nil => intro _; exact ⟨[], rfl, List.Forall₂.nil⟩
  | cons x xs ih =>
    intro hl
    obtain ⟨lines, h1, h2⟩ := ih (fun y hy => hl y (List.mem_cons_of_mem _ hy))
    have hx := hl x (List.mem_cons_self _ _)
    obtain ⟨n, hn⟩ := Option.isSome_iff_exists.mp hx
    obtain ⟨p, hp⟩ := getPath_defined s wf lk x hx
    refine ⟨(p ++ (if n.isFile then [] else ['/'])) :: lines, ?_,
      List.Forall₂.cons ⟨p, n, hp, hn, rfl⟩ h2⟩
    rw [List.mapM_cons, h1]
    simp [searchLine, hp, hn]

/-! ## The walk of `tree` -/

theorem specPreorder_succ (h : Heap) (fuel a : Nat) (n : Node) (hn : deref h a = some n) :
    specPreorder h (fuel + 1) a = a :: (n.children.map (specPreorder h fuel)).flatten := by
  rw [specPreorder]
  simp only [hn]

/-- With enough fuel the pre-order does not depend on the fuel. -/
theorem specPreorder_stable {h : Heap} {root : Nat} (wf : WFH h root) :
    ∀ (f1 f2 a : Nat), (deref h a).isSome → h.length < a + f1 → h.length < a + f2 →
      specPreorder h f1 a = specPreorder h f2 a := by
  intro f1
  induction f1 with
  | zero =>
    intro f2 a ha h1 _
    obtain ⟨n, hn⟩ := Option.isSome_iff_exists.mp ha
    have := deref_lt hn
    omega
  | succ f1 ih =>
    intro f2 a ha h1 h2
    obtain ⟨n, hn⟩ := Option.isSome_iff_exists.mp ha
    have hlt := deref_lt hn
    cases f2 with
    | zero => omega
    | succ f2 =>
      rw [specPreorder_succ h f1 a n hn, specPreorder_succ h f2 a n hn]
      congr 2
      apply List.map_congr_left
      intro c hc
      obtain ⟨hac, cn, hcn, -⟩ := wf.childOk a n hn c hc
      exact ih f2 c (by simp [hcn]) (by omega) (by omega)

/-- The pre-order lists exactly the nodes of the subtree, each once. -/
theorem specPreorder_mem {h : Heap} {root : Nat} (wf : WFH h root) :
    ∀ (fuel a : Nat), (deref h a).isSome → h.length < a + fuel →
      (specPreorder h fuel a).Nodup ∧ ∀ x, x ∈ specPreorder h fuel a ↔ Under h a x := by
  intro fuel
  induction fuel with
  | zero =>
    intro a ha h1
    obtain ⟨n, hn⟩ := Option.isSome_iff_exists.mp ha
    have := deref_lt hn
    omega
  | succ fuel ih =>
    intro a ha h1
    obtain ⟨n, hn⟩ := Option.isSome_iff_exists.mp ha
    have hch : ∀ c ∈ n.children, (specPreorder h fuel c).Nodup ∧
        ∀ x, x ∈ specPreorder h fuel c ↔ Under h c x := by
      intro c hc
      obtain ⟨hac, cn, hcn, -⟩ := wf.childOk a n hn c hc
      exact ih c (by simp [hcn]) (by omega)
    have hmem : ∀ x, x ∈ (n.children.map (specPreorder h fuel)).flatten ↔
        ∃ c ∈ n.children, Under h c x := by
      intro x
      rw [List.mem_flatten]
      constructor
      · rintro ⟨l, hl, hx⟩
        obtain ⟨c, hc, rfl⟩ := List.mem_map.mp hl
        exact ⟨c, hc, ((hch c hc).2 x).mp hx⟩
      · rintro ⟨c, hc, u⟩
        exact ⟨_, List.mem_map.mpr ⟨c, hc, rfl⟩, ((hch c hc).2 x).mpr u⟩
    rw [specPreorder_succ h fuel a n hn]
    refine ⟨List.nodup_cons.mpr ⟨?_, ?_⟩, ?_⟩
    · intro hin
      obtain ⟨c, hc, u⟩ := (hmem a).mp hin
      have := (wf.childOk a n hn c hc).1
      have := Under.le wf u
      omega
    · rw [List.nodup_flatten]
      refine ⟨?_, ?_⟩
      · intro l hl
        obtain ⟨c, hc, rfl⟩ := List.mem_map.mp hl
        exact (hch c hc).1
      · rw [List.pairwise_map]
        have hnd : n.children.Nodup := List.Nodup.of_map _ (wf.namesNodup a n hn)
        refine List.Pairwise.imp_of_mem ?_ hnd
        intro c1 c2 h1 h2 hne x x1 x2
        exact Under.disjoint wf hn h1 h2 hne (((hch c1 h1).2 x).mp x1) (((hch c2 h2).2 x).mp x2)
    · intro x
      rw [List.mem_cons, hmem x]
      constructor
      · rintro (rfl | ⟨c, hc, u⟩)
        · exact Under.self _ _
        · obtain ⟨-, cn, hcn, -⟩ := wf.childOk a n hn c hc
          exact Under.compose (Under.child (Under.self _ _) hn hc hcn) u
      · intro u
        rcases Under.cases u with h2 | ⟨an, c, cn, han, hc, hcn, hu⟩
        · exact Or.inl h2
        · rw [hn] at han; cases han
          exact Or.inr ⟨c, hc, hu⟩

theorem treeLine_root (root : Nat) (n : Node) (pre : Str) (isLast : Bool) :
    treeLine root root n pre isLast = ['/'] := by
  simp [treeLine]

theorem treeLine_dir {root a : Nat} (n : Node) (pre : Str) (isLast : Bool) (ha : a ≠ root)
    (hd : n.isFile = false) : (treeLine root a n pre isLast).getLast? = some '/' := by
  simp only [treeLine, if_neg ha, hd]
  simp

/-- Lines of `printTree`: one per node of the pre-order, in that order; the line of the root is
"/", the line of any other directory ends with "/". -/
theorem printTree_spec {h : Heap} {root : Nat} (wf : WFH h root) :
    ∀ (fuel a : Nat) (pre : Str) (isLast : Bool), (deref h a).isSome → h.length < a + fuel →
      ∃ out, printTree h root fuel a pre isLast = some out ∧
        out.map Prod.fst = specPreorder h fuel a ∧
        ∀ p ∈ out, ∃ n, deref h p.1 = some n ∧ (p.1 = root → p.2 = ['/']) ∧
          (p.1 ≠ root → n.isFile = false → p.2.getLast? = some '/') := by
  intro fuel
  induction fuel with
  | zero =>
    intro a _ _ ha h1
    obtain ⟨n, hn⟩ := Option.isSome_iff_exists.mp ha
    have := deref_lt hn
    omega
  | succ fuel ih =>
    intro a pre isLast ha h1
    obtain ⟨n, hn⟩ := Option.isSome_iff_exists.mp ha
    have loop : ∀ (R : List Nat) (k : Nat) (acc : List (Nat × Str)) (pre1 : Str) (len : Nat),
        (∀ c ∈ R, c ∈ n.children) →
        ∃ outs, (R.enumFrom k).foldlM
            (fun acc ic =>
              match printTree h root fuel ic.2 pre1 (decide (ic.1 = len)) with
              | none => none
              | some lines => some (acc ++ lines)) acc = some (acc ++ outs) ∧
          outs.map Prod.fst = (R.map (specPreorder h fuel)).flatten ∧
          ∀ p ∈ outs, ∃ n, deref h p.1 = some n ∧ (p.1 = root → p.2 = ['/']) ∧
            (p.1 ≠ root → n.isFile = false → p.2.getLast? = some '/') := by
      intro R
      induction R with
      | nil =>
        intro k acc pre1 len _
        exact ⟨[], by simp [List.enumFrom], rfl, by simp⟩
      | cons c R ihR =>
        intro k acc pre1 len hsub
        obtain ⟨hac, cn, hcn, -⟩ := wf.childOk a n hn c (hsub c (List.mem_cons_self _ _))
        obtain ⟨o1, h1o, h1m, h1p⟩ := ih c pre1 (decide (k = len)) (by simp [hcn]) (by omega)
        obtain ⟨o2, h2o, h2m, h2p⟩ := ihR (k + 1) (acc ++ o1) pre1 len
          (fun x hx => hsub x (List.mem_cons_of_mem _ hx))
        refine ⟨o1 ++ o2, ?_, ?_, ?_⟩
        · rw [List.enumFrom_cons, List.foldlM_cons]
          simp only [h1o]
          rw [← List.append_assoc]
          exact h2o
        · rw [List.map_append, h1m, h2m, List.map_cons, List.flatten_cons]
        · intro p hp
          rcases List.mem_append.mp hp with hp | hp
          · exact h1p p hp
          · exact h2p p hp
    obtain ⟨outs, ho, hm, hp⟩ := loop n.children 0 [(a, treeLine root a n pre isLast)]
      (pre ++ (if isLast then [' ', ' ', ' ', ' '] else ['│', ' ', ' ', ' ']))
      (n.children.length - 1) (fun _ hc => hc)
    refine ⟨(a, treeLine root a n pre isLast) :: outs, ?_, ?_, ?_⟩
    · rw [printTree]
      simp only [hn]
      exact ho
    · rw [specPreorder_succ h fuel a n hn, List.map_cons, hm]
    · intro p hp1
      rcases List.mem_cons.mp hp1 with rfl | hp1
      · refine ⟨n, hn, ?_, ?_⟩
        · intro hr
          simp only at hr
          subst hr
          exact treeLine_root _ _ _ _
        · intro hr hd
          exact treeLine_dir n pre isLast hr hd
      · exact hp p hp1

/-! ## Children are kept in creation order -/

theorem attach_children {s s1 : FileSystem} {p : Nat} {nm : Str} {file : Bool} {o : Outcome}
    {pn : Node} (hp : deref s.heap p = some pn) (h : attach s p nm file = some (s1, o)) :
    ∀ a m, deref s1.heap a = some m →
      (∃ n, deref s.heap a = some n ∧
        (m.children = n.children ∨ m.children = n.children ++ [s.heap.length])) ∨
      (deref s.heap a = none ∧ a = s.heap.length ∧ m.children = []) := by
  obtain ⟨hh, -, -, -⟩ := attach_eq hp h
  intro a m hm
  rw [hh] at hm
  have hplt := deref_lt hp
  by_cases hap : p = a
  · subst hap
    rw [deref_set_same _ (by simp; omega)] at hm
    cases hm
    exact Or.inl ⟨pn, hp, Or.inr rfl⟩
  · rw [deref_set_other _ hap] at hm
    rcases Nat.lt_trichotomy a s.heap.length with hlt | heq | hgt
    · rw [deref_append_old _ hlt] at hm
      exact Or.inl ⟨m, hm, Or.inl rfl⟩
    · subst heq
      rw [deref_append_new] at hm
      cases hm
      exact Or.inr ⟨deref_length _, rfl, rfl⟩
    · have := deref_lt hm
      simp at this
      omega

/-- A command never reorders children: a live cell of the new state is the cell just allocated
(without children), or it was live before and its children sequence is unchanged, has the newly
allocated node appended at the end, or has lost one entry with the rest in their order. -/
theorem exec_children {s s1 : FileSystem} {c : Cmd} {o : Outcome}
    (h : exec s c = some (s1, o)) :
    ∀ a m, deref s1.heap a = some m →
      (∃ n, deref s.heap a = some n ∧
        (m.children = n.children ∨ m.children = n.children ++ [s.heap.length] ∨
          ∃ x, m.children = n.children.filter (fun c => c ≠ x))) ∨
      (deref s.heap a = none ∧ a = s.heap.length ∧ m.children = []) := by
  have same : s1 = s → ∀ a m, deref s1.heap a = some m →
      (∃ n, deref s.heap a = some n ∧
        (m.children = n.children ∨ m.children = n.children ++ [s.heap.length] ∨
          ∃ x, m.children = n.children.filter (fun c => c ≠ x))) ∨
      (deref s.heap a = none ∧ a = s.heap.length ∧ m.children = []) := by
    intro he; subst he
    exact fun a m hm => Or.inl ⟨m, hm, Or.inl rfl⟩
  have att : ∀ {p : Nat} {nm : Str} {file : Bool} {pn : Node}, deref s.heap p = some pn →
      attach s p nm file = some (s1, o) → ∀ a m, deref s1.heap a = some m →
      (∃ n, deref s.heap a = some n ∧
        (m.children = n.children ∨ m.children = n.children ++ [s.heap.length] ∨
          ∃ x, m.children = n.children.filter (fun c => c ≠ x))) ∨
      (deref s.heap a = none ∧ a = s.heap.length ∧ m.children = []) := by
    intro p nm file pn hp ha a m hm
    rcases attach_children hp ha a m hm with ⟨n, h0, h1 | h1⟩ | h0
    · exact Or.inl ⟨n, h0, Or.inl h1⟩
    · exact Or.inl ⟨n, h0, Or.inr (Or.inl h1)⟩
    · exact Or.inr h0
  cases c with
  | mkdir path =>
    simp only [exec] at h
    unfold mkdir at h
    split at h
    · cases h
    · cases h; exact same rfl
    · cases h; exact same rfl
    · split at h
      · cases h
      · cases h; exact same rfl
      · rename_i hf
        obtain ⟨pn, hp, -⟩ := findChild_none hf
        exact att hp h
  | touch path =>
    simp only [exec] at h
    unfold touch at h
    split at h
    · cases h
    · cases h; exact same rfl
    · split at h
      · cases h
      · cases h; exact same rfl
      · rename_i hf
        obtain ⟨pn, hp, -⟩ := findChild_none hf
        exact att hp h
  | edit path input =>
    simp only [exec] at h
    unfold edit at h
    split at h
    · cases h
    · cases h; exact same rfl
    · rename_i a0 l hr
      split at h
      · cases h
      · rename_i n hn
        split at h
        · cases h; exact same rfl
        · split at h
          · cases h
          · cases h
            intro a m hm
            simp only at hm
            by_cases ha : a0 = a
            · subst ha
              rw [deref_set_same _ (deref_lt hn)] at hm
              cases hm
              exact Or.inl ⟨n, hn, Or.inl rfl⟩
            · rw [deref_set_other _ ha] at hm
              exact Or.inl ⟨m, hm, Or.inl rfl⟩
  | cd path =>
    simp only [exec] at h
    unfold cd at h
    split at h
    · cases h
    · cases h; exact same rfl
    · split at h
      · cases h
      · split at h
        · cases h; exact same rfl
        · cases h
          exact fun a m hm => Or.inl ⟨m, hm, Or.inl rfl⟩
  | rm path =>
    simp only [exec] at h
    rcases rm_removed h with ⟨he, -⟩ | ⟨n, l, nd, p, pn, h2, -, -, -, -, hpn, hdel, rfl, -⟩
    · exact same he
    · obtain ⟨sh, -, -⟩ := deleteRec_spec _ _ _ _ hdel
      intro a m hm
      have hm1 := sh.live hm
      by_cases ha : p = a
      · subst ha
        rw [deref_set_same _ (deref_lt hpn)] at hm1
        cases hm1
        exact Or.inl ⟨pn, hpn, Or.inr (Or.inr ⟨n, rfl⟩)⟩
      · rw [deref_set_other _ ha] at hm1
        exact Or.inl ⟨m, hm1, Or.inl rfl⟩

theorem CreationOrder_exec {s s1 : FileSystem} {c : Cmd} {o : Outcome} (wf : WF s)
    (co : CreationOrder s.heap) (h : exec s c = some (s1, o)) : CreationOrder s1.heap := by
  intro a m hm
  rcases exec_children h a m hm with ⟨n, hn, h1 | h1 | ⟨x, h1⟩⟩ | ⟨-, -, h1⟩
  · rw [h1]; exact co a n hn
  · rw [h1]
    unfold List.Sorted
    rw [List.pairwise_append]
    refine ⟨co a n hn, List.pairwise_singleton _ _, ?_⟩
    intro c hc b hb
    rw [List.mem_singleton] at hb
    subst hb
    obtain ⟨-, cn, hcn, -⟩ := wf.heapOk.childOk a n hn c hc
    exact deref_lt hcn
  · rw [h1]
    exact List.Pairwise.sublist (List.filter_sublist _) (co a n hn)
  · rw [h1]
    exact List.sorted_nil

theorem CreationOrder_reachable {s : FileSystem} (h : Reachable s) : CreationOrder s.heap := by
  have key : ∀ {s0 s1 : FileSystem}, ReachableFrom (fun _ => True) s0 s1 → WF s0 →
      CreationOrder s0.heap → CreationOrder s1.heap := by
    intro s0 s1 hr wf0 co0
    induction hr with
    | start => exact co0
    | step hprev _ he ih => exact CreationOrder_exec (WF_reachableFrom wf0 hprev) ih he
  refine key h WF_init ?_
  intro a n hn
  have ha : a = 0 := by
    have := deref_lt hn
    simp [FileSystem.init] at this
    exact this
  subst ha
  simp [FileSystem.init, deref] at hn
  subst hn
  exact List.sorted_nil

/-! ## The claims -/

/-- C1 (counterexample). After `mkdir /` in a fresh session the root has a child (address 1)
whose name is empty; `getPath` of that node is "/" and `resolve("/", true)` returns the root
(address 0), not the node. -/
theorem getPath_roundtrip_counterexample :
    run FileSystem.init [Cmd.mkdir ['/']] = some stateMkdirSlash ∧
    Reachable stateMkdirSlash ∧ InTree stateMkdirSlash 1 ∧
    getPath stateMkdirSlash 1 = some ['/'] ∧
    resolve stateMkdirSlash ['/'] true = some (some 0, []) ∧
    ¬ (∃ p, getPath stateMkdirSlash 1 = some p ∧
        resolve stateMkdirSlash p true = some (some 1, [])) := by
  have hrun : run FileSystem.init [Cmd.mkdir ['/']] = some stateMkdirSlash := by decide
  refine ⟨hrun, reachable_run hrun, ⟨by decide, [[]], ?_⟩, by decide, by decide, by decide⟩
  exact descends_step 0 1 ⟨[], false, [], none, [1]⟩ ⟨[], false, [], some 0, []⟩
    Descends.here (by decide) (by decide) (by decide)

/-- C1 (amended). In every reachable state, for every node `N` reached from the root through
child names none of which is "", "." or "..", `getPath N` is defined and
`resolve(getPath N, true)` returns exactly `N`; the root (empty chain) has the path "/". -/
theorem getPath_resolve_roundtrip (s : FileSystem) (hs : Reachable s) (N : Nat)
    (names : List Str) (d : Descends s.heap s.root names N) (hn : ∀ x ∈ names, Normal x) :
    ∃ p, getPath s N = some p ∧ resolve s p true = some (some N, []) ∧
      (N = s.root → p = ['/']) := by
  have wf := WF_reachable hs
  refine ⟨joinParts names ['/'], getPath_descends wf d, roundtrip_core wf d hn true, ?_⟩
  intro hN
  subst hN
  have := descends_le wf.heapOk d
  have hl : names = [] := by
    apply List.eq_nil_of_length_eq_zero; omega
  subst hl
  rfl

/-- Witness of C1 (amended): node `/a/b` after `mkdir /a`, `mkdir /a/b`. -/
theorem getPath_resolve_roundtrip_witness :
    Reachable stateAB ∧ Descends stateAB.heap stateAB.root [['a'], ['b']] 2 ∧
    (∀ x ∈ [['a'], ['b']], Normal x) ∧
    ∃ p, getPath stateAB 2 = some p ∧ resolve stateAB p true = some (some 2, []) ∧
      (2 = stateAB.root → p = ['/']) := by
  have hrun : run FileSystem.init [Cmd.mkdir ['/', 'a'], Cmd.mkdir ['/', 'a', '/', 'b']] =
      some stateAB := by decide
  have hd : Descends stateAB.heap stateAB.root [['a'], ['b']] 2 :=
    descends_step 1 2 ⟨['a'], false, [], some 0, [2]⟩ ⟨['b'], false, [], some 1, []⟩
      (descends_step 0 1 ⟨[], false, [], none, [1]⟩ ⟨['a'], false, [], some 0, [2]⟩
        Descends.here (by decide) (by decide) (by decide))
      (by decide) (by decide) (by decide)
  exact ⟨reachable_run hrun, hd, by decide,
    getPath_resolve_roundtrip stateAB (reachable_run hrun) 2 [['a'], ['b']] hd (by decide)⟩

/-- C2 (code evaluated at the failing input). In a fresh session `/a` does not exist:
`resolve("/a", false)` stops at the root with leftover `["a"]`. `mkdir /a/b` reports the missing
parent and changes nothing, but `touch /a/b` creates the file `b` under the root and reports
"File created: /b". -/
theorem touch_missing_parent_creates :
    resolve FileSystem.init ['/', 'a'] false = some (some 0, [['a']]) ∧
    mkdir FileSystem.init ['/', 'a', '/', 'b'] =
      some (FileSystem.init, Outcome.parentNotFound) ∧
    touch FileSystem.init ['/', 'a', '/', 'b'] =
      some ({ heap := [some ⟨[], false, [], none, [1]⟩, some ⟨['b'], true, [], some 0, []⟩],
              root := 0, cwd := 0 }, Outcome.created ['/', 'b']) := by
  decide

/-- C3. In any state, when the parent portion of the path resolves with an empty leftover to a
node `p` whose children are live and one of them (file or directory) already bears the new name,
both `mkdir` and `touch` report that the entry already exists and return the state unchanged. -/
theorem create_collision_rejected (s : FileSystem) (path : Str) (p : Nat) (pn : Node) (c : Nat)
    (cn : Node) (hres : resolve s (parentAndName path).1 false = some (some p, []))
    (hp : deref s.heap p = some pn) (hlive : ∀ x ∈ pn.children, (deref s.heap x).isSome)
    (hc : c ∈ pn.children) (hcn : deref s.heap c = some cn)
    (hname : cn.name = (parentAndName path).2) :
    mkdir s path = some (s, Outcome.alreadyExists) ∧
    touch s path = some (s, Outcome.alreadyExists) := by
  obtain ⟨c1, hf⟩ := findChildLoop_exists hlive ⟨c, cn, hc, hcn, hname⟩
  have hfc : findChild s.heap p (parentAndName path).2 = some (some c1) := by
    unfold findChild; simp only [hp]; exact hf
  constructor
  · unfold mkdir; simp only [hres, hfc]
  · unfold touch; simp only [hres, hfc]

/-- Witness of C3: after `touch /x`, both `mkdir /x` and `touch /x` are rejected. -/
theorem create_collision_rejected_witness :
    run FileSystem.init [Cmd.touch ['/', 'x']] = some stateX ∧
    mkdir stateX ['/', 'x'] = some (stateX, Outcome.alreadyExists) ∧
    touch stateX ['/', 'x'] = some (stateX, Outcome.alreadyExists) :=
  ⟨by decide,
    create_collision_rejected stateX ['/', 'x'] 0 ⟨[], false, [], none, [1]⟩ 1
      ⟨['x'], true, [], some 0, []⟩ (by decide) (by decide) (by decide) (by decide) (by decide)
      (by decide)⟩

/-- C4. In any state, a path that resolves to the root makes `rm` report "Cannot delete root."
and return the state (tree and cwd) unchanged. When the root is live and has no parent, this
covers the paths "/", "/.." and "/./..", and also "", "." and ".." when cwd is the root. -/
theorem rm_root_rejected (s : FileSystem) :
    (∀ path l, resolve s path true = some (some s.root, l) →
      rm s path = some (s, Outcome.cannotDeleteRoot)) ∧
    (∀ r, deref s.heap s.root = some r → r.parent = none →
      (∀ path ∈ [['/'], ['/', '.', '.'], ['/', '.', '/', '.', '.']],
        rm s path = some (s, Outcome.cannotDeleteRoot)) ∧
      (s.cwd = s.root → ∀ path ∈ [[], ['.'], ['.', '.']],
        rm s path = some (s, Outcome.cannotDeleteRoot))) := by
  have main : ∀ path l, resolve s path true = some (some s.root, l) →
      rm s path = some (s, Outcome.cannotDeleteRoot) := by
    intro path l h
    unfold rm
    simp only [h, if_true]
  refine ⟨main, ?_⟩
  intro r hr hpar
  have hdd : ∀ rest, resolveLoop s.heap (['.', '.'] :: rest) s.root true =
      resolveLoop s.heap rest s.root true := by
    intro rest
    rw [resolveLoop_cons]
    simp [hr, hpar]
  have hd : ∀ rest, resolveLoop s.heap (['.'] :: rest) s.root true =
      resolveLoop s.heap rest s.root true := by
    intro rest
    rw [resolveLoop_cons]
    simp
  have h1 : splitPath ['/'] = [] := by decide
  have h2 : splitPath ['/', '.', '.'] = [['.', '.']] := by decide
  have h3 : splitPath ['/', '.', '/', '.', '.'] = [['.'], ['.', '.']] := by decide
  have h4 : splitPath [] = [] := by decide
  have h5 : splitPath ['.'] = [['.']] := by decide
  have h6 : splitPath ['.', '.'] = [['.', '.']] := by decide
  constructor
  · intro path hp
    simp only [List.mem_cons, List.mem_singleton, List.not_mem_nil, or_false] at hp
    rcases hp with rfl | rfl | rfl
    · exact main _ [] (by unfold resolve; rw [h1]; rfl)
    · exact main _ [] (by unfold resolve; rw [h2, List.head?_cons, if_pos rfl, hdd]; rfl)
    · exact main _ [] (by unfold resolve; rw [h3, List.head?_cons, if_pos rfl, hd, hdd]; rfl)
  · intro hcwd path hp
    simp only [List.mem_cons, List.mem_singleton, List.not_mem_nil, or_false] at hp
    rcases hp with rfl | rfl | rfl
    · exact main _ [] (by unfold resolve; rw [h4, hcwd, ite_self]; rfl)
    · exact main _ [] (by unfold resolve; rw [h5, hcwd, ite_self, hd]; rfl)
    · exact main _ [] (by unfold resolve; rw [h6, hcwd, ite_self, hdd]; rfl)

/-- Witness of C4: with `cwd = /a`, the paths "..", "/" and "/./.." all address the root. -/
theorem rm_root_rejected_witness :
    resolve stateInA ['.', '.'] true = some (some stateInA.root, []) ∧
    rm stateInA ['.', '.'] = some (stateInA, Outcome.cannotDeleteRoot) ∧
    deref stateInA.heap stateInA.root = some ⟨[], false, [], none, [1]⟩ ∧
    rm stateInA ['/'] = some (stateInA, Outcome.cannotDeleteRoot) ∧
    rm stateInA ['/', '.', '/', '.', '.'] = some (stateInA, Outcome.cannotDeleteRoot) :=
  ⟨by decide, (rm_root_rejected stateInA).1 ['.', '.'] [] (by decide), by decide,
    ((rm_root_rejected stateInA).2 ⟨[], false, [], none, [1]⟩ (by decide) (by decide)).1 ['/']
      (by decide),
    ((rm_root_rejected stateInA).2 ⟨[], false, [], none, [1]⟩ (by decide) (by decide)).1
      ['/', '.', '/', '.', '.'] (by decide)⟩

/-- C5 (code evaluated at the failing input). After `mkdir a`, `cd a` the path `/a` resolves to
the non-root node at address 1, which is also cwd. `rm /a` succeeds, empties that cell and leaves
`cwd` pointing at it; afterwards `resolve(".", true)` and `resolve("", true)` still return the
deleted node. -/
theorem rm_cwd_still_resolved :
    run FileSystem.init [Cmd.mkdir ['a'], Cmd.cd ['a']] = some stateInA ∧
    resolve stateInA ['/', 'a'] true = some (some 1, []) ∧
    rm stateInA ['/', 'a'] = some (stateDangling, Outcome.removed) ∧
    deref stateDangling.heap 1 = none ∧
    resolve stateDangling ['.'] true = some (some 1, []) ∧
    resolve stateDangling [] true = some (some 1, []) := by
  decide

/-- C6 (counterexample). After `mkdir /a` the directory `a` (address 1) is in the tree and its
display path is "/a". `mkdir` of "/a" + "/" + ".." succeeds and creates a directory named `..`
at address 2, but resolving that same path right afterwards returns the root (address 0). -/
theorem create_then_resolve_counterexample :
    run FileSystem.init [Cmd.mkdir ['/', 'a']] = some stateA ∧
    deref stateA.heap 1 = some ⟨['a'], false, [], some 0, []⟩ ∧
    getPath stateA 1 = some ['/', 'a'] ∧
    mkdir stateA (['/', 'a'] ++ ['/'] ++ ['.', '.']) =
      some (stateDotDot, Outcome.created ['/', 'a', '/', '.', '.']) ∧
    deref stateA.heap 2 = none ∧
    deref stateDotDot.heap 2 = some ⟨['.', '.'], false, [], some 1, []⟩ ∧
    resolve stateDotDot (['/', 'a'] ++ ['/'] ++ ['.', '.']) true = some (some 0, []) := by
  decide

/-- C6 (amended). In every reachable state, for every node `D` of the tree (in particular every
directory) with display path `getPath D`, and every child name that contains no '/' and is none
of "", "." and "..": if `mkdir` (or `touch`) of `getPath D + "/" + childName` succeeds, then
resolving that path with `mustExist = true` in the new state succeeds and returns the node just
created, a cell that was empty before and now holds a directory (or file) of that name. -/
theorem create_then_resolve (s : FileSystem) (hs : Reachable s) (D : Nat) (hD : InTree s D)
    (dpath : Str) (hdp : getPath s D = some dpath) (childName : Str) (hnorm : Normal childName)
    (hslash : '/' ∉ childName) (s1 : FileSystem) (shown : Str) :
    (mkdir s (dpath ++ ['/'] ++ childName) = some (s1, Outcome.created shown) →
      ∃ d nd, deref s.heap d = none ∧ deref s1.heap d = some nd ∧ nd.name = childName ∧
        nd.isFile = false ∧
        resolve s1 (dpath ++ ['/'] ++ childName) true = some (some d, [])) ∧
    (touch s (dpath ++ ['/'] ++ childName) = some (s1, Outcome.created shown) →
      ∃ d nd, deref s.heap d = none ∧ deref s1.heap d = some nd ∧ nd.name = childName ∧
        nd.isFile = true ∧
        resolve s1 (dpath ++ ['/'] ++ childName) true = some (some d, [])) := by
  have wf := WF_reachable hs
  obtain ⟨-, names, hd⟩ := hD
  have hdp2 : dpath = joinParts names ['/'] := by
    rw [getPath_descends wf hd] at hdp
    exact (Option.some.inj hdp).symm
  have hne : dpath ≠ [] := by
    intro h0
    have := joinParts_head names
    rw [← hdp2, h0] at this
    cases this
  have hpath : dpath ++ ['/'] ++ childName = dpath ++ '/' :: childName := by simp
  have hpn : parentAndName (dpath ++ ['/'] ++ childName) = (dpath, childName) := by
    rw [hpath, parentAndName_split dpath childName hslash, if_neg hne]
  have hnorm2 : Normal (parentAndName (dpath ++ ['/'] ++ childName)).2 := by
    rw [hpn]; exact hnorm
  obtain ⟨b, hb⟩ := getPath_resolves wf hd
  rw [← hdp2] at hb
  constructor
  · intro h
    unfold mkdir at h
    split at h
    · cases h
    · cases h
    · cases h
    · rename_i p hr
      split at h
      · cases h
      · cases h
      · rename_i hf
        obtain ⟨h1, h2, h3⟩ := resolve_after_attach hr hf hnorm2 h
        rw [hpn] at h3
        exact ⟨_, _, h2, h3, rfl, rfl, h1⟩
  · intro h
    unfold touch at h
    split at h
    · cases h
    · cases h
    · rename_i p l hr
      have hl : l = [] := by
        rw [hpn] at hr
        simp only at hr
        rw [hb] at hr
        simp only [Option.some.injEq, Prod.mk.injEq] at hr
        exact hr.2.symm
      subst hl
      split at h
      · cases h
      · cases h
      · rename_i hf
        obtain ⟨h1, h2, h3⟩ := resolve_after_attach hr hf hnorm2 h
        rw [hpn] at h3
        exact ⟨_, _, h2, h3, rfl, rfl, h1⟩

/-- Witness of C6 (amended): with `cwd = /a`, `mkdir` of "/a" + "/" + "b". -/
theorem create_then_resolve_witness :
    Reachable stateInA ∧ InTree stateInA 1 ∧ getPath stateInA 1 = some ['/', 'a'] ∧
    Normal ['b'] ∧ '/' ∉ ['b'] ∧
    mkdir stateInA (['/', 'a'] ++ ['/'] ++ ['b']) =
      some (stateInAB, Outcome.created ['/', 'a', '/', 'b']) ∧
    ∃ d nd, deref stateInA.heap d = none ∧ deref stateInAB.heap d = some nd ∧ nd.name = ['b'] ∧
      nd.isFile = false ∧
      resolve stateInAB (['/', 'a'] ++ ['/'] ++ ['b']) true = some (some d, []) :=
  have hr : Reachable stateInA :=
    reachable_run (show run FileSystem.init [Cmd.mkdir ['a'], Cmd.cd ['a']] = some stateInA
      by decide)
  have hin : InTree stateInA 1 :=
    ⟨by decide, [['a']], descends_step 0 1 ⟨[], false, [], none, [1]⟩
      ⟨['a'], false, [], some 0, []⟩ Descends.here (by decide) (by decide) (by decide)⟩
  ⟨hr, hin, by decide, by decide, by decide, by decide,
    (create_then_resolve stateInA hr 1 hin ['/', 'a'] (by decide) ['b'] (by decide) (by decide)
      stateInAB ['/', 'a', '/', 'b']).1 (by decide)⟩

/-- C7 (code evaluated at the failing input). After `touch /f` the node at address 1 is a File
without children. `mkdir /f/d` resolves the parent portion `/f` to that File, does not look at
its kind, and succeeds: afterwards the File `f` has the directory `d` (address 2) in its children
sequence. `touch /f/e` is accepted in the same way. -/
theorem file_gets_child :
    run FileSystem.init [Cmd.touch ['/', 'f']] = some stateF ∧
    deref stateF.heap 1 = some ⟨['f'], true, [], some 0, []⟩ ∧
    mkdir stateF ['/', 'f', '/', 'd'] =
      some (stateFileChild, Outcome.created ['/', 'f', '/', 'd']) ∧
    deref stateFileChild.heap 1 = some ⟨['f'], true, [], some 0, [2]⟩ ∧
    deref stateFileChild.heap 2 = some ⟨['d'], false, [], some 1, []⟩ ∧
    (touch stateF ['/', 'f', '/', 'e']).map Prod.snd =
      some (Outcome.created ['/', 'f', '/', 'e']) := by
  decide

/-- C8 (counterexample). After `mkdir /a`, `mkdir /a/` the directory `a` has a child (address 2)
whose name is the empty string and which is not the root. -/
theorem empty_name_counterexample :
    run FileSystem.init [Cmd.mkdir ['/', 'a'], Cmd.mkdir ['/', 'a', '/']] =
      some stateTrailingSep ∧
    Reachable stateTrailingSep ∧ InTree stateTrailingSep 2 ∧
    deref stateTrailingSep.heap 2 = some ⟨[], false, [], some 1, []⟩ ∧
    2 ≠ stateTrailingSep.root := by
  have hrun : run FileSystem.init [Cmd.mkdir ['/', 'a'], Cmd.mkdir ['/', 'a', '/']] =
      some stateTrailingSep := by decide
  refine ⟨hrun, reachable_run hrun, ⟨by decide, [['a'], []], ?_⟩, by decide, by decide⟩
  exact descends_step 1 2 ⟨['a'], false, [], some 0, [2]⟩ ⟨[], false, [], some 1, []⟩
    (descends_step 0 1 ⟨[], false, [], none, [1]⟩ ⟨['a'], false, [], some 0, [2]⟩
      Descends.here (by decide) (by decide) (by decide))
    (by decide) (by decide) (by decide)

/-- C8 (amended). In every state reachable from the initial state by mkdir/touch/edit/cd/rm
commands whose mkdir and touch arguments are non-empty and do not end in '/', the root bears the
empty name and is the only node that does. -/
theorem nonroot_names_nonempty (s : FileSystem)
    (hs : ReachableFrom CreateArgOk FileSystem.init s) :
    (∃ r, deref s.heap s.root = some r ∧ r.name = []) ∧
    ∀ a n, deref s.heap a = some n → n.name = [] → a = s.root := by
  constructor
  · obtain ⟨r, hr, -, hn⟩ := (WF_reachable hs.weaken).heapOk.rootLive
    exact ⟨r, hr, hn⟩
  · induction hs with
    | start =>
      intro a n ha _
      match a with
      | 0 => rfl
      | k + 1 => simp [FileSystem.init, deref] at ha
    | step _ hok he ih =>
      rename_i s0 s1 c o
      intro a n ha hname
      obtain ⟨hroot, hn⟩ := exec_names he
      rw [hroot]
      rcases hn a n ha with ⟨n0, hn0, heq⟩ | ⟨-, path, hc, heq⟩
      · exact ih a n0 hn0 (by rw [← heq]; exact hname)
      · exfalso
        rw [hname] at heq
        rcases hc with rfl | rfl
        · exact parentAndName_name_ne_nil hok.1 hok.2 heq.symm
        · exact parentAndName_name_ne_nil hok.1 hok.2 heq.symm

/-- Witness of C8 (amended): the state after `mkdir /a`, `mkdir /a/b`. -/
theorem nonroot_names_nonempty_witness :
    ReachableFrom CreateArgOk FileSystem.init stateAB ∧
    (∃ r, deref stateAB.heap stateAB.root = some r ∧ r.name = []) ∧
    ∀ a n, deref stateAB.heap a = some n → n.name = [] → a = stateAB.root :=
  have hr : ReachableFrom CreateArgOk FileSystem.init stateAB :=
    reachableFrom_run [Cmd.mkdir ['/', 'a'], Cmd.mkdir ['/', 'a', '/', 'b']] _ _ _
      (by decide) ReachableFrom.start (by decide)
  ⟨hr, nonroot_names_nonempty stateAB hr⟩

/-- C9 (code evaluated at the failing input). After `mkdir a`, `cd a`, `rm /a` the session is in
a state whose `cwd` is the address of the deleted directory: the cell is empty, so cwd does not
refer to a node of the tree any more, and a following `cd .` dereferences the deleted node. -/
theorem cwd_dangles_after_rm :
    run FileSystem.init [Cmd.mkdir ['a'], Cmd.cd ['a'], Cmd.rm ['/', 'a']] =
      some stateDangling ∧
    stateDangling.cwd = 1 ∧ deref stateDangling.heap stateDangling.cwd = none ∧
    deref stateDangling.heap stateDangling.root = some ⟨[], false, [], none, []⟩ ∧
    cd stateDangling ['.'] = none := by
  decide

/-- C10. In every reachable state the children of a node are live and no two of them (at
different positions of the children sequence) bear the same name, whatever their kinds. -/
theorem sibling_names_unique (s : FileSystem) (hs : Reachable s) (a : Nat) (n : Node)
    (ha : deref s.heap a = some n) (i j ci cj : Nat) (hij : i ≠ j)
    (hi : n.children[i]? = some ci) (hj : n.children[j]? = some cj) :
    ∃ ni nj, deref s.heap ci = some ni ∧ deref s.heap cj = some nj ∧ ni.name ≠ nj.name := by
  have wf := (WF_reachable hs).heapOk
  have hci : ci ∈ n.children := List.getElem?_mem hi
  have hcj : cj ∈ n.children := List.getElem?_mem hj
  obtain ⟨-, ni, hni, -⟩ := wf.childOk a n ha ci hci
  obtain ⟨-, nj, hnj, -⟩ := wf.childOk a n ha cj hcj
  refine ⟨ni, nj, hni, hnj, ?_⟩
  intro heq
  have hnd := wf.namesNodup a n ha
  have hilt : i < (n.children.map (nameOf s.heap)).length := by
    rw [List.length_map]
    exact (List.getElem?_eq_some_iff.mp hi).1
  apply hij
  apply List.getElem?_inj hilt hnd
  rw [List.getElem?_map, List.getElem?_map, hi, hj]
  simp [nameOf, hni, hnj, heq]

/-- Witness of C10: the two children `a` (directory) and `b` (file) of the root after
`mkdir a`, `touch b`. -/
theorem sibling_names_unique_witness :
    Reachable stateTwo ∧ deref stateTwo.heap 0 = some ⟨[], false, [], none, [1, 2]⟩ ∧
    ∃ ni nj, deref stateTwo.heap 1 = some ni ∧ deref stateTwo.heap 2 = some nj ∧
      ni.name ≠ nj.name :=
  have hr : Reachable stateTwo :=
    reachable_run (show run FileSystem.init [Cmd.mkdir ['a'], Cmd.touch ['b']] = some stateTwo
      by decide)
  ⟨hr, by decide,
    sibling_names_unique stateTwo hr 0 ⟨[], false, [], none, [1, 2]⟩ (by decide) 0 1 1 2
      (by decide) (by decide) (by decide)⟩

/-- C11. In any state, when the parent portion of the argument (the text before the last '/')
does not resolve with an empty leftover, that is when lenient resolution returns a null node or
a non-empty leftover, `mkdir` reports "Parent path does not exist." and returns the state (tree
and cwd) unchanged. -/
theorem mkdir_missing_parent (s : FileSystem) (path : Str) (r : Option Nat) (l : List Str)
    (hres : resolve s (parentAndName path).1 false = some (r, l)) (hbad : r = none ∨ l ≠ []) :
    mkdir s path = some (s, Outcome.parentNotFound) := by
  unfold mkdir
  rw [hres]
  cases r with
  | none => rfl
  | some p =>
    cases l with
    | nil => rcases hbad with h | h <;> simp at h
    | cons x xs => rfl

/-- Witness of C11: `mkdir /a/b` in a fresh session, where `/a` does not exist. -/
theorem mkdir_missing_parent_witness :
    resolve FileSystem.init (parentAndName ['/', 'a', '/', 'b']).1 false =
      some (some 0, [['a']]) ∧
    mkdir FileSystem.init ['/', 'a', '/', 'b'] =
      some (FileSystem.init, Outcome.parentNotFound) :=
  ⟨by decide,
    mkdir_missing_parent FileSystem.init ['/', 'a', '/', 'b'] (some 0) [['a']] (by decide)
      (Or.inr (by decide))⟩

/-- C12. For every state and path: when strict resolution fails, `cd` reports "Path not found."
and returns the state unchanged; when it yields a File, `cd` reports "Not a directory." and
returns the state unchanged; when it yields a Directory, `cd` prints nothing and the new state
is the old one with cwd set to exactly that node. Whatever `cd` returns, heap and root are those
of the old state. -/
theorem cd_all_or_nothing (s : FileSystem) (path : Str) :
    (∀ l, resolve s path true = some (none, l) → cd s path = some (s, Outcome.notFound)) ∧
    (∀ a l n, resolve s path true = some (some a, l) → deref s.heap a = some n →
      n.isFile = true → cd s path = some (s, Outcome.notADirectory)) ∧
    (∀ a l n, resolve s path true = some (some a, l) → deref s.heap a = some n →
      n.isFile = false → cd s path = some ({ s with cwd := a }, Outcome.silent)) ∧
    (∀ s1 o, cd s path = some (s1, o) → s1.heap = s.heap ∧ s1.root = s.root) := by
  refine ⟨?_, ?_, ?_, ?_⟩
  · intro l h
    unfold cd
    rw [h]
  · intro a l n h hn hf
    unfold cd
    simp only [h, hn, hf, if_true]
  · intro a l n h hn hf
    unfold cd
    simp only [h, hn, hf, Bool.false_eq_true, if_false]
  · intro s1 o h
    unfold cd at h
    split at h
    · cases h
    · cases h; exact ⟨rfl, rfl⟩
    · split at h
      · cases h
      · split at h
        · cases h; exact ⟨rfl, rfl⟩
        · cases h; exact ⟨rfl, rfl⟩

/-- Witness of C12: in the state after `mkdir /a`, `mkdir /a/b`, `touch /a/b/c.txt`, `cd /a/b`,
the three outcomes of `cd zzz`, `cd c.txt` and `cd /a`. -/
theorem cd_all_or_nothing_witness :
    resolve stateScenario ['z', 'z', 'z'] true = some (none, []) ∧
    cd stateScenario ['z', 'z', 'z'] = some (stateScenario, Outcome.notFound) ∧
    resolve stateScenario ['c', '.', 't', 'x', 't'] true = some (some 3, []) ∧
    cd stateScenario ['c', '.', 't', 'x', 't'] = some (stateScenario, Outcome.notADirectory) ∧
    resolve stateScenario ['/', 'a'] true = some (some 1, []) ∧
    cd stateScenario ['/', 'a'] = some ({ stateScenario with cwd := 1 }, Outcome.silent) :=
  ⟨by decide, (cd_all_or_nothing stateScenario ['z', 'z', 'z']).1 [] (by decide),
    by decide,
    (cd_all_or_nothing stateScenario ['c', '.', 't', 'x', 't']).2.1 3 []
      ⟨['c', '.', 't', 'x', 't'], true, [], some 2, []⟩ (by decide) (by decide) (by decide),
    by decide,
    (cd_all_or_nothing stateScenario ['/', 'a']).2.2.1 1 []
      ⟨['a'], false, [], some 0, [2]⟩ (by decide) (by decide) (by decide)⟩

/-- C13. For every heap whose root is live and has no parent, with cwd = root, and every
`n >= 0`: the path made of `n` segments `..`, in the relative form `../..` and in the absolute
form `/../..`, resolves with `mustExist = true` to the root; and when the root is a directory,
`cd` with either path prints nothing and returns the state unchanged, so cwd stays the root. -/
theorem dotdot_saturates (s : FileSystem) (r : Node) (n : Nat)
    (hr : deref s.heap s.root = some r) (hpar : r.parent = none) (hcwd : s.cwd = s.root) :
    resolve s (dotdotPath n) true = some (some s.root, []) ∧
    resolve s ('/' :: dotdotPath n) true = some (some s.root, []) ∧
    (r.isFile = false →
      cd s (dotdotPath n) = some (s, Outcome.silent) ∧
      cd s ('/' :: dotdotPath n) = some (s, Outcome.silent)) := by
  have h1 : resolve s (dotdotPath n) true = some (some s.root, []) := by
    unfold resolve
    rw [splitPath_dotdot, hcwd, ite_self]
    exact resolveLoop_dotdots hr hpar true n
  have h2 : resolve s ('/' :: dotdotPath n) true = some (some s.root, []) := by
    unfold resolve
    rw [splitPath_sep_cons, splitPath_dotdot, List.head?_cons, if_pos rfl]
    exact resolveLoop_dotdots hr hpar true n
  refine ⟨h1, h2, ?_⟩
  intro hdir
  have hs : ({ s with cwd := s.root } : FileSystem) = s := by
    cases s
    simp only at hcwd
    subst hcwd
    rfl
  constructor
  · unfold cd
    simp only [h1, hr, hdir, Bool.false_eq_true, if_false, hs]
  · unfold cd
    simp only [h2, hr, hdir, Bool.false_eq_true, if_false, hs]

/-- Witness of C13: three `..` segments in the state after `mkdir /a`, `mkdir /a/b`. -/
theorem dotdot_saturates_witness :
    deref stateAB.heap stateAB.root = some ⟨[], false, [], none, [1]⟩ ∧
    stateAB.cwd = stateAB.root ∧
    dotdotPath 3 = ['.', '.', '/', '.', '.', '/', '.', '.'] ∧
    resolve stateAB (dotdotPath 3) true = some (some stateAB.root, []) ∧
    cd stateAB ('/' :: dotdotPath 3) = some (stateAB, Outcome.silent) :=
  ⟨by decide, by decide, by decide,
    (dotdot_saturates stateAB ⟨[], false, [], none, [1]⟩ 3 (by decide) (by decide)
      (by decide)).1,
    ((dotdot_saturates stateAB ⟨[], false, [], none, [1]⟩ 3 (by decide) (by decide)
      (by decide)).2.2 (by decide)).2⟩

/-- C14 (counterexample). In the state after `mkdir /a`, `mkdir /a/b`, `touch /a/b/c.txt`,
`cd /a/b`, `edit c.txt` with the text `hello` (the input lines `hello`, `END`) stores the six
characters `hello` and newline, not `hello`, and `cat c.txt` then shows that content. -/
theorem edit_cat_counterexample :
    run FileSystem.init [Cmd.mkdir ['/', 'a'], Cmd.mkdir ['/', 'a', '/', 'b'],
      Cmd.touch ['/', 'a', '/', 'b', '/', 'c', '.', 't', 'x', 't'],
      Cmd.cd ['/', 'a', '/', 'b']] = some stateScenario ∧
    edit stateScenario ['c', '.', 't', 'x', 't'] [['h', 'e', 'l', 'l', 'o'], ['E', 'N', 'D']] =
      some (stateEdited, Outcome.updated) ∧
    (deref stateEdited.heap 3).map Node.content = some ['h', 'e', 'l', 'l', 'o', '\n'] ∧
    (deref stateEdited.heap 3).map Node.content ≠ some ['h', 'e', 'l', 'l', 'o'] ∧
    cat stateEdited ['c', '.', 't', 'x', 't'] =
      some (Outcome.shown ['c', '.', 't', 'x', 't'] ['h', 'e', 'l', 'l', 'o', '\n']) := by
  decide

/-- C14 (amended). For every state, every path resolving to a File and every sequence of input
lines none of which is `END`, followed by the line `END`: `edit` reports "File updated." and
the file's content becomes exactly the lines, each followed by a newline, whatever the previous
content was (overwritten, not appended); no other cell, nor root or cwd, changes; and `cat` of
the same path then shows exactly that content (the "(empty file)" marker when there was no
line). -/
theorem edit_then_cat (s : FileSystem) (path : Str) (a : Nat) (l : List Str) (n : Node)
    (lines rest : List Str) (hres : resolve s path true = some (some a, l))
    (ha : deref s.heap a = some n) (hfile : n.isFile = true)
    (hend : ['E', 'N', 'D'] ∉ lines) :
    ∃ s1, edit s path (lines ++ ['E', 'N', 'D'] :: rest) = some (s1, Outcome.updated) ∧
      deref s1.heap a = some { n with content := linesText lines } ∧
      (∀ x, x ≠ a → deref s1.heap x = deref s.heap x) ∧ s1.root = s.root ∧ s1.cwd = s.cwd ∧
      cat s1 path = some (if linesText lines = [] then Outcome.emptyFile n.name
        else Outcome.shown n.name (linesText lines)) := by
  have hl : l = [] := by
    unfold resolve at hres
    exact resolveLoop_strict_nil _ _ _ _ hres
  subst hl
  have hread := readUntilEnd_lines lines rest [] hend
  rw [List.nil_append] at hread
  refine ⟨{ s with heap := s.heap.set a (some { n with content := linesText lines }) },
    ?_, ?_, ?_, rfl, rfl, ?_⟩
  · unfold edit
    simp only [hres, ha, hfile, Bool.true_eq_false, if_false, hread]
  · exact deref_set_same _ (deref_lt ha)
  · intro x hx
    exact deref_set_other _ (Ne.symm hx)
  · have hres1 : resolve ⟨s.heap.set a (some { n with content := linesText lines }), s.root,
        s.cwd⟩ path true = some (some a, []) := by
      unfold resolve at hres ⊢
      exact resolveLoop_extends (extends_set_content ha _) true true _ _ _ hres
    unfold cat
    rw [hres1]
    simp only [deref_set_same _ (deref_lt ha), hfile, Bool.true_eq_false, if_false]
    split <;> rfl

/-- Witness of C14 (amended): `edit c.txt` with the input lines `hello`, `END`. -/
theorem edit_then_cat_witness :
    resolve stateScenario ['c', '.', 't', 'x', 't'] true = some (some 3, []) ∧
    deref stateScenario.heap 3 = some ⟨['c', '.', 't', 'x', 't'], true, [], some 2, []⟩ ∧
    ['E', 'N', 'D'] ∉ [['h', 'e', 'l', 'l', 'o']] ∧
    linesText [['h', 'e', 'l', 'l', 'o']] = ['h', 'e', 'l', 'l', 'o', '\n'] ∧
    ∃ s1, edit stateScenario ['c', '.', 't', 'x', 't']
        ([['h', 'e', 'l', 'l', 'o']] ++ ['E', 'N', 'D'] :: []) = some (s1, Outcome.updated) ∧
      deref s1.heap 3 = some { (⟨['c', '.', 't', 'x', 't'], true, [], some 2, []⟩ : Node) with
        content := linesText [['h', 'e', 'l', 'l', 'o']] } ∧
      (∀ x, x ≠ 3 → deref s1.heap x = deref stateScenario.heap x) ∧
      s1.root = stateScenario.root ∧ s1.cwd = stateScenario.cwd ∧
      cat s1 ['c', '.', 't', 'x', 't'] =
        some (if linesText [['h', 'e', 'l', 'l', 'o']] = []
          then Outcome.emptyFile ['c', '.', 't', 'x', 't']
          else Outcome.shown ['c', '.', 't', 'x', 't'] (linesText [['h', 'e', 'l', 'l', 'o']])) :=
  ⟨by decide, by decide, by decide, by decide,
    edit_then_cat stateScenario ['c', '.', 't', 'x', 't'] 3 []
      ⟨['c', '.', 't', 'x', 't'], true, [], some 2, []⟩ [['h', 'e', 'l', 'l', 'o']] []
      (by decide) (by decide) (by decide) (by decide)⟩

/-- C15. In every reachable state and for every query `q`, the traversal of `search` returns
(with the fuel `search` gives it), the nodes it collects have no duplicates and are exactly the
nodes of the tree under the true root whose name equals `q` (cwd plays no part); with no match
`search` reports "Not found.", otherwise it prints one line per collected node, in order: the
node's `getPath` followed by "/" exactly when the node is a directory. -/
theorem search_exhaustive (s : FileSystem) (hs : Reachable s) (q : Str) :
    ∃ results, searchNodes s q = some results ∧ results.Nodup ∧
      (∀ x, x ∈ results ↔ InTree s x ∧ nameOf s.heap x = some q) ∧
      (results = [] → search s q = some SearchOutput.notFound) ∧
      (results ≠ [] → ∃ lines, search s q = some (SearchOutput.found lines) ∧
        List.Forall₂ (fun x line => ∃ p n, getPath s x = some p ∧ deref s.heap x = some n ∧
          line = p ++ (if n.isFile then [] else ['/'])) results lines) := by
  obtain ⟨results, hres, hnd, hmem⟩ := searchNodes_spec hs q
  refine ⟨results, hres, hnd, hmem, ?_, ?_⟩
  · intro he
    unfold search
    simp only [hres, he, if_true]
  · intro hne
    obtain ⟨lines, hl, hf⟩ := search_lines hs results
      (fun x hx => (inTree_iff_live hs x).mp ((hmem x).mp hx).1)
    refine ⟨lines, ?_, hf⟩
    unfold search
    simp only [hres, hne, if_false, hl]

/-- Witness of C15: after `mkdir /a`, `mkdir /a/b`, `touch /a/b/c.txt`, `cd /a/b` the command
`search c.txt` prints the single line `/a/b/c.txt`, and `search b` prints `/a/b/`. -/
theorem search_exhaustive_witness :
    Reachable stateScenario ∧
    search stateScenario ['c', '.', 't', 'x', 't'] =
      some (SearchOutput.found [['/', 'a', '/', 'b', '/', 'c', '.', 't', 'x', 't']]) ∧
    search stateScenario ['b'] = some (SearchOutput.found [['/', 'a', '/', 'b', '/']]) ∧
    ∃ results, searchNodes stateScenario ['b'] = some results ∧ results.Nodup ∧
      (∀ x, x ∈ results ↔ InTree stateScenario x ∧ nameOf stateScenario.heap x = some ['b']) ∧
      (results = [] → search stateScenario ['b'] = some SearchOutput.notFound) ∧
      (results ≠ [] → ∃ lines, search stateScenario ['b'] = some (SearchOutput.found lines) ∧
        List.Forall₂ (fun x line => ∃ p n, getPath stateScenario x = some p ∧
          deref stateScenario.heap x = some n ∧
          line = p ++ (if n.isFile then [] else ['/'])) results lines) :=
  have hr : Reachable stateScenario :=
    reachable_run (show run FileSystem.init [Cmd.mkdir ['/', 'a'], Cmd.mkdir ['/', 'a', '/', 'b'],
      Cmd.touch ['/', 'a', '/', 'b', '/', 'c', '.', 't', 'x', 't'],
      Cmd.cd ['/', 'a', '/', 'b']] = some stateScenario by decide)
  ⟨hr, by decide, by decide, search_exhaustive stateScenario hr ['b']⟩

/-- C16. In any state whose cwd is live with live children, `ls` returns; it reports "(empty)"
exactly when cwd has no children; otherwise the entries it prints are a permutation of the list
obtained by mapping each child of cwd to its name (file) or its name followed by "/"
(directory), and they are in non-decreasing order, where the order is the lexicographic order
on characters (`a <= b` when `b < a` does not hold). -/
theorem ls_sorted_listing (s : FileSystem) (n : Node) (hcwd : deref s.heap s.cwd = some n)
    (hlive : ∀ c ∈ n.children, (deref s.heap c).isSome) :
    ∃ out, ls s = some out ∧ (out = LsOutput.empty ↔ n.children = []) ∧
      (∀ l, out = LsOutput.entries l →
        l.Perm (n.children.map (lsEntry s.heap)) ∧ l.Sorted StrLe) ∧
      ∀ a b, StrLe a b ↔ ¬ List.Lex (fun x y => x < y) b a := by
  have hle : ∀ a b, StrLe a b ↔ ¬ List.Lex (fun x y => x < y) b a := by
    intro a b
    unfold StrLe
    rw [← strLt_iff_lex]
    simp
  by_cases hc : n.children = []
  · refine ⟨LsOutput.empty, ?_, ?_, ?_, hle⟩
    · unfold ls
      simp only [hcwd, hc, if_true]
    · simp [hc]
    · intro l h; cases h
  · refine ⟨LsOutput.entries (sortStrings (n.children.map (lsEntry s.heap))), ?_, ?_, ?_, hle⟩
    · unfold ls
      simp only [hcwd, hc, if_false, lsNames_eq n.children hlive]
    · simp [hc]
    · intro l h
      cases h
      exact sortStrings_spec _

/-- Witness of C16: at the root after `mkdir b`, `touch a` (children `b/` and `a`, in that
order), `ls` prints `a` before `b/`. -/
theorem ls_sorted_listing_witness :
    deref stateBA.heap stateBA.cwd = some ⟨[], false, [], none, [1, 2]⟩ ∧
    ls stateBA = some (LsOutput.entries [['a'], ['b', '/']]) ∧
    ∃ out, ls stateBA = some out ∧
      (out = LsOutput.empty ↔ (⟨[], false, [], none, [1, 2]⟩ : Node).children = []) ∧
      (∀ l, out = LsOutput.entries l →
        l.Perm ((⟨[], false, [], none, [1, 2]⟩ : Node).children.map (lsEntry stateBA.heap)) ∧
        l.Sorted StrLe) ∧
      ∀ a b, StrLe a b ↔ ¬ List.Lex (fun x y => x < y) b a :=
  ⟨by decide, by decide,
    ls_sorted_listing stateBA ⟨[], false, [], none, [1, 2]⟩ (by decide) (by decide)⟩

/-- C17. Lenient resolution. In a reachable state, for an absolute path or a live cwd,
`resolve(path, false)` returns a node (never null). In any state, when it returns `(r, l)`:
`r` is a node `n`; `l` is a suffix of `splitPath path`, and the consumed prefix resolves from
the start node to `n`; `l` is empty exactly when `resolve(path, true)` succeeds, and then both
return `n`; and when `l` is not empty, its first segment is neither `.` nor `..`, no child of
`n` bears it, and `resolve(path, true)` fails. -/
theorem resolve_lenient (s : FileSystem) (path : Str) :
    (Reachable s → (path.head? = some '/' ∨ (deref s.heap s.cwd).isSome) →
      ∃ n l, resolve s path false = some (some n, l)) ∧
    (∀ r l, resolve s path false = some (r, l) →
      ∃ n pre, r = some n ∧ splitPath path = pre ++ l ∧
        resolveLoop s.heap pre (if path.head? = some '/' then s.root else s.cwd) true =
          some (some n, []) ∧
        (l = [] ↔ ∃ m, resolve s path true = some (some m, [])) ∧
        (l = [] → resolve s path true = some (some n, [])) ∧
        (∀ x rest, l = x :: rest → x ≠ ['.'] ∧ x ≠ ['.', '.'] ∧
          (∃ nd, deref s.heap n = some nd ∧
            ∀ c ∈ nd.children, ∃ m, deref s.heap c = some m ∧ m.name ≠ x) ∧
          resolve s path true = some (none, []))) := by
  have main : ∀ r l, resolve s path false = some (r, l) →
      ∃ n pre, r = some n ∧ splitPath path = pre ++ l ∧
        resolveLoop s.heap pre (if path.head? = some '/' then s.root else s.cwd) true =
          some (some n, []) ∧
        (l = [] ↔ ∃ m, resolve s path true = some (some m, [])) ∧
        (l = [] → resolve s path true = some (some n, [])) ∧
        (∀ x rest, l = x :: rest → x ≠ ['.'] ∧ x ≠ ['.', '.'] ∧
          (∃ nd, deref s.heap n = some nd ∧
            ∀ c ∈ nd.children, ∃ m, deref s.heap c = some m ∧ m.name ≠ x) ∧
          resolve s path true = some (none, [])) := by
    intro r l h
    unfold resolve at h
    obtain ⟨n, pre, h1, h2, -, h4, h5, h6⟩ := resolveLoop_lenient _ _ _ _ h
    refine ⟨n, pre, h1, h2, h4, ?_, h5, ?_⟩
    · constructor
      · intro hl; exact ⟨n, h5 hl⟩
      · rintro ⟨m, hm⟩
        cases l with
        | nil => rfl
        | cons x rest =>
          obtain ⟨-, -, -, g⟩ := h6 x rest rfl
          unfold resolve at hm
          rw [g] at hm
          cases hm
    · intro x rest hl
      obtain ⟨g1, g2, g3, g4⟩ := h6 x rest hl
      exact ⟨g1, g2, findChild_none g3, g4⟩
  refine ⟨?_, main⟩
  intro hs hstart
  obtain ⟨r, l, hr, -⟩ := resolve_defined (WF_reachable hs) (Linked_reachable hs) path hstart
    false
  obtain ⟨n, -, hn, -⟩ := main r l hr
  subst hn
  exact ⟨n, l, hr⟩

/-- Witness of C17: `resolve("/a/x/y", false)` after `mkdir /a`, `mkdir /a/b` stops at `a` with
the leftover `x`, `y`. -/
theorem resolve_lenient_witness :
    resolve stateAB ['/', 'a', '/', 'x', '/', 'y'] false = some (some 1, [['x'], ['y']]) ∧
    ∃ n pre, some 1 = some n ∧
      splitPath ['/', 'a', '/', 'x', '/', 'y'] = pre ++ [['x'], ['y']] ∧
      resolveLoop stateAB.heap pre
        (if ['/', 'a', '/', 'x', '/', 'y'].head? = some '/' then stateAB.root else stateAB.cwd)
        true = some (some n, []) ∧
      ([['x'], ['y']] = [] ↔
        ∃ m, resolve stateAB ['/', 'a', '/', 'x', '/', 'y'] true = some (some m, [])) ∧
      ([['x'], ['y']] = [] →
        resolve stateAB ['/', 'a', '/', 'x', '/', 'y'] true = some (some n, [])) ∧
      (∀ x rest, [['x'], ['y']] = x :: rest → x ≠ ['.'] ∧ x ≠ ['.', '.'] ∧
        (∃ nd, deref stateAB.heap n = some nd ∧
          ∀ c ∈ nd.children, ∃ m, deref stateAB.heap c = some m ∧ m.name ≠ x) ∧
        resolve stateAB ['/', 'a', '/', 'x', '/', 'y'] true = some (none, [])) :=
  ⟨by decide,
    (resolve_lenient stateAB ['/', 'a', '/', 'x', '/', 'y']).2 (some 1) [['x'], ['y']]
      (by decide)⟩

/-- C18. Path segmentation is total (a function without failure); no segment it returns is
empty or contains '/'; the segments are the pieces of the string between separators, in order,
without the empty pieces (the specification's wording, `specSegments`), where those pieces are
free of '/' and give back the string when joined with '/'; concatenating the segments gives the
string without its '/' characters; the empty string has no segments; and a '/' added in front,
at the end, or next to another '/' does not change the result. -/
theorem splitPath_segments (path : Str) :
    (∀ x ∈ splitPath path, x ≠ [] ∧ '/' ∉ x) ∧
    splitPath path = specSegments path ∧
    (List.intercalate ['/'] (splitOnSep path) = path ∧ ∀ x ∈ splitOnSep path, '/' ∉ x) ∧
    (splitPath path).flatten = path.filter (fun c => c ≠ '/') ∧
    splitPath [] = [] ∧
    splitPath ('/' :: path) = splitPath path ∧
    splitPath (path ++ ['/']) = splitPath path ∧
    (∀ a b, path = a ++ '/' :: b → splitPath (a ++ '/' :: '/' :: b) = splitPath path) := by
  refine ⟨fun x hx => ⟨splitPath_ne_nil path x hx, splitPath_noSep path x hx⟩,
    splitPath_eq_spec path.length path (Nat.le_refl _), splitOnSep_intercalate path,
    splitPath_join path, rfl, splitPath_sep_cons path, ?_, ?_⟩
  · rw [splitPath_append_sep, splitPath_nil, List.append_nil]
  · intro a b h
    subst h
    rw [splitPath_append_sep, splitPath_sep_cons, splitPath_append_sep]

/-- Witness of C18: the path `//a///b/` has the segments `a`, `b`, as has `a/b`. -/
theorem splitPath_segments_witness :
    splitPath ['/', '/', 'a', '/', '/', '/', 'b', '/'] = [['a'], ['b']] ∧
    splitPath ['a', '/', 'b'] = [['a'], ['b']] ∧
    splitPath (['a'] ++ '/' :: '/' :: ['b']) = splitPath ['a', '/', 'b'] :=
  ⟨by decide, by decide,
    (splitPath_segments ['a', '/', 'b']).2.2.2.2.2.2.2 ['a'] ['b'] rfl⟩

/-- C19. In every reachable state whose cwd is live, `tree` returns (with the fuel it is given)
and prints one line per entry of the node sequence `out.map Prod.fst`; this sequence has no
duplicates, consists exactly of the nodes of the subtree rooted at cwd, starts with cwd, and is
the depth-first pre-order `specPreorder` from cwd, which for every node of the subtree is the
node followed by the pre-orders of its children in the order of its children sequence. Children
sequences are in creation order: a command leaves the children of a node unchanged, appends the
newly allocated node at the end, or removes one entry, so that every children sequence is
increasing in address (`CreationOrder`). The line of the root is "/", the line of every other
directory ends with "/", and in a fresh session `tree` prints the single line "/". -/
theorem tree_preorder (s : FileSystem) (hs : Reachable s)
    (hcwd : (deref s.heap s.cwd).isSome) :
    ∃ out, printTree s.heap s.root (s.heap.length + 1) s.cwd [] true = some out ∧
      tree s = some (out.map Prod.snd) ∧
      (out.map Prod.fst).Nodup ∧
      (∀ x, x ∈ out.map Prod.fst ↔ Under s.heap s.cwd x) ∧
      (out.map Prod.fst).head? = some s.cwd ∧
      out.map Prod.fst = specPreorder s.heap (s.heap.length + 1) s.cwd ∧
      (∀ a n, Under s.heap s.cwd a → deref s.heap a = some n →
        specPreorder s.heap (s.heap.length + 1) a =
          a :: (n.children.map (specPreorder s.heap (s.heap.length + 1))).flatten) ∧
      CreationOrder s.heap ∧
      (∀ c s1 o, exec s c = some (s1, o) → ∀ a n m, deref s.heap a = some n →
        deref s1.heap a = some m →
        m.children = n.children ∨ m.children = n.children ++ [s.heap.length] ∨
          ∃ x, m.children = n.children.filter (fun c => c ≠ x)) ∧
      (∀ p ∈ out, ∃ n, deref s.heap p.1 = some n ∧ (p.1 = s.root → p.2 = ['/']) ∧
        (p.1 ≠ s.root → n.isFile = false → p.2.getLast? = some '/')) ∧
      tree FileSystem.init = some [['/']] := by
  have wf := (WF_reachable hs).heapOk
  obtain ⟨cn, hcn⟩ := Option.isSome_iff_exists.mp hcwd
  have hl := deref_lt hcn
  obtain ⟨out, ho, hm, hp⟩ := printTree_spec wf (s.heap.length + 1) s.cwd [] true hcwd
    (by omega)
  obtain ⟨hnd, hmem⟩ := specPreorder_mem wf (s.heap.length + 1) s.cwd hcwd (by omega)
  have heq : ∀ a n, Under s.heap s.cwd a → deref s.heap a = some n →
      specPreorder s.heap (s.heap.length + 1) a =
        a :: (n.children.map (specPreorder s.heap (s.heap.length + 1))).flatten := by
    intro a n _ hn
    rw [specPreorder_succ s.heap s.heap.length a n hn]
    congr 2
    apply List.map_congr_left
    intro c hc
    obtain ⟨hac, m, hcm, -⟩ := wf.childOk a n hn c hc
    have := deref_lt hcm
    exact specPreorder_stable wf _ _ c (by simp [hcm]) (by omega) (by omega)
  refine ⟨out, ho, ?_, ?_, ?_, ?_, hm, heq, CreationOrder_reachable hs, ?_, hp, by decide⟩
  · unfold tree
    simp only [ho]
  · rw [hm]; exact hnd
  · intro x; rw [hm]; exact hmem x
  · rw [hm, heq s.cwd cn (Under.self _ _) hcn]
    rfl
  · intro c s1 o he a n m hn hm1
    rcases exec_children he a m hm1 with ⟨n1, hn1, h1⟩ | ⟨h0, -⟩
    · rw [hn] at hn1; cases hn1
      exact h1
    · rw [hn] at h0; cases h0

/-- Witness of C19: at the root after `mkdir b`, `touch a` the command `tree` prints `/`, then
the directory `b/`, then the file `a`: creation order, where `ls` prints `a` first. -/
theorem tree_preorder_witness :
    Reachable stateBA ∧
    tree stateBA = some [['/'], [' ', ' ', ' ', ' ', '├', '─', '─', ' ', 'b', '/'],
      [' ', ' ', ' ', ' ', '└', '─', '─', ' ', 'a']] ∧
    ∃ out, printTree stateBA.heap stateBA.root (stateBA.heap.length + 1) stateBA.cwd [] true
        = some out ∧
      tree stateBA = some (out.map Prod.snd) ∧
      (out.map Prod.fst).Nodup ∧
      (∀ x, x ∈ out.map Prod.fst ↔ Under stateBA.heap stateBA.cwd x) ∧
      (out.map Prod.fst).head? = some stateBA.cwd ∧
      out.map Prod.fst = specPreorder stateBA.heap (stateBA.heap.length + 1) stateBA.cwd ∧
      (∀ a n, Under stateBA.heap stateBA.cwd a → deref stateBA.heap a = some n →
        specPreorder stateBA.heap (stateBA.heap.length + 1) a =
          a :: (n.children.map (specPreorder stateBA.heap (stateBA.heap.length + 1))).flatten) ∧
      CreationOrder stateBA.heap ∧
      (∀ c s1 o, exec stateBA c = some (s1, o) → ∀ a n m, deref stateBA.heap a = some n →
        deref s1.heap a = some m →
        m.children = n.children ∨ m.children = n.children ++ [stateBA.heap.length] ∨
          ∃ x, m.children = n.children.filter (fun c => c ≠ x)) ∧
      (∀ p ∈ out, ∃ n, deref stateBA.heap p.1 = some n ∧ (p.1 = stateBA.root → p.2 = ['/']) ∧
        (p.1 ≠ stateBA.root → n.isFile = false → p.2.getLast? = some '/')) ∧
      tree FileSystem.init = some [['/']] :=
  have hr : Reachable stateBA :=
    reachable_run (show run FileSystem.init [Cmd.mkdir ['b'], Cmd.touch ['a']] = some stateBA
      by decide)
  ⟨hr, by decide, tree_preorder stateBA hr (by decide)⟩

/-- C20. In every reachable state in which no node other than the root is named "", "." or
"..", for every node `N` of the tree, reached from the root through the child names `names`:
`getPath N` is "/" followed by those names joined by "/", `resolve(getPath N, true)` returns
exactly `N`, and none of the names contains '/'. -/
theorem roundtrip_when_names_normal (s : FileSystem) (hs : Reachable s)
    (hnames : ∀ a n, deref s.heap a = some n → a ≠ s.root → Normal n.name) (N : Nat)
    (names : List Str) (d : Descends s.heap s.root names N) :
    getPath s N = some ('/' :: List.intercalate ['/'] names) ∧
    resolve s ('/' :: List.intercalate ['/'] names) true = some (some N, []) ∧
    ∀ x ∈ names, '/' ∉ x := by
  have wf := WF_reachable hs
  have hstored := descends_names_stored wf.heapOk d
  have hn : ∀ x ∈ names, Normal x := by
    intro x hx
    obtain ⟨c, cn, hc, hlt, hname⟩ := hstored x hx
    rw [← hname]
    exact hnames c cn hc (by omega)
  refine ⟨?_, ?_, ?_⟩
  · rw [getPath_descends wf d, joinParts_sep_eq]
  · rw [← joinParts_sep_eq]
    exact roundtrip_core wf d hn true
  · intro x hx
    obtain ⟨c, cn, hc, -, hname⟩ := hstored x hx
    rw [← hname]
    exact wf.heapOk.noSlash c cn hc

/-- Witness of C20: the node `/a/b` after `mkdir /a`, `mkdir /a/b`. -/
theorem roundtrip_when_names_normal_witness :
    Reachable stateAB ∧
    (∀ a n, deref stateAB.heap a = some n → a ≠ stateAB.root → Normal n.name) ∧
    Descends stateAB.heap stateAB.root [['a'], ['b']] 2 ∧
    getPath stateAB 2 = some ('/' :: List.intercalate ['/'] [['a'], ['b']]) ∧
    resolve stateAB ('/' :: List.intercalate ['/'] [['a'], ['b']]) true = some (some 2, []) ∧
    ∀ x ∈ [['a'], ['b']], '/' ∉ x := by
  have hrun : run FileSystem.init [Cmd.mkdir ['/', 'a'], Cmd.mkdir ['/', 'a', '/', 'b']] =
      some stateAB := by decide
  have hd : Descends stateAB.heap stateAB.root [['a'], ['b']] 2 :=
    descends_step 1 2 ⟨['a'], false, [], some 0, [2]⟩ ⟨['b'], false, [], some 1, []⟩
      (descends_step 0 1 ⟨[], false, [], none, [1]⟩ ⟨['a'], false, [], some 0, [2]⟩
        Descends.here (by decide) (by decide) (by decide))
      (by decide) (by decide) (by decide)
  have hnm : ∀ a n, deref stateAB.heap a = some n → a ≠ stateAB.root → Normal n.name := by
    intro a n ha hne
    match a with
    | 0 => exact absurd rfl hne
    | 1 => simp [stateAB, deref] at ha; subst ha; decide
    | 2 => simp [stateAB, deref] at ha; subst ha; decide
    | k + 3 => simp [stateAB, deref] at ha
  exact ⟨reachable_run hrun, hnm, hd,
    roundtrip_when_names_normal stateAB (reachable_run hrun) hnm 2 [['a'], ['b']] hd⟩

end FileSystemSim
